import Mathlib

/-!
# DigitalArche: clip playback, layer collection, track triggering, shader macros, regions

A shallow embedding of

* `src/vox.render/animation/animator_clip.h` and
  `src/vox.render/animation/animator_state.cpp` (one playback clip),
* `src/vox.render/animation/animator_blending.cpp` (the per-frame layer collection),
* `src/vox.animation/runtime/track_triggering_job.h` (edge iterator, sentinel and comparison),
* `src/vox.render/shader/shader_macro_collection.h` (the macro map),
* `src/vox.geometry/region.h` (voxel regions),
* `src/vox.geometry/surface_set3.cpp` and `src/vox.geometry/plane3.cpp` (surface sets).

Conventions of the embedding.

* The clip is embedded twice. In `vox.AnimatorState` a C++ `float` is an exact rational
  number; the statements proved there observe assignments, comparisons and the clamp, or
  arithmetic that is exact on the values concerned. In `vox.binary32.AnimatorState` a
  `float` is a `Float32`, an IEEE 754 binary32 value (finite, infinite or NaN), and every
  arithmetic operation rounds to nearest, ties to even; the statements that bound or
  locate the result of an arithmetic operation are proved there.
* In the other exact definitions (tracks, blending weights, planes and rays) a `float` or
  `double` is an exact rational number, and the quotient `x / d` is only meaningful for
  `d ≠ 0`.
* An `ssize_t` is a 64-bit two's complement integer. Signed overflow is undefined
  behaviour in the source; an operation that overflows has the wrapped result that the
  machine instruction leaves. A `uint8_t` is a `Fin 256`, a `size_t` key a natural
  number.
* A pointer that can only be null or point at a member of the owning object is a `Bool`
  (`true` = bound).
* A virtual call on a class whose header is not part of the sources is a function
  parameter.
* A call into a job whose body is not part of the sources is a function parameter that
  gives the effect of the call on the buffer it writes.
-/

namespace vox

/-- The C library function `floorf` on the exact model: the largest integer that is not
above `x`, as a rational. -/
def floorf (x : ℚ) : ℚ := ((⌊x⌋ : ℤ) : ℚ)

/-- Modelled from the spec: `vox::clamp` of `vox.math/math_utils.h`, a header that is not
among the sources. The call site `vox::clamp(0.f, _ratio, 1.f)` carries the comment
"Clamps in the unit interval [0:1]" and the spec says that a non-looping clip clamps its
time ratio; the arguments are read as lower bound, value, upper bound. -/
def clamp (lo x hi : ℚ) : ℚ :=
  if x < lo then lo else if hi < x then hi else x

namespace animation

/-- The part of `animation::Animation` the clip reads: `duration()`. The class itself is
declared in `vox.animation/runtime/animation.h`, which is not among the sources. -/
structure Animation where
  duration : ℚ
  deriving DecidableEq

/-- The members of `animation::SamplingJob` that the clip touches. `animation` and
`context` are the two pointers (bound or null), `ratio` is the sampling position.
`runs` is an observation added by the embedding: the number of times `Run()` has been
invoked on the job. -/
structure SamplingJob where
  animation : Bool := false
  context : Bool := false
  ratio : ℚ := 0
  runs : Nat := 0
  deriving DecidableEq

end animation

/-- `AnimatorClip::BlendMode`. -/
inductive BlendMode where
  | Normal
  | Additive
  deriving DecidableEq

/-- The clip object. Its members are declared in `animator_clip.h` (class `AnimatorClip`)
and its member functions are defined in `animator_state.cpp` (class `AnimatorState`);
the field defaults are the default member initialisers of the header. `T` is the type of
one SoA local transform. -/
structure AnimatorState (T : Type) where
  blendMode : BlendMode := BlendMode.Normal
  playback_speed : ℚ := 1
  play : Bool := true
  loop : Bool := true
  _sampling_job : animation.SamplingJob := {}
  _animation : animation.Animation
  _locals : List T := []
  _time_ratio : ℚ := 0
  _previous_time_ratio : ℚ := 0

/-- The header names the class `AnimatorClip`. -/
abbrev AnimatorClip (T : Type) : Type := AnimatorState T

namespace AnimatorState

variable {T : Type}

/-- `AnimatorState::loadAnimation`. `file` is what reading the archive gives: `none` when
the file cannot be opened or carries the wrong tag, `some a` when an animation is read
into `_animation`. -/
def loadAnimation (s : AnimatorState T) (file : Option animation.Animation) :
    Bool × AnimatorState T :=
  match file with
  | none => (false, s)
  | some a => (true, { s with _animation := a })

/-- `AnimatorState::AnimatorState(const char*)`. `a0` is the value of a default
constructed `Animation`, the initial content of the member `_animation`. -/
def ctor (a0 : animation.Animation) (file : Option animation.Animation) : AnimatorState T :=
  let s0 : AnimatorState T := { _animation := a0 }
  let r := s0.loadAnimation file
  if r.1 then
    { r.2 with _sampling_job := { r.2._sampling_job with animation := true, context := true } }
  else r.2

/-- `AnimatorState::AnimatorState(AnimatorState&&)`: the member initialiser list takes
`_time_ratio` and `_animation` from the source object, every other member keeps its
default member initialiser, and the body binds the animation pointer. -/
def moveCtor (state : AnimatorState T) : AnimatorState T :=
  let s0 : AnimatorState T :=
    { _time_ratio := state._time_ratio, _animation := state._animation }
  { s0 with _sampling_job := { s0._sampling_job with animation := true } }

/-- `AnimatorState::timeRatio`. -/
def timeRatio (s : AnimatorState T) : ℚ := s._time_ratio

/-- `AnimatorState::previousTimeRatio`. -/
def previousTimeRatio (s : AnimatorState T) : ℚ := s._previous_time_ratio

/-- `AnimatorState::setTimeRatio`. -/
def setTimeRatio (s : AnimatorState T) (_ratio : ℚ) : AnimatorState T :=
  let s1 := { s with _previous_time_ratio := s._time_ratio }
  if s1.loop then
    { s1 with _time_ratio := _ratio - floorf _ratio }
  else
    { s1 with _time_ratio := clamp 0 _ratio 1 }

/-- `AnimatorState::_update`. `Run s` is the content of the output buffer `_locals` after
`_sampling_job.Run()` has been called on the clip in state `s`. -/
def _update (Run : AnimatorState T → List T) (s : AnimatorState T) (dt : ℚ) :
    AnimatorState T :=
  let new_time :=
    if s.play then s._time_ratio + dt * s.playback_speed / s._animation.duration
    else s._time_ratio
  let s1 := s.setTimeRatio new_time
  let s2 := { s1 with _sampling_job := { s1._sampling_job with ratio := s1.timeRatio } }
  if s2._sampling_job.animation then
    { s2 with
      _sampling_job := { s2._sampling_job with runs := s2._sampling_job.runs + 1 }
      _locals := Run s2 }
  else s2

/-- The local `new_time` of `AnimatorState::_update`, the ratio it hands to
`setTimeRatio`. -/
def newTime (s : AnimatorState T) (dt : ℚ) : ℚ :=
  if s.play then s._time_ratio + dt * s.playback_speed / s._animation.duration
  else s._time_ratio

/-- `AnimatorState::reset`. -/
def reset (s : AnimatorState T) : AnimatorState T :=
  { s with _previous_time_ratio := 0, _time_ratio := 0, playback_speed := 1, play := true }

/-- One thing a client can do to a clip: call a public member function or assign a public
data member. -/
inductive Op where
  | setTimeRatio (r : ℚ)
  | update (dt : ℚ)
  | reset
  | assignPlaybackSpeed (v : ℚ)
  | assignPlay (b : Bool)
  | assignLoop (b : Bool)
  | assignBlendMode (m : BlendMode)
  deriving DecidableEq

/-- The clip after one client operation. -/
def step (Run : AnimatorState T → List T) (s : AnimatorState T) : Op → AnimatorState T
  | Op.setTimeRatio r => s.setTimeRatio r
  | Op.update dt => s._update Run dt
  | Op.reset => s.reset
  | Op.assignPlaybackSpeed v => { s with playback_speed := v }
  | Op.assignPlay b => { s with play := b }
  | Op.assignLoop b => { s with loop := b }
  | Op.assignBlendMode m => { s with blendMode := m }

/-- The clip after a sequence of client operations, first operation first. -/
def run (Run : AnimatorState T → List T) (s : AnimatorState T) (ops : List Op) :
    AnimatorState T :=
  ops.foldl (step Run) s

end AnimatorState

namespace animation

/-- The member of `animation::BlendingJob::Layer` that `AnimatorBlending::update` sets:
`transform`, the view over one clip's buffer of local transforms, here the content of
that buffer. -/
structure Layer (T : Type) where
  transform : List T

/-- The members of `animation::BlendingJob` that `AnimatorBlending` touches. -/
structure BlendingJob (T : Type) where
  layers : List (Layer T) := []
  additive_layers : List (Layer T) := []
  threshold : ℚ

end animation

/-- The members of `AnimatorBlending` used by `animator_blending.cpp`. -/
structure AnimatorBlending (T : Type) where
  _clips : List (AnimatorClip T)
  _layers : List (animation.Layer T)
  _additive_layers : List (animation.Layer T)
  _blend_job : animation.BlendingJob T
  _blended_locals : List T

namespace AnimatorBlending

variable {T : Type}

/-- The range-for loop of `AnimatorBlending::update` over the clips that are still to be
visited: the result is the visited clips after their update and the two layer vectors
after the pushes. `clipUpdate` is the member function `AnimatorClip::update`, which the
header declares and whose body is not among the sources. -/
def updateLoop (clipUpdate : AnimatorClip T → ℚ → AnimatorClip T) (dt : ℚ) :
    List (AnimatorClip T) → List (animation.Layer T) → List (animation.Layer T) →
      List (AnimatorClip T) × List (animation.Layer T) × List (animation.Layer T)
  | [], _layers, _additive_layers => ([], _layers, _additive_layers)
  | clip :: rest, _layers, _additive_layers =>
    let clip1 := clipUpdate clip dt
    let layer : animation.Layer T := { transform := clip1._locals }
    let r :=
      if clip1.blendMode = BlendMode.Normal then
        updateLoop clipUpdate dt rest (_layers ++ [layer]) _additive_layers
      else
        updateLoop clipUpdate dt rest _layers (_additive_layers ++ [layer])
    (clip1 :: r.1, r.2.1, r.2.2)

/-- `AnimatorBlending::update`. `Blend job out` is the content of the output buffer
`_blended_locals` after `_blend_job.Run()`. -/
def update (clipUpdate : AnimatorClip T → ℚ → AnimatorClip T)
    (Blend : animation.BlendingJob T → List T → List T)
    (b : AnimatorBlending T) (dt : ℚ) : AnimatorBlending T :=
  let b1 := { b with _layers := [], _additive_layers := [] }
  let r := updateLoop clipUpdate dt b1._clips b1._layers b1._additive_layers
  let job : animation.BlendingJob T :=
    { b1._blend_job with layers := r.2.1, additive_layers := r.2.2 }
  { b1 with
    _clips := r.1
    _layers := r.2.1
    _additive_layers := r.2.2
    _blend_job := job
    _blended_locals := Blend job b1._blended_locals }

/-- `AnimatorBlending::threshold`. -/
def threshold (b : AnimatorBlending T) : ℚ := b._blend_job.threshold

/-- `AnimatorBlending::setThreshold`. -/
def setThreshold (b : AnimatorBlending T) (value : ℚ) : AnimatorBlending T :=
  { b with _blend_job := { b._blend_job with threshold := value } }

end AnimatorBlending

namespace animation

/-- Modelled from the spec: one keyframe of a `FloatTrack`, "(time-ratio, value,
interpolation-hint)". The class `FloatTrack` is only forward declared in
`track_triggering_job.h`. -/
structure Keyframe where
  ratio : ℚ
  value : ℚ
  hint : Bool := false
  deriving DecidableEq

/-- Modelled from the spec: a `FloatTrack`, "conceptually a sequence of keyframes covering
the unit interval [0,1]", read-only for the triggering job. -/
structure FloatTrack where
  keys : List Keyframe
  deriving DecidableEq

/-- `TrackTriggeringJob::Edge`. -/
structure Edge where
  ratio : ℚ := 0
  rising : Bool := false
  deriving DecidableEq

/-- The data members of `TrackTriggeringJob`; `from_` and `to_` are the members `from` and
`to`. `track` is `none` for a null pointer; `iterator` tells whether the output pointer is
bound. -/
structure TrackTriggeringJob where
  from_ : ℚ
  to_ : ℚ
  threshold : ℚ
  track : Option FloatTrack
  iterator : Bool := true
  deriving DecidableEq

/-- `TrackTriggeringJob::Iterator`. `job_` is `none` for a null pointer and otherwise the
job the iterator works on. -/
structure Iterator where
  job_ : Option TrackTriggeringJob := none
  outer_ : ℚ := 0
  inner_ : ℤ := 0
  edge_ : Edge := {}
  deriving DecidableEq

namespace Iterator

/-- `Iterator::operator!=`. -/
def ne (a _it : Iterator) : Bool :=
  a.inner_ != _it.inner_ || a.outer_ != _it.outer_ || a.job_ != _it.job_

/-- `Iterator::operator==`. -/
def eq (a _it : Iterator) : Bool :=
  a.job_ == _it.job_ && a.outer_ == _it.outer_ && a.inner_ == _it.inner_

/-- `Iterator::Iterator(const TrackTriggeringJob*, End)`: the past-the-end iterator, whose
inner index `-2` "can never be reached while looping". -/
def ofEnd (_job : TrackTriggeringJob) : Iterator :=
  { job_ := some _job, outer_ := 0, inner_ := -2 }

end Iterator

namespace TrackTriggeringJob

/-- A job on the track `track` whose range is the single point `x`: `from == to == x`. -/
def pointJob (track : FloatTrack) (threshold x : ℚ) (iterator : Bool) : TrackTriggeringJob :=
  { from_ := x, to_ := x, threshold := threshold, track := some track, iterator := iterator }

/-- `TrackTriggeringJob::end`. -/
def end_ (job : TrackTriggeringJob) : Iterator := Iterator.ofEnd job

/-- Modelled from the spec: `TrackTriggeringJob::Validate`, declared in the header with
its body not among the sources: "fails (returns false) if `track == nullptr`". -/
def Validate (job : TrackTriggeringJob) : Bool :=
  job.track.isSome

/-- Modelled from the spec: `TrackTriggeringJob::Run`, declared in the header with its
body not among the sources: "fails if `!Validate()`; otherwise is a no-op that only
confirms the iterator is usable". -/
def Run (job : TrackTriggeringJob) : Bool :=
  if !job.Validate then false else true

end TrackTriggeringJob

/-- Modelled from the spec: a threshold crossing between the adjacent keyframes `k0` and
`k1`, if their values straddle `threshold`: "value ≤ threshold → > threshold for rising,
or > → ≤ for falling", with "the precise crossing ratio by linear interpolation between
the two keyframe values". The result is the ratio inside the unit interval and whether
the crossing rises in the track's forward direction. -/
def crossing (threshold : ℚ) (k0 k1 : Keyframe) : Option (ℚ × Bool) :=
  let alpha := (threshold - k0.value) / (k1.value - k0.value)
  let ratio := k0.ratio + alpha * (k1.ratio - k0.ratio)
  if k0.value ≤ threshold ∧ threshold < k1.value then some (ratio, true)
  else if threshold < k0.value ∧ k1.value ≤ threshold then some (ratio, false)
  else none

/-- Modelled from the spec: the crossings of one lap of the track in keyframe order, each
with the index of the second keyframe of its pair; `i` is the index of `k0`. -/
def lapCrossings (threshold : ℚ) : ℤ → List Keyframe → List (ℤ × ℚ × Bool)
  | i, k0 :: k1 :: rest =>
    match crossing threshold k0 k1 with
    | some c => (i + 1, c) :: lapCrossings threshold (i + 1) (k1 :: rest)
    | none => lapCrossings threshold (i + 1) (k1 :: rest)
  | _, _ => []

namespace Iterator

/-- Modelled from the spec: the forward scan of `operator++` ("scans forward from current
inner/outer position to the next keyframe pair whose value pair straddles threshold ...
advances the cursors past it"). `cs` are the crossings of one lap in keyframe order,
`laps` is the number of laps the outer cursor still has before it has "swept past `to`".
An edge is produced when it lies in the range that starts at `from` and stops before
`to`; without one the iterator becomes the job's `end()` sentinel. -/
def scanForward (job : TrackTriggeringJob) (cs : List (ℤ × ℚ × Bool)) :
    Nat → ℚ → ℤ → Iterator
  | 0, _, _ => job.end_
  | laps + 1, outer, inner =>
    match cs.find? (fun c => decide (inner ≤ c.1) && decide (job.from_ ≤ c.2.1 + outer)
        && decide (c.2.1 + outer < job.to_)) with
    | some c =>
      { job_ := some job, outer_ := outer, inner_ := c.1 + 1
        edge_ := { ratio := c.2.1 + outer, rising := c.2.2 } }
    | none => scanForward job cs laps (outer + 1) 0

/-- Modelled from the spec: the backward scan of `operator++` for `from > to` ("edges are
produced in the reversed traversal, and rising/falling sense is flipped"). `cs` are the
crossings of one lap in reverse keyframe order and `last` is the index of the last
keyframe, where every lap of the backward traversal starts. -/
def scanBackward (job : TrackTriggeringJob) (cs : List (ℤ × ℚ × Bool)) (last : ℤ) :
    Nat → ℚ → ℤ → Iterator
  | 0, _, _ => job.end_
  | laps + 1, outer, inner =>
    match cs.find? (fun c => decide (c.1 ≤ inner) && decide (job.to_ ≤ c.2.1 + outer)
        && decide (c.2.1 + outer < job.from_)) with
    | some c =>
      { job_ := some job, outer_ := outer, inner_ := c.1 - 1
        edge_ := { ratio := c.2.1 + outer, rising := !c.2.2 } }
    | none => scanBackward job cs last laps (outer - 1) last

/-- Modelled from the spec: `Iterator::operator++`, declared in the header with its body
not among the sources. The header says that incrementing an end iterator is an assertion
failure or undefined behaviour, which is `none` here, as is an iterator without a job or
a job without a track. The number of laps left is the number of values the outer cursor
takes before it has swept past `to`. -/
def inc (it : Iterator) : Option Iterator :=
  match it.job_ with
  | none => none
  | some job =>
    match job.track with
    | none => none
    | some track =>
      if it.eq job.end_ then none
      else
        let cs := lapCrossings job.threshold 0 track.keys
        if job.from_ < job.to_ then
          some (scanForward job cs (⌈job.to_ - it.outer_⌉).toNat it.outer_ it.inner_)
        else
          let last : ℤ := (track.keys.length : ℤ) - 1
          some (scanBackward job cs.reverse last (⌈it.outer_ + 1 - job.to_⌉).toNat
            it.outer_ it.inner_)

/-- Modelled from the spec: `Iterator::Iterator(const TrackTriggeringJob*)`, declared in the
header with its body not among the sources: the "begin()-style construction" of the
first iterator. Both cursors are put at the start of the traversal (the lap that holds
`from`; the first keyframe, or the last one when the track is processed backward) and the
first edge is evaluated. -/
def ofJob (_job : TrackTriggeringJob) : Option Iterator :=
  match _job.track with
  | none => none
  | some track =>
    inc { job_ := some _job
          outer_ := floorf _job.from_
          inner_ := if _job.from_ < _job.to_ then 0 else (track.keys.length : ℤ) - 1 }

end Iterator

end animation

end vox

namespace vox

/-- A clip on a two second animation with every parameter at its default, as the
constructor leaves it after a successful load. -/
def sampleClip : AnimatorState Unit :=
  AnimatorState.ctor { duration := 0 } (some { duration := 2 })

/-- The sample clip with the loop flag cleared. -/
def sampleClipOnce : AnimatorState Unit :=
  { sampleClip with loop := false }

/-- A paused, non-looping, additive clip part of the way through its animation. -/
def sampleClipTuned : AnimatorState Unit :=
  { sampleClip with
    blendMode := BlendMode.Additive, playback_speed := 2, play := false, loop := false
    _time_ratio := 1 / 2, _previous_time_ratio := 1 / 4 }

/-- A sampling effect for the examples: the buffer becomes one unit entry. -/
def sampleRun : AnimatorState Unit → List Unit := fun _ => [()]

end vox

namespace vox

/-- The 64-bit two's complement reading of an integer: the one value in the range of
`ssize_t` that differs from `x` by a multiple of 2^64. -/
def wrap64 (x : ℤ) : ℤ :=
  (x + 9223372036854775808) % 18446744073709551616 - 9223372036854775808

/-- A value of the C type `ssize_t`: an integer from -2^63 to 2^63 - 1. -/
structure ssize_t where
  val : ℤ
  lo : -9223372036854775808 ≤ val
  hi : val ≤ 9223372036854775807
  deriving DecidableEq

namespace ssize_t

/-- Conversion of an integer to `ssize_t`. -/
def ofInt (x : ℤ) : ssize_t :=
  ⟨wrap64 x, by unfold wrap64; omega, by unfold wrap64; omega⟩

/-- A literal of type `ssize_t`. -/
instance (n : Nat) : OfNat ssize_t n := ⟨ofInt n⟩

/-- The sum `a + b` of the compiled program. A signed overflow is undefined behaviour in
C++; the embedding gives the operation the two's complement result that the machine
instruction leaves. The same holds for `-`, `*`, unary minus and `/`. -/
instance : Add ssize_t := ⟨fun a b => ofInt (a.val + b.val)⟩

/-- The difference `a - b`. -/
instance : Sub ssize_t := ⟨fun a b => ofInt (a.val - b.val)⟩

/-- The product `a * b`. -/
instance : Mul ssize_t := ⟨fun a b => ofInt (a.val * b.val)⟩

/-- The negation `-a`. -/
instance : Neg ssize_t := ⟨fun a => ofInt (-a.val)⟩

/-- The quotient `a / b`, which truncates toward zero. -/
instance : Div ssize_t := ⟨fun a b => ofInt (Int.tdiv a.val b.val)⟩

/-- The comparison `a <= b`. -/
instance : LE ssize_t := ⟨fun a b => a.val ≤ b.val⟩

/-- The comparison `a < b`. -/
instance : LT ssize_t := ⟨fun a b => a.val < b.val⟩

instance (a b : ssize_t) : Decidable (a ≤ b) := inferInstanceAs (Decidable (a.val ≤ b.val))

instance (a b : ssize_t) : Decidable (a < b) := inferInstanceAs (Decidable (a.val < b.val))

/-- The promotion of a `uint8_t` to `ssize_t`. -/
def ofUInt8 (b : Fin 256) : ssize_t := ofInt (b.val : ℤ)

end ssize_t

/-- The constant `SSIZE_MAX`. -/
def SSIZE_MAX : ssize_t := ssize_t.ofInt 9223372036854775807

/-- The least `ssize_t`, `-SSIZE_MAX - 1`. -/
def SSIZE_MIN : ssize_t := ssize_t.ofInt (-9223372036854775808)

namespace geo

/-- The three coordinates of a `Point3I` (`point3.h` is not among the sources); the
member functions of `Region` read and write them as `ssize_t`. -/
structure Point3I where
  x : ssize_t
  y : ssize_t
  z : ssize_t
  deriving DecidableEq

/-- The three coordinates of a `Vector3F`. -/
structure Vector3F where
  x : ℚ
  y : ℚ
  z : ℚ
  deriving DecidableEq

/-- The data members of `geo::Region`. -/
structure Region where
  _mins : Point3I
  _maxs : Point3I
  _width : Point3I
  _voxels : Point3I
  _center : Point3I
  _pivot : Vector3F
  _stride : ssize_t
  deriving DecidableEq

namespace Region

/-- `Region::Region()`. -/
def default : Region :=
  { _mins := ⟨0, 0, 0⟩, _maxs := ⟨0, 0, 0⟩, _width := ⟨0, 0, 0⟩, _voxels := ⟨1, 1, 1⟩
    _center := ⟨0, 0, 0⟩, _pivot := ⟨1 / 2, 1 / 2, 1 / 2⟩, _stride := 0 }

/-- `Region::Region(minsx, minsy, minsz, maxsx, maxsy, maxsz)`. The members are
initialised in declaration order, each from the ones before it. The `float` pivot is
computed in exact arithmetic; no statement below reads it. -/
def ofExtents (minsx minsy minsz maxsx maxsy maxsz : ssize_t) : Region :=
  let _mins : Point3I := ⟨minsx, minsy, minsz⟩
  let _maxs : Point3I := ⟨maxsx, maxsy, maxsz⟩
  let _width : Point3I := ⟨_maxs.x - _mins.x, _maxs.y - _mins.y, _maxs.z - _mins.z⟩
  let _voxels : Point3I := ⟨_width.x + 1, _width.y + 1, _width.z + 1⟩
  let _center : Point3I :=
    ⟨_mins.x + _width.x / 2, _mins.y + _width.y / 2, _mins.z + _width.z / 2⟩
  let _pivot : Vector3F :=
    ⟨floorf ((_voxels.x.val : ℚ) / 2), floorf ((_voxels.y.val : ℚ) / 2),
      floorf ((_voxels.z.val : ℚ) / 2)⟩
  { _mins := _mins, _maxs := _maxs, _width := _width, _voxels := _voxels, _center := _center
    _pivot := _pivot, _stride := _voxels.x * _voxels.y }

/-- `Region::Region(ssize_t mins, ssize_t maxs)`. -/
def ofRange (mins maxs : ssize_t) : Region := ofExtents mins mins mins maxs maxs maxs

/-- `Region::getLowerX`. -/
def getLowerX (r : Region) : ssize_t := r._mins.x

/-- `Region::getLowerY`. -/
def getLowerY (r : Region) : ssize_t := r._mins.y

/-- `Region::getLowerZ`. -/
def getLowerZ (r : Region) : ssize_t := r._mins.z

/-- `Region::getUpperX`. -/
def getUpperX (r : Region) : ssize_t := r._maxs.x

/-- `Region::getUpperY`. -/
def getUpperY (r : Region) : ssize_t := r._maxs.y

/-- `Region::getUpperZ`. -/
def getUpperZ (r : Region) : ssize_t := r._maxs.z

/-- `Region::getWidthInVoxels`. -/
def getWidthInVoxels (r : Region) : ssize_t := r._voxels.x

/-- `Region::getHeightInVoxels`. -/
def getHeightInVoxels (r : Region) : ssize_t := r._voxels.y

/-- `Region::getDepthInVoxels`. -/
def getDepthInVoxels (r : Region) : ssize_t := r._voxels.z

/-- `Region::getWidthInCells`. -/
def getWidthInCells (r : Region) : ssize_t := r._width.x

/-- `Region::getHeightInCells`. -/
def getHeightInCells (r : Region) : ssize_t := r._width.y

/-- `Region::getDepthInCells`. -/
def getDepthInCells (r : Region) : ssize_t := r._width.z

/-- `Region::operator==`. -/
def eq (r rhs : Region) : Bool :=
  (r._mins.x == rhs._mins.x) && (r._mins.y == rhs._mins.y) && (r._mins.z == rhs._mins.z)
    && (r._maxs.x == rhs._maxs.x) && (r._maxs.y == rhs._maxs.y) && (r._maxs.z == rhs._maxs.z)

/-- `Region::containsPoint(ssize_t, ssize_t, ssize_t, uint8_t)`. The `uint8_t` boundary is
promoted to a signed integer with the same value, and `_maxs.x - boundary` and
`_mins.x + boundary` are computed in `ssize_t`. -/
def containsPoint (r : Region) (iX iY iZ : ssize_t) (boundary : Fin 256) : Bool :=
  decide (iX ≤ r._maxs.x - ssize_t.ofUInt8 boundary)
    && decide (iY ≤ r._maxs.y - ssize_t.ofUInt8 boundary)
    && decide (iZ ≤ r._maxs.z - ssize_t.ofUInt8 boundary)
    && decide (iX ≥ r._mins.x + ssize_t.ofUInt8 boundary)
    && decide (iY ≥ r._mins.y + ssize_t.ofUInt8 boundary)
    && decide (iZ ≥ r._mins.z + ssize_t.ofUInt8 boundary)

/-- `Region::containsPointInX(ssize_t, uint8_t)`. -/
def containsPointInX (r : Region) (pos : ssize_t) (boundary : Fin 256) : Bool :=
  decide (pos ≤ r._maxs.x - ssize_t.ofUInt8 boundary)
    && decide (pos ≥ r._mins.x + ssize_t.ofUInt8 boundary)

/-- `Region::containsPointInY(ssize_t, uint8_t)`. -/
def containsPointInY (r : Region) (pos : ssize_t) (boundary : Fin 256) : Bool :=
  decide (pos ≤ r._maxs.y - ssize_t.ofUInt8 boundary)
    && decide (pos ≥ r._mins.y + ssize_t.ofUInt8 boundary)

/-- `Region::containsPointInZ(ssize_t, uint8_t)`. -/
def containsPointInZ (r : Region) (pos : ssize_t) (boundary : Fin 256) : Bool :=
  decide (pos ≤ r._maxs.z - ssize_t.ofUInt8 boundary)
    && decide (pos ≥ r._mins.z + ssize_t.ofUInt8 boundary)

/-- `Region::containsRegion`. -/
def containsRegion (r reg : Region) (boundary : Fin 256) : Bool :=
  decide (reg._maxs.x ≤ r._maxs.x - ssize_t.ofUInt8 boundary)
    && decide (reg._maxs.y ≤ r._maxs.y - ssize_t.ofUInt8 boundary)
    && decide (reg._maxs.z ≤ r._maxs.z - ssize_t.ofUInt8 boundary)
    && decide (reg._mins.x ≥ r._mins.x + ssize_t.ofUInt8 boundary)
    && decide (reg._mins.y ≥ r._mins.y + ssize_t.ofUInt8 boundary)
    && decide (reg._mins.z ≥ r._mins.z + ssize_t.ofUInt8 boundary)

/-- `Region::isValid`. -/
def isValid (r : Region) : Bool :=
  decide (r._maxs.x ≥ r._mins.x) && decide (r._maxs.y ≥ r._mins.y)
    && decide (r._maxs.z ≥ r._mins.z)

end Region

/-- The free function `geo::intersects`. -/
def intersects (a b : Region) : Bool :=
  if a.getUpperX < b.getLowerX ∨ a.getLowerX > b.getUpperX then false
  else if a.getUpperY < b.getLowerY ∨ a.getLowerY > b.getUpperY then false
  else if a.getUpperZ < b.getLowerZ ∨ a.getLowerZ > b.getUpperZ then false
  else true

end geo

/-- The three coordinates of a `Vector3D`. -/
structure Vector3D where
  x : ℚ
  y : ℚ
  z : ℚ
  deriving DecidableEq

/-- The three coordinates of a `Point3D`. -/
structure Point3D where
  x : ℚ
  y : ℚ
  z : ℚ
  deriving DecidableEq

/-- The data members of `Plane3` that `plane3.cpp` initialises itself: `normal` and
`point`. -/
structure Plane3 where
  normal : Vector3D
  point : Point3D
  deriving DecidableEq

namespace Plane3

/-- `Plane3::isBounded`. -/
def isBounded (_p : Plane3) : Bool := false

end Plane3

/-- The data members of `SurfaceSet3` that `surface_set3.cpp` reads and writes. `S` is the
type of a member surface, held through a `Surface3Ptr`. `_bvh` is the list of surfaces the
BVH was last built from; a BVH that was never built holds none. -/
structure SurfaceSet3 (S : Type) where
  _surfaces : List S
  _unboundedSurfaces : List S
  _bvhInvalidated : Bool
  _bvh : List S := []

namespace SurfaceSet3

variable {S : Type}

/-- `SurfaceSet3::invalidateBvh`. -/
def invalidateBvh (set : SurfaceSet3 S) : SurfaceSet3 S :=
  { set with _bvhInvalidated := true }

/-- The loop of `SurfaceSet3::isBounded` over the surfaces still to visit, followed by the
final `return !_surfaces.empty()`. `bounded` is the virtual call `surface->isBounded()`. -/
def isBoundedLoop (bounded : S → Bool) (all : List S) : List S → Bool
  | [] => !all.isEmpty
  | surface :: rest => if !bounded surface then false else isBoundedLoop bounded all rest

/-- `SurfaceSet3::isBounded`. -/
def isBounded (bounded : S → Bool) (set : SurfaceSet3 S) : Bool :=
  isBoundedLoop bounded set._surfaces set._surfaces

/-- `SurfaceSet3::numberOfSurfaces`. -/
def numberOfSurfaces (set : SurfaceSet3 S) : Nat := set._surfaces.length

/-- `SurfaceSet3::addSurface`. -/
def addSurface (bounded : S → Bool) (set : SurfaceSet3 S) (surface : S) : SurfaceSet3 S :=
  let s1 := { set with _surfaces := set._surfaces ++ [surface] }
  let s2 :=
    if !bounded surface then
      { s1 with _unboundedSurfaces := s1._unboundedSurfaces ++ [surface] }
    else s1
  s2.invalidateBvh

end SurfaceSet3

end vox

namespace vox

/-- A region of 3 by 4 by 5 voxels. -/
def sampleRegion : geo.Region := geo.Region.ofExtents 1 2 3 3 5 7

/-- A region that shares the voxel layer `x = 3` with the sample region. -/
def sampleRegionNear : geo.Region := geo.Region.ofExtents 3 0 0 6 9 9

/-- The plane `z = 0`. -/
def samplePlane : Plane3 := { normal := ⟨0, 0, 1⟩, point := ⟨0, 0, 0⟩ }

/-- A set that holds one plane. -/
def samplePlaneSet : SurfaceSet3 Plane3 :=
  { _surfaces := [samplePlane], _unboundedSurfaces := [samplePlane], _bvhInvalidated := true }

end vox

namespace vox

namespace animation

namespace BlendingJob

variable {T : Type}

/-- Modelled from the spec: step 1 of the blending job's algorithm for one joint, whose
body (`blending_job.h` and its implementation) is not among the sources: "Sum
normal-layer weights; if sum < `threshold`, ... allocate the remainder to the rest pose".
`weights` are the weights of the normal layers; the result is the weight of the rest
pose, which is the same for every joint. -/
def restPoseWeight (job : BlendingJob T) (weights : List ℚ) : ℚ :=
  if weights.sum < job.threshold then job.threshold - weights.sum else 0

end BlendingJob

end animation

/-- The data member of `ShaderMacroCollection`, `std::map<size_t, double> _value`, as the
list of its entries in the iteration order of the map, ascending by key. The static
table `_internalMacroHashValue` and the hashing of macro names give the `size_t` key of a
macro; the operations below work on that key. -/
structure ShaderMacroCollection where
  _value : List (Nat × ℚ) := []
  deriving DecidableEq

namespace ShaderMacroCollection

/-- The invariant of a `std::map`: the keys of its entries ascend strictly. -/
def Ordered (c : ShaderMacroCollection) : Prop :=
  c._value.Pairwise (fun a b => a.1 < b.1)

/-- The library operation `std::map::find` on the entry list: the value stored under `k`. -/
def mapFind (k : Nat) : List (Nat × ℚ) → Option ℚ
  | [] => none
  | e :: m => if e.1 = k then some e.2 else mapFind k m

/-- The library operation `std::map::insert_or_assign` on the entry list. -/
def mapAssign (k : Nat) (v : ℚ) : List (Nat × ℚ) → List (Nat × ℚ)
  | [] => [(k, v)]
  | e :: m =>
    if k < e.1 then (k, v) :: e :: m
    else if k = e.1 then (k, v) :: m
    else e :: mapAssign k v m

/-- The library operation `std::map::erase` by key on the entry list. -/
def mapErase (k : Nat) (m : List (Nat × ℚ)) : List (Nat × ℚ) :=
  m.filter (fun e => e.1 != k)

/-- The entries `es` assigned one after the other into the map `m`. -/
def assignAll : List (Nat × ℚ) → List (Nat × ℚ) → List (Nat × ℚ)
  | [], m => m
  | e :: es, m => assignAll es (mapAssign e.1 e.2 m)

/-- Modelled from the spec: `contains(key)`, declared in the header with its body not among
the sources: whether the macro is present. -/
def contains (c : ShaderMacroCollection) (macro_ : Nat) : Bool :=
  (mapFind macro_ c._value).isSome

/-- Modelled from the spec: `macroConstant(key) → optional<number>`, declared in the header
with its body not among the sources: the constant stored for the macro, empty when the
macro is absent. -/
def macroConstant (c : ShaderMacroCollection) (macro_ : Nat) : Option ℚ :=
  mapFind macro_ c._value

/-- Modelled from the spec: `enableMacro(key)`, declared in the header with its body not
among the sources: the macro becomes present as a flag. The map of the header stores a
`double` for every entry; `flag` is the one the absent body stores for a flag. -/
def enableMacro (flag : ℚ) (c : ShaderMacroCollection) (macroName : Nat) :
    ShaderMacroCollection :=
  { c with _value := mapAssign macroName flag c._value }

/-- Modelled from the spec: `enableMacro(key, value)`, declared in the header with its body
not among the sources: "enabling with a value overwrites any prior value for that key". -/
def enableMacroValue (c : ShaderMacroCollection) (macroName : Nat) (value : ℚ) :
    ShaderMacroCollection :=
  { c with _value := mapAssign macroName value c._value }

/-- Modelled from the spec: `disableMacro(key)`, declared in the header with its body not
among the sources: "disabling removes the key entirely (both flag and value)". -/
def disableMacro (c : ShaderMacroCollection) (macroName : Nat) : ShaderMacroCollection :=
  { c with _value := mapErase macroName c._value }

/-- Modelled from the spec: `unionCollection(left, right, result)`, declared in the header
with its body not among the sources: "produces a third collection containing all entries
from both". The value is what `result` holds afterwards: the entries of `left`, then those
of `right`, assigned into an empty map, so that on a key of both the entry of `right`
stays ("last-writer-wins is acceptable"). -/
def unionCollection (left right : ShaderMacroCollection) : ShaderMacroCollection :=
  { _value := assignAll right._value (assignAll left._value []) }

/-- Modelled from the spec: `hash()`, declared in the header with its body not among the
sources: "a pure function of the current key/value set". The entries are visited in the
iteration order of the map and `combine` mixes one entry into the running hash. -/
def hash (combine : Nat → Nat × ℚ → Nat) (c : ShaderMacroCollection) : Nat :=
  c._value.foldl combine 0

end ShaderMacroCollection

/-- The collection `{A}` of the spec's example, with the macro key 10 for `A`. -/
def sampleMacrosA (flag : ℚ) : ShaderMacroCollection :=
  ShaderMacroCollection.enableMacro flag {} 10

/-- The collection `{B := 2.0}` of the spec's example, with the macro key 20 for `B`. -/
def sampleMacrosB : ShaderMacroCollection :=
  ShaderMacroCollection.enableMacroValue {} 20 2

end vox

namespace vox

namespace animation

namespace TrackTriggeringJob

/-- A job on the track `track` over the range from `a` to `b`. -/
def rangeJob (track : FloatTrack) (threshold a b : ℚ) (iterator : Bool) : TrackTriggeringJob :=
  { from_ := a, to_ := b, threshold := threshold, track := some track, iterator := iterator }

end TrackTriggeringJob

/-- The range test of the scan: the edge of the crossing `c` in the lap `outer` lies in the
range that starts at `lo` and stops before `hi`. -/
def InRange (lo hi outer : ℚ) (c : ℤ × ℚ × Bool) : Prop :=
  lo ≤ c.2.1 + outer ∧ c.2.1 + outer < hi

/-- The crossing point between two keyframes by linear interpolation: the ratio at which
the segment from `k0` to `k1` takes the value `threshold`. -/
def crossingRatio (threshold : ℚ) (k0 k1 : Keyframe) : ℚ :=
  k0.ratio + (threshold - k0.value) / (k1.value - k0.value) * (k1.ratio - k0.ratio)

/-- The first keyframe of the sample track. -/
def sampleKey0 : Keyframe := { ratio := 0, value := 0 }

/-- The second keyframe of the sample track. -/
def sampleKey1 : Keyframe := { ratio := 1 / 2, value := 1 }

/-- The last keyframe of the sample track. -/
def sampleKey2 : Keyframe := { ratio := 1, value := 2 }

/-- A track of three keyframes whose values rise from 0 to 2. -/
def sampleTrack : FloatTrack :=
  { keys := [sampleKey0, sampleKey1, sampleKey2] }

end animation

namespace animation

/-- The first iterator of the job on the sample track with the threshold 1/2 over the
range from 0 to 1: it stands after the second keyframe, with the rising edge at 1/4. -/
def sampleFirst : Iterator :=
  Iterator.mk (some (TrackTriggeringJob.rangeJob sampleTrack (1 / 2) 0 1 true)) 0 2
    (Edge.mk (1 / 4) true)

end animation

/-- A blending context without clips. -/
def sampleBlending : AnimatorBlending Unit :=
  { _clips := [], _layers := [], _additive_layers := [], _blend_job := { threshold := 1 / 10 }
    _blended_locals := [] }

end vox

namespace vox

/-- The clip reached from the sample clip by clearing `loop`, setting the time ratio to
1.25 (stored as 1), setting `loop` again and pausing. -/
def samplePausedAtEnd : AnimatorState Unit :=
  AnimatorState.run sampleRun sampleClip
    [AnimatorState.Op.assignLoop false, AnimatorState.Op.setTimeRatio (5 / 4),
      AnimatorState.Op.assignLoop true, AnimatorState.Op.assignPlay false]

/-- The sample clip, paused at the time ratio 1/2. -/
def samplePausedMid : AnimatorState Unit :=
  { sampleClip with play := false, _time_ratio := 1 / 2 }

namespace geo

namespace Region

/-- Modelled from the spec: `Region::update()`, the private member function that every
mutator calls last. The header declares it and its body is not among the sources. The
class keeps `_width`, `_voxels`, `_center`, `_pivot` and `_stride` as functions of the two
corners, which the six-argument constructor computes, and the mutators assign only the
corners before the call; `update()` is read as computing the derived members again in
the constructor's way, the corners staying as assigned. -/
def update (r : Region) : Region :=
  ofExtents r._mins.x r._mins.y r._mins.z r._maxs.x r._maxs.y r._maxs.z

/-- `Region::shiftLowerCorner(ssize_t, ssize_t, ssize_t)`. -/
def shiftLowerCorner (r : Region) (x y z : ssize_t) : Region :=
  update { r with _mins := ⟨r._mins.x + x, r._mins.y + y, r._mins.z + z⟩ }

/-- `Region::shiftUpperCorner(ssize_t, ssize_t, ssize_t)`. -/
def shiftUpperCorner (r : Region) (x y z : ssize_t) : Region :=
  update { r with _maxs := ⟨r._maxs.x + x, r._maxs.y + y, r._maxs.z + z⟩ }

/-- `Region::shift(ssize_t, ssize_t, ssize_t)`. -/
def shift (r : Region) (amountX amountY amountZ : ssize_t) : Region :=
  shiftUpperCorner (shiftLowerCorner r amountX amountY amountZ) amountX amountY amountZ

end Region

end geo

/-- A valid region whose upper `x` corner is one below `SSIZE_MAX`. -/
def sampleRegionWide : geo.Region :=
  geo.Region.ofExtents 0 0 0 (SSIZE_MAX - 1) 0 0

/-- The region of the single position `(SSIZE_MIN, SSIZE_MIN, SSIZE_MIN)`. -/
def sampleRegionLowest : geo.Region :=
  geo.Region.ofRange SSIZE_MIN SSIZE_MIN

end vox

namespace vox

/-- The C library function `fabs` on the exact model. -/
def fabs (x : ℚ) : ℚ := |x|

namespace Vector3D

/-- Modelled from the spec: `Vector3D::dot` of the vector header of `vox.math`, which is
not among the sources; the dot product, as the name says. -/
def dot (a b : Vector3D) : ℚ := a.x * b.x + a.y * b.y + a.z * b.z

/-- Modelled from the spec: the difference of two vectors (`operator-` of the vector
header of `vox.math`, which is not among the sources). -/
def sub (a b : Vector3D) : Vector3D := ⟨a.x - b.x, a.y - b.y, a.z - b.z⟩

/-- Modelled from the spec: a vector scaled by a number (`operator*` of the vector header
of `vox.math`, which is not among the sources). -/
def scale (t : ℚ) (a : Vector3D) : Vector3D := ⟨t * a.x, t * a.y, t * a.z⟩

end Vector3D

namespace Point3D

/-- Modelled from the spec: the vector from the point `b` to the point `a` (`operator-` of
the point header of `vox.math`, which is not among the sources). -/
def sub (a b : Point3D) : Vector3D := ⟨a.x - b.x, a.y - b.y, a.z - b.z⟩

/-- Modelled from the spec: the point `a` moved by the vector `v` (`operator+` of the
point header of `vox.math`, which is not among the sources). -/
def add (a : Point3D) (v : Vector3D) : Point3D := ⟨a.x + v.x, a.y + v.y, a.z + v.z⟩

end Point3D

/-- The data members of a `Ray3D` that `plane3.cpp` reads. -/
structure Ray3D where
  origin : Point3D
  direction : Vector3D
  deriving DecidableEq

namespace Ray3D

/-- Modelled from the spec: `Ray3D::pointAt` of the ray header of `vox.math`, which is not
among the sources: the point of the ray at the parameter `t`, `origin + t * direction`. -/
def pointAt (ray : Ray3D) (t : ℚ) : Point3D :=
  ray.origin.add (Vector3D.scale t ray.direction)

end Ray3D

/-- The data members of `SurfaceRayIntersection3` that `plane3.cpp` and
`surface_set3.cpp` write. -/
structure SurfaceRayIntersection3 where
  isIntersecting : Bool
  distance : ℚ
  point : Point3D
  normal : Vector3D
  deriving DecidableEq

namespace Plane3

/-- `Plane3::closestPointLocal`. -/
def closestPointLocal (p : Plane3) (otherPoint : Point3D) : Point3D :=
  let r := otherPoint.sub p.point
  p.point.add (r.sub (Vector3D.scale (p.normal.dot r) p.normal))

/-- `Plane3::closestNormalLocal`. -/
def closestNormalLocal (p : Plane3) (_otherPoint : Point3D) : Vector3D := p.normal

/-- `Plane3::intersectsLocal`. -/
def intersectsLocal (p : Plane3) (ray : Ray3D) : Bool :=
  decide (fabs (ray.direction.dot p.normal) > 0)

/-- `Plane3::closestIntersectionLocal`. `fresh` is the default constructed
`SurfaceRayIntersection3` the function starts from. -/
def closestIntersectionLocal (fresh : SurfaceRayIntersection3) (p : Plane3) (ray : Ray3D) :
    SurfaceRayIntersection3 :=
  let dDotN := ray.direction.dot p.normal
  if fabs dDotN > 0 then
    let t := p.normal.dot (p.point.sub ray.origin) / dDotN
    if t ≥ 0 then
      { fresh with isIntersecting := true, distance := t, point := ray.pointAt t
                   normal := p.normal }
    else fresh
  else fresh

end Plane3

/-- The result of a nearest-neighbour query on the BVH: the nearest item, or none, and its
distance. -/
structure NearestNeighborQueryResult3 (S : Type) where
  item : Option S
  distance : ℚ

/-- The virtual member functions of `Surface3` that the closest-point queries of
`surface_set3.cpp` call on a member surface. -/
structure Surface3Calls (S : Type) where
  closestPoint : S → Point3D → Point3D
  closestNormal : S → Point3D → Vector3D
  closestDistance : S → Point3D → ℚ

namespace SurfaceSet3

variable {S : Type}

/-- `SurfaceSet3::buildBvh`: an invalidated BVH is built again from the bounded surfaces. -/
def buildBvh (bounded : S → Bool) (set : SurfaceSet3 S) : SurfaceSet3 S :=
  if set._bvhInvalidated then
    { set with _bvh := set._surfaces.filter bounded, _bvhInvalidated := false }
  else set

/-- The loop of `SurfaceSet3::closestPointLocal` over the unbounded surfaces still to
visit, with the current `minDist` and `result`. `distanceTo` is `Point3D::distanceTo`. -/
def closestPointLoop (calls : Surface3Calls S) (distanceTo : Point3D → Point3D → ℚ)
    (otherPoint : Point3D) : List S → ℚ → Point3D → Point3D
  | [], _, result => result
  | surface :: rest, minDist, result =>
    let pt := calls.closestPoint surface otherPoint
    let dist := distanceTo pt otherPoint
    if dist < minDist then
      closestPointLoop calls distanceTo otherPoint rest dist
        (calls.closestPoint surface otherPoint)
    else closestPointLoop calls distanceTo otherPoint rest minDist result

/-- `SurfaceSet3::closestPointLocal`. `nearest items pt f` is `_bvh.nearest(pt, f)` on a BVH
that holds `items`, and `kMaxD` is the constant of that name. -/
def closestPointLocal (bounded : S → Bool) (calls : Surface3Calls S)
    (nearest : List S → Point3D → (S → Point3D → ℚ) → NearestNeighborQueryResult3 S)
    (distanceTo : Point3D → Point3D → ℚ) (kMaxD : ℚ) (set : SurfaceSet3 S)
    (otherPoint : Point3D) : Point3D :=
  let set1 := set.buildBvh bounded
  let distanceFunc := fun (surface : S) (pt : Point3D) => calls.closestDistance surface pt
  let result0 : Point3D := ⟨kMaxD, kMaxD, kMaxD⟩
  let queryResult := nearest set1._bvh otherPoint distanceFunc
  let result1 :=
    match queryResult.item with
    | some item => calls.closestPoint item otherPoint
    | none => result0
  closestPointLoop calls distanceTo otherPoint set1._unboundedSurfaces queryResult.distance
    result1

/-- The loop of `SurfaceSet3::closestNormalLocal` over the unbounded surfaces still to
visit, with the current `minDist` and `result`. -/
def closestNormalLoop (calls : Surface3Calls S) (distanceTo : Point3D → Point3D → ℚ)
    (otherPoint : Point3D) : List S → ℚ → Vector3D → Vector3D
  | [], _, result => result
  | surface :: rest, minDist, result =>
    let pt := calls.closestPoint surface otherPoint
    let dist := distanceTo pt otherPoint
    if dist < minDist then
      closestNormalLoop calls distanceTo otherPoint rest dist
        (calls.closestNormal surface otherPoint)
    else closestNormalLoop calls distanceTo otherPoint rest minDist result

/-- `SurfaceSet3::closestNormalLocal`. When the BVH query finds an item the function
returns at once with the normal of that item. -/
def closestNormalLocal (bounded : S → Bool) (calls : Surface3Calls S)
    (nearest : List S → Point3D → (S → Point3D → ℚ) → NearestNeighborQueryResult3 S)
    (distanceTo : Point3D → Point3D → ℚ) (set : SurfaceSet3 S) (otherPoint : Point3D) :
    Vector3D :=
  let set1 := set.buildBvh bounded
  let distanceFunc := fun (surface : S) (pt : Point3D) => calls.closestDistance surface pt
  let result0 : Vector3D := ⟨1, 0, 0⟩
  let queryResult := nearest set1._bvh otherPoint distanceFunc
  match queryResult.item with
  | some item => calls.closestNormal item otherPoint
  | none =>
    closestNormalLoop calls distanceTo otherPoint set1._unboundedSurfaces
      queryResult.distance result0

end SurfaceSet3

/-- The two surfaces of the example set: a unit sphere centred at (0, 0, 10) and the
plane `z = 0`. -/
inductive SampleSurface where
  | ball
  | floor
  deriving DecidableEq

/-- `isBounded()` of the example surfaces. -/
def sampleBounded : SampleSurface → Bool
  | SampleSurface.ball => true
  | SampleSurface.floor => Plane3.isBounded samplePlane

/-- A distance for the examples: the sum of the coordinate differences, which is the
distance of two points that differ in one coordinate only. -/
def sampleDistanceTo (p q : Point3D) : ℚ := |p.x - q.x| + |p.y - q.y| + |p.z - q.z|

/-- The closest-point calls of the example surfaces. The plane answers with the functions
of `plane3.cpp`; the sphere answers as it does for a query point of the z axis below it:
the closest point is (0, 0, 9) and the normal there is (0, 0, -1). -/
def sampleCalls : Surface3Calls SampleSurface where
  closestPoint
    | SampleSurface.ball, _ => ⟨0, 0, 9⟩
    | SampleSurface.floor, pt => samplePlane.closestPointLocal pt
  closestNormal
    | SampleSurface.ball, _ => ⟨0, 0, -1⟩
    | SampleSurface.floor, pt => samplePlane.closestNormalLocal pt
  closestDistance
    | SampleSurface.ball, pt => sampleDistanceTo ⟨0, 0, 9⟩ pt
    | SampleSurface.floor, pt => sampleDistanceTo (samplePlane.closestPointLocal pt) pt

/-- A nearest-neighbour query for the examples, answered by a scan of the items: the
first item at the least distance, or no item and the distance `kMaxD`. -/
def sampleNearest (kMaxD : ℚ) :
    List SampleSurface → Point3D → (SampleSurface → Point3D → ℚ) →
      NearestNeighborQueryResult3 SampleSurface
  | [], _, _ => { item := none, distance := kMaxD }
  | s :: rest, pt, f =>
    let r := sampleNearest kMaxD rest pt f
    if f s pt ≤ r.distance then { item := some s, distance := f s pt } else r

/-- The example set: the sphere and the plane, added to an empty set in this order. -/
def sampleSurfaceSet : SurfaceSet3 SampleSurface :=
  SurfaceSet3.addSurface sampleBounded
    (SurfaceSet3.addSurface sampleBounded
      { _surfaces := [], _unboundedSurfaces := [], _bvhInvalidated := true }
      SampleSurface.ball)
    SampleSurface.floor

/-- A value for the constant `kMaxD` in the examples, larger than every distance in them. -/
def sampleMaxD : ℚ := 10 ^ 300

/-- The query point of the example: one unit above the plane, eight below the sphere. -/
def sampleQuery : Point3D := ⟨0, 0, 1⟩

/-- A ray that starts one unit above the plane `z = 0` and points away from it. -/
def sampleRayAway : Ray3D := { origin := ⟨0, 0, 1⟩, direction := ⟨0, 0, 1⟩ }

end vox

namespace vox

/-- The position of the highest set bit of `n`, found by halving at most `fuel` times. -/
def ilog2Aux : ℕ → ℕ → ℕ
  | 0, _ => 0
  | fuel + 1, n => if n < 2 then 0 else ilog2Aux fuel (n / 2) + 1

/-- The position of the highest set bit of `n`: the integer part of its binary logarithm,
and 0 for `n = 0`. -/
def ilog2 (n : ℕ) : ℕ := ilog2Aux n n

/-- Rounding to binary32, on magnitudes. The argument is the rational `n / d` and the
result a natural number, both counted in units of 2^-149, the spacing of the smallest
binary32 numbers. Below 2^24 units the binary32 numbers are the whole numbers of units;
from there on a number has 24 significant bits, so that with `e` the position of the
highest bit of the integer part the spacing is `2 ^ (e - 23)` units. The result is the
nearest multiple of the spacing, and the multiple with the even significand when `n / d`
lies half way between two (the default rounding of IEEE 754). -/
def roundMag (n d : ℕ) : ℕ :=
  let sh := ilog2 (n / d) - 23
  let m := d * 2 ^ sh
  let q := n / m
  let r := n % m
  if m < 2 * r ∨ (2 * r = m ∧ q % 2 = 1) then (q + 1) * 2 ^ sh else q * 2 ^ sh

/-- A magnitude, in units of 2^-149, that is a binary32 number: a whole number of units
that is a multiple of the spacing at its size. -/
def Rep (f : ℕ) : Prop := 2 ^ (ilog2 f - 23) ∣ f

/-- A C++ `float` with its IEEE 754 binary32 values. `fin k` is the finite number
`k * 2^-149`: every finite binary32 number is a whole multiple of 2^-149, and `1.f` is
2^149 units. `inf false` and `inf true` are plus and minus infinity and `nan` is a NaN.
The sign of a zero and the payload of a NaN are not represented: no comparison
distinguishes them. -/
inductive Float32 where
  | fin (k : ℤ)
  | inf (negative : Bool)
  | nan
  deriving DecidableEq

namespace Float32

/-- The constant `0.f`. -/
def zero : Float32 := fin 0

/-- The constant `1.f`. -/
def one : Float32 := fin (2 ^ 149)

/-- The binary32 result of an operation whose exact result is the rational `n / d` units:
the nearest binary32 number, and an infinity of the sign of `n` when that number is beyond
the largest finite binary32 number, `(2^24 - 1) * 2^253` units (the next multiple of the
spacing is 2^128, which is `2 ^ 128 * 2 ^ 149` units). -/
def round (n : ℤ) (d : ℕ) : Float32 :=
  if 2 ^ 128 * 2 ^ 149 ≤ roundMag n.natAbs d then inf (decide (n < 0))
  else fin (if n < 0 then -(roundMag n.natAbs d : ℤ) else (roundMag n.natAbs d : ℤ))

/-- The `float` literal for the rational `n / d`: the binary32 number nearest to it. -/
def ofRatio (n : ℤ) (d : ℕ) : Float32 := round (n * 2 ^ 149) d

/-- The sum `a + b` on `float`. -/
def add : Float32 → Float32 → Float32
  | fin a, fin b => round (a + b) 1
  | fin _, inf t => inf t
  | inf s, fin _ => inf s
  | inf s, inf t => if s = t then inf s else nan
  | _, _ => nan

/-- The difference `a - b` on `float`. -/
def sub : Float32 → Float32 → Float32
  | fin a, fin b => round (a - b) 1
  | fin _, inf t => inf (!t)
  | inf s, fin _ => inf s
  | inf s, inf t => if s = t then nan else inf s
  | _, _ => nan

/-- The product `a * b` on `float`. -/
def mul : Float32 → Float32 → Float32
  | fin a, fin b => round (a * b) (2 ^ 149)
  | fin a, inf t => if a = 0 then nan else inf (xor (decide (a < 0)) t)
  | inf s, fin b => if b = 0 then nan else inf (xor s (decide (b < 0)))
  | inf s, inf t => inf (xor s t)
  | _, _ => nan

/-- The quotient `a / b` on `float`. A zero divisor is taken as `+0`. -/
def div : Float32 → Float32 → Float32
  | fin a, fin b =>
    if b = 0 then (if a = 0 then nan else inf (decide (a < 0)))
    else round (if b < 0 then -(a * 2 ^ 149) else a * 2 ^ 149) b.natAbs
  | fin _, inf _ => fin 0
  | inf s, fin b => inf (xor s (decide (b < 0)))
  | _, _ => nan

/-- The C library function `floorf`: the largest whole number that is not above the
argument, which is a binary32 number; an infinity or a NaN is returned as it is. -/
def floorf : Float32 → Float32
  | fin k => fin (k - k % 2 ^ 149)
  | inf s => inf s
  | nan => nan

/-- The comparison `a < b` on `float`; false when an operand is a NaN. -/
def lt : Float32 → Float32 → Bool
  | fin a, fin b => decide (a < b)
  | fin _, inf t => !t
  | inf s, fin _ => s
  | inf s, inf t => s && !t
  | _, _ => false

/-- The comparison `a <= b` on `float`; false when an operand is a NaN. -/
def le : Float32 → Float32 → Bool
  | fin a, fin b => decide (a ≤ b)
  | fin _, inf t => !t
  | inf s, fin _ => s
  | inf s, inf t => s || !t
  | _, _ => false

/-- The library function `std::isfinite`. -/
def isFinite : Float32 → Bool
  | fin _ => true
  | _ => false

/-- True when the value is one a `float` can hold: an infinity, a NaN, or a finite number
that rounding to binary32 leaves as it is. -/
def isBinary32 : Float32 → Bool
  | fin k => decide (round k 1 = fin k)
  | _ => true

/-- The test `0.f <= x && x <= 1.f`: the value lies in the closed unit interval. -/
def inUnit (x : Float32) : Bool := le zero x && le x one

/-- Modelled from the spec: `vox::clamp` of `vox.math/math_utils.h`, a header that is not
among the sources, on `float`. The call site `vox::clamp(0.f, _ratio, 1.f)` carries the
comment "Clamps in the unit interval [0:1]" and the spec says that a non-looping clip
clamps its time ratio; the arguments are read as lower bound, value, upper bound. -/
def clamp (lo x hi : Float32) : Float32 :=
  if lt x lo then lo else if lt hi x then hi else x

end Float32

/-! ### The clip in binary32 arithmetic

The same member functions as in `vox.AnimatorState`, with every `float` a `Float32` and
every arithmetic operation rounded as the machine rounds it. -/

namespace binary32

namespace animation

/-- The part of `animation::Animation` the clip reads: `duration()`. -/
structure Animation where
  duration : Float32
  deriving DecidableEq

/-- The members of `animation::SamplingJob` that the clip touches; `runs` counts the calls
of `Run()`. -/
structure SamplingJob where
  animation : Bool := false
  context : Bool := false
  ratio : Float32 := Float32.zero
  runs : Nat := 0
  deriving DecidableEq

end animation

/-- The clip object, with the default member initialisers of `animator_clip.h`. -/
structure AnimatorState (T : Type) where
  blendMode : BlendMode := BlendMode.Normal
  playback_speed : Float32 := Float32.one
  play : Bool := true
  loop : Bool := true
  _sampling_job : animation.SamplingJob := {}
  _animation : animation.Animation
  _locals : List T := []
  _time_ratio : Float32 := Float32.zero
  _previous_time_ratio : Float32 := Float32.zero

namespace AnimatorState

variable {T : Type}

/-- `AnimatorState::loadAnimation`. `file` is what reading the archive gives: `none` when
the file cannot be opened or carries the wrong tag, `some a` when an animation is read
into `_animation`. -/
def loadAnimation (s : AnimatorState T) (file : Option animation.Animation) :
    Bool × AnimatorState T :=
  match file with
  | none => (false, s)
  | some a => (true, { s with _animation := a })

/-- `AnimatorState::AnimatorState(const char*)`. `a0` is the value of a default
constructed `Animation`, the initial content of the member `_animation`. -/
def ctor (a0 : animation.Animation) (file : Option animation.Animation) : AnimatorState T :=
  let s0 : AnimatorState T := { _animation := a0 }
  let r := s0.loadAnimation file
  if r.1 then
    { r.2 with _sampling_job := { r.2._sampling_job with animation := true, context := true } }
  else r.2

/-- `AnimatorState::timeRatio`. -/
def timeRatio (s : AnimatorState T) : Float32 := s._time_ratio

/-- `AnimatorState::previousTimeRatio`. -/
def previousTimeRatio (s : AnimatorState T) : Float32 := s._previous_time_ratio

/-- `AnimatorState::setTimeRatio`. -/
def setTimeRatio (s : AnimatorState T) (_ratio : Float32) : AnimatorState T :=
  let s1 := { s with _previous_time_ratio := s._time_ratio }
  if s1.loop then
    { s1 with _time_ratio := Float32.sub _ratio (Float32.floorf _ratio) }
  else
    { s1 with _time_ratio := Float32.clamp Float32.zero _ratio Float32.one }

/-- The local `new_time` of `AnimatorState::_update`, the ratio it hands to
`setTimeRatio`. The product is formed first, then the quotient, then the sum. -/
def newTime (s : AnimatorState T) (dt : Float32) : Float32 :=
  if s.play then
    Float32.add s._time_ratio
      (Float32.div (Float32.mul dt s.playback_speed) s._animation.duration)
  else s._time_ratio

/-- `AnimatorState::_update`. `Run s` is the content of the output buffer `_locals` after
`_sampling_job.Run()` has been called on the clip in state `s`. -/
def _update (Run : AnimatorState T → List T) (s : AnimatorState T) (dt : Float32) :
    AnimatorState T :=
  let new_time :=
    if s.play then
      Float32.add s._time_ratio
        (Float32.div (Float32.mul dt s.playback_speed) s._animation.duration)
    else s._time_ratio
  let s1 := s.setTimeRatio new_time
  let s2 := { s1 with _sampling_job := { s1._sampling_job with ratio := s1.timeRatio } }
  if s2._sampling_job.animation then
    { s2 with
      _sampling_job := { s2._sampling_job with runs := s2._sampling_job.runs + 1 }
      _locals := Run s2 }
  else s2

/-- `AnimatorState::reset`. -/
def reset (s : AnimatorState T) : AnimatorState T :=
  { s with
    _previous_time_ratio := Float32.zero, _time_ratio := Float32.zero
    playback_speed := Float32.one, play := true }

/-- One thing a client can do to a clip: call a public member function or assign a public
data member. -/
inductive Op where
  | setTimeRatio (r : Float32)
  | update (dt : Float32)
  | reset
  | assignPlaybackSpeed (v : Float32)
  | assignPlay (b : Bool)
  | assignLoop (b : Bool)
  | assignBlendMode (m : BlendMode)
  deriving DecidableEq

/-- The clip after one client operation. -/
def step (Run : AnimatorState T → List T) (s : AnimatorState T) : Op → AnimatorState T
  | Op.setTimeRatio r => s.setTimeRatio r
  | Op.update dt => s._update Run dt
  | Op.reset => s.reset
  | Op.assignPlaybackSpeed v => { s with playback_speed := v }
  | Op.assignPlay b => { s with play := b }
  | Op.assignLoop b => { s with loop := b }
  | Op.assignBlendMode m => { s with blendMode := m }

/-- The clip after a sequence of client operations, first operation first. -/
def run (Run : AnimatorState T → List T) (s : AnimatorState T) (ops : List Op) :
    AnimatorState T :=
  ops.foldl (step Run) s

end AnimatorState

/-- A clip on a two second animation with every parameter at its default, as the
constructor leaves it after a successful load. -/
def sampleClip : AnimatorState Unit :=
  AnimatorState.ctor { duration := Float32.zero } (some { duration := Float32.ofRatio 2 1 })

/-- The sample clip playing backward at three times the authored speed. -/
def sampleClipBackward : AnimatorState Unit :=
  { sampleClip with playback_speed := Float32.ofRatio (-3) 1 }

/-- A clip at time ratio 0 on a one second animation, playing backward at the speed
-2^-30. -/
def sampleClipCreeping : AnimatorState Unit :=
  { (AnimatorState.ctor { duration := Float32.zero } (some { duration := Float32.one }) :
      AnimatorState Unit) with playback_speed := Float32.ofRatio (-1) (2 ^ 30) }

/-- A sampling effect for the examples: the buffer becomes one unit entry. -/
def sampleRun : AnimatorState Unit → List Unit := fun _ => [()]

end binary32

end vox

/-! ## Theorems -/

namespace vox

namespace AnimatorState

variable {T : Type}

/-- C2: with the loop flag cleared, `setTimeRatio r` stores `r` clamped into the unit
interval: 0 for `r < 0`, 1 for `r > 1` and `r` itself otherwise; the input 1.25 is stored
as 1. -/
theorem setTimeRatio_once (s : AnimatorState T) (r : ℚ) (h : s.loop = false) :
    (s.setTimeRatio r).timeRatio = (if r < 0 then 0 else if 1 < r then 1 else r) ∧
      (s.setTimeRatio (5 / 4)).timeRatio = 1 := by
  have e : ∀ x : ℚ, (s.setTimeRatio x).timeRatio = clamp 0 x 1 := by
    intro x
    simp [setTimeRatio, timeRatio, h]
  refine ⟨by rw [e]; rfl, ?_⟩
  rw [e]
  unfold clamp
  norm_num

/-- C2, at a concrete input: the non-looping sample clip stores the input -3/4 as 0. -/
theorem setTimeRatio_once_witness :
    sampleClipOnce.loop = false ∧
      ((sampleClipOnce.setTimeRatio (-3 / 4)).timeRatio =
          (if (-3 / 4 : ℚ) < 0 then 0 else if 1 < (-3 / 4 : ℚ) then 1 else -3 / 4) ∧
        (sampleClipOnce.setTimeRatio (5 / 4)).timeRatio = 1) :=
  ⟨rfl, setTimeRatio_once sampleClipOnce (-3 / 4) rfl⟩

theorem setTimeRatio_time (s : AnimatorState T) (r : ℚ) :
    (s.setTimeRatio r)._time_ratio = if s.loop then r - floorf r else clamp 0 r 1 := by
  unfold setTimeRatio
  cases s.loop <;> rfl

theorem setTimeRatio_previous (s : AnimatorState T) (r : ℚ) :
    (s.setTimeRatio r)._previous_time_ratio = s._time_ratio := by
  unfold setTimeRatio
  cases s.loop <;> rfl

theorem update_time (Run : AnimatorState T → List T) (s : AnimatorState T) (dt : ℚ) :
    (s._update Run dt)._time_ratio = (s.setTimeRatio (newTime s dt))._time_ratio := by
  unfold _update newTime
  simp only []
  split_ifs <;> rfl

theorem update_previous (Run : AnimatorState T → List T) (s : AnimatorState T) (dt : ℚ) :
    (s._update Run dt)._previous_time_ratio = s._time_ratio := by
  have e : (s._update Run dt)._previous_time_ratio =
      (s.setTimeRatio (newTime s dt))._previous_time_ratio := by
    unfold _update newTime
    simp only []
    split_ifs <;> rfl
  rw [e, setTimeRatio_previous]

/-- C5: after `setTimeRatio r`, and after `update dt`, `previousTimeRatio()` is the value
`timeRatio()` had immediately before the call, in every clip state and for every
argument. -/
theorem previousTimeRatio_is_last (Run : AnimatorState T → List T) (s : AnimatorState T)
    (r dt : ℚ) :
    (s.setTimeRatio r).previousTimeRatio = s.timeRatio ∧
      (s._update Run dt).previousTimeRatio = s.timeRatio :=
  ⟨setTimeRatio_previous s r, update_previous Run s dt⟩

/-- A clip whose animation pointer is null keeps it null, and its sampling job is not
run, under every client operation. -/
theorem unbound_step (Run : AnimatorState T → List T) (s : AnimatorState T) (op : Op)
    (h : s._sampling_job.animation = false) :
    (step Run s op)._sampling_job.animation = false ∧
      (step Run s op)._sampling_job.runs = s._sampling_job.runs := by
  cases op with
  | setTimeRatio r =>
    unfold step setTimeRatio
    cases s.loop <;> exact ⟨h, rfl⟩
  | update dt =>
    unfold step _update setTimeRatio
    cases s.loop <;> simp [h]
  | reset => exact ⟨h, rfl⟩
  | assignPlaybackSpeed v => exact ⟨h, rfl⟩
  | assignPlay b => exact ⟨h, rfl⟩
  | assignLoop b => exact ⟨h, rfl⟩
  | assignBlendMode m => exact ⟨h, rfl⟩

theorem unbound_run (Run : AnimatorState T → List T) (ops : List Op) :
    ∀ s : AnimatorState T, s._sampling_job.animation = false →
      (run Run s ops)._sampling_job.animation = false ∧
        (run Run s ops)._sampling_job.runs = s._sampling_job.runs := by
  induction ops with
  | nil => intro s h; exact ⟨h, rfl⟩
  | cons op ops ih =>
    intro s h
    have h1 := unbound_step Run s op h
    have h2 := ih (step Run s op) h1.1
    exact ⟨h2.1, h2.2.trans h1.2⟩

/-- C6: the constructor leaves the animation pointer of the sampling job null when the
load fails, and no sequence of member calls and assignments binds it or runs the job.
The move constructor binds the pointer whatever the state of its source, so `_update` on
a clip move-constructed from such a clip does call `_sampling_job.Run()`. -/
theorem moved_unloaded_clip_runs_sampling_job (Run : AnimatorState T → List T)
    (a0 : animation.Animation) (ops : List Op) (dt : ℚ) :
    (run Run (ctor a0 none) ops)._sampling_job.animation = false ∧
      (run Run (ctor a0 none) ops)._sampling_job.runs = 0 ∧
      (moveCtor (run Run (ctor a0 none) ops))._sampling_job.animation = true ∧
      ((moveCtor (run Run (ctor a0 none) ops))._update Run dt)._sampling_job.runs = 1 := by
  have h := unbound_run Run ops (ctor a0 none : AnimatorState T) rfl
  refine ⟨h.1, h.2, rfl, ?_⟩
  unfold _update setTimeRatio moveCtor
  simp

/-- C8: `reset` puts both time ratios at 0, the speed at 1 and `play` at true, and it
leaves `loop` and `blendMode` as they were: on the paused, non-looping, additive sample
clip the loop flag stays false and the blend mode stays `Additive`. -/
theorem reset_keeps_loop_and_blendMode (s : AnimatorState T) :
    (s.reset.timeRatio = 0 ∧ s.reset.previousTimeRatio = 0 ∧ s.reset.playback_speed = 1 ∧
        s.reset.play = true ∧ s.reset.loop = s.loop ∧ s.reset.blendMode = s.blendMode) ∧
      sampleClipTuned.reset.loop = false ∧
      sampleClipTuned.reset.blendMode = BlendMode.Additive :=
  ⟨⟨rfl, rfl, rfl, rfl, rfl, rfl⟩, rfl, rfl⟩

end AnimatorState

namespace AnimatorBlending

variable {T : Type}

/-- What the loop of `update` returns: the updated clips, and each layer vector extended
by the buffers of the updated clips of its blend mode, in clip order. -/
theorem updateLoop_spec (clipUpdate : AnimatorClip T → ℚ → AnimatorClip T) (dt : ℚ) :
    ∀ (clips : List (AnimatorClip T)) (ls as : List (animation.Layer T)),
      (updateLoop clipUpdate dt clips ls as).1 = clips.map (fun c => clipUpdate c dt) ∧
      (updateLoop clipUpdate dt clips ls as).2.1 =
        ls ++ (((clips.map (fun c => clipUpdate c dt)).filter
          (fun c => decide (c.blendMode = BlendMode.Normal))).map
            (fun c => ({ transform := c._locals } : animation.Layer T))) ∧
      (updateLoop clipUpdate dt clips ls as).2.2 =
        as ++ (((clips.map (fun c => clipUpdate c dt)).filter
          (fun c => decide (c.blendMode = BlendMode.Additive))).map
            (fun c => ({ transform := c._locals } : animation.Layer T))) := by
  intro clips
  induction clips with
  | nil => intro ls as; simp [updateLoop]
  | cons clip rest ih =>
    intro ls as
    unfold updateLoop
    simp only []
    cases hm : (clipUpdate clip dt).blendMode
    · have h := ih (ls ++ [{ transform := (clipUpdate clip dt)._locals }]) as
      simp [hm, h.1, h.2.1, h.2.2]
    · have h := ih ls (as ++ [{ transform := (clipUpdate clip dt)._locals }])
      simp [hm, h.1, h.2.1, h.2.2]

/-- Every clip has exactly one of the two blend modes. -/
theorem modes_partition (cs : List (AnimatorClip T)) :
    (cs.filter (fun c => decide (c.blendMode = BlendMode.Normal))).length +
        (cs.filter (fun c => decide (c.blendMode = BlendMode.Additive))).length =
      cs.length := by
  induction cs with
  | nil => rfl
  | cons c cs ih =>
    cases hm : c.blendMode <;> simp [List.filter_cons, hm] <;> omega

/-- C7: after `AnimatorBlending::update`, whatever the two layer vectors held before and
whatever `AnimatorClip::update` does to a clip, the normal layers are exactly the buffers
of the clips whose blend mode is `Normal`, in clip order, the additive layers exactly
those of the clips whose blend mode is `Additive`, in clip order, the blending job views
these two vectors, and the two vectors together hold one layer per clip. -/
theorem update_collects_layers (clipUpdate : AnimatorClip T → ℚ → AnimatorClip T)
    (Blend : animation.BlendingJob T → List T → List T) (b : AnimatorBlending T) (dt : ℚ) :
    (update clipUpdate Blend b dt)._clips = b._clips.map (fun c => clipUpdate c dt) ∧
      (update clipUpdate Blend b dt)._layers =
        (((update clipUpdate Blend b dt)._clips.filter
          (fun c => decide (c.blendMode = BlendMode.Normal))).map
            (fun c => ({ transform := c._locals } : animation.Layer T))) ∧
      (update clipUpdate Blend b dt)._additive_layers =
        (((update clipUpdate Blend b dt)._clips.filter
          (fun c => decide (c.blendMode = BlendMode.Additive))).map
            (fun c => ({ transform := c._locals } : animation.Layer T))) ∧
      (update clipUpdate Blend b dt)._blend_job.layers =
        (update clipUpdate Blend b dt)._layers ∧
      (update clipUpdate Blend b dt)._blend_job.additive_layers =
        (update clipUpdate Blend b dt)._additive_layers ∧
      (update clipUpdate Blend b dt)._layers.length +
          (update clipUpdate Blend b dt)._additive_layers.length =
        b._clips.length := by
  have h := updateLoop_spec clipUpdate dt b._clips [] []
  have e1 : (update clipUpdate Blend b dt)._clips =
      (updateLoop clipUpdate dt b._clips [] []).1 := rfl
  have e2 : (update clipUpdate Blend b dt)._layers =
      (updateLoop clipUpdate dt b._clips [] []).2.1 := rfl
  have e3 : (update clipUpdate Blend b dt)._additive_layers =
      (updateLoop clipUpdate dt b._clips [] []).2.2 := rfl
  refine ⟨e1.trans h.1, ?_, ?_, rfl, rfl, ?_⟩
  · rw [e2, e1, h.2.1, h.1, List.nil_append]
  · rw [e3, e1, h.2.2, h.1, List.nil_append]
  · rw [e2, e3, h.2.1, h.2.2, List.nil_append, List.nil_append, List.length_map,
      List.length_map, modes_partition, List.length_map]

end AnimatorBlending

namespace animation

namespace TrackTriggeringJob

/-- C9: `Validate()` is false for a job whose track is null, and `Run()` is false for a
job on which `Validate()` is false, whatever `from`, `to` and `threshold` are. -/
theorem validate_and_run_reject (job : TrackTriggeringJob) :
    (job.track = none → job.Validate = false) ∧ (job.Validate = false → job.Run = false) := by
  constructor
  · intro h
    simp [Validate, h]
  · intro h
    simp [Run, h]

/-- C9, at a concrete input: a job without a track. -/
theorem validate_and_run_reject_witness :
    ({ from_ := 0, to_ := 1, threshold := 1 / 2, track := none } : TrackTriggeringJob).track =
        none ∧
      ({ from_ := 0, to_ := 1, threshold := 1 / 2, track := none } :
        TrackTriggeringJob).Validate = false ∧
      ({ from_ := 0, to_ := 1, threshold := 1 / 2, track := none } :
        TrackTriggeringJob).Run = false :=
  ⟨rfl,
    (validate_and_run_reject { from_ := 0, to_ := 1, threshold := 1 / 2, track := none }).1 rfl,
    (validate_and_run_reject { from_ := 0, to_ := 1, threshold := 1 / 2, track := none }).2
      ((validate_and_run_reject
        { from_ := 0, to_ := 1, threshold := 1 / 2, track := none }).1 rfl)⟩

end TrackTriggeringJob

namespace Iterator

/-- On an empty range the backward scan finds no edge, however many laps it is given. -/
theorem scanBackward_empty_range (job : TrackTriggeringJob) (cs : List (ℤ × ℚ × Bool))
    (last : ℤ) (h : job.from_ = job.to_) :
    ∀ (laps : Nat) (outer : ℚ) (inner : ℤ),
      scanBackward job cs last laps outer inner = job.end_ := by
  intro laps
  induction laps with
  | zero => intro outer inner; rfl
  | succ n ih =>
    intro outer inner
    have hnone : cs.find? (fun c => decide (c.1 ≤ inner) && decide (job.to_ ≤ c.2.1 + outer)
        && decide (c.2.1 + outer < job.from_)) = none := by
      rw [List.find?_eq_none]
      intro c _ hc
      simp only [Bool.and_eq_true, decide_eq_true_eq] at hc
      rw [h] at hc
      exact absurd hc.2 (not_lt.mpr hc.1.2)
    unfold scanBackward
    rw [hnone]
    exact ih (outer - 1) last

/-- C10: for every track, threshold and value `x`, the first iterator of a job with
`from = to = x` exists and is the job's `end()`: it compares equal to `end()` under
`operator==` and not different under `operator!=`, so the job yields no edge. -/
theorem first_iterator_is_end (track : FloatTrack) (threshold x : ℚ) (iterator : Bool) :
    ofJob (TrackTriggeringJob.pointJob track threshold x iterator) =
        some (TrackTriggeringJob.pointJob track threshold x iterator).end_ ∧
      (ofJob (TrackTriggeringJob.pointJob track threshold x iterator)).map
          (fun it => (it.eq (TrackTriggeringJob.pointJob track threshold x iterator).end_,
            it.ne (TrackTriggeringJob.pointJob track threshold x iterator).end_)) =
        some (true, false) := by
  have key : ofJob (TrackTriggeringJob.pointJob track threshold x iterator) =
      some (TrackTriggeringJob.pointJob track threshold x iterator).end_ := by
    have hne : ((track.keys.length : ℤ) - 1 == -2) = false := by
      rw [beq_eq_false_iff_ne]
      omega
    simp only [ofJob, inc, TrackTriggeringJob.pointJob, Iterator.eq, TrackTriggeringJob.end_, ofEnd, lt_irrefl,
      if_false, hne, Bool.and_false]
    simp only [Bool.false_eq_true, if_false]
    congr 1
    exact scanBackward_empty_range _ _ _ rfl _ _ _
  refine ⟨key, ?_⟩
  rw [key]
  simp [Iterator.eq, Iterator.ne]

end Iterator

end animation

end vox

namespace vox

namespace ssize_t

theorem add_val (a b : ssize_t) : (a + b).val = wrap64 (a.val + b.val) := rfl

theorem sub_val (a b : ssize_t) : (a - b).val = wrap64 (a.val - b.val) := rfl

theorem le_def (a b : ssize_t) : a ≤ b ↔ a.val ≤ b.val := Iff.rfl

theorem lt_def (a b : ssize_t) : a < b ↔ a.val < b.val := Iff.rfl

theorem one_val : (1 : ssize_t).val = 1 := by decide

theorem ofUInt8_val (b : Fin 256) : (ofUInt8 b).val = (b.val : ℤ) := by
  show wrap64 (b.val : ℤ) = (b.val : ℤ)
  have := b.isLt
  unfold wrap64
  omega

theorem ext_val (a b : ssize_t) (h : a.val = b.val) : a = b := by
  cases a
  cases b
  simp only [mk.injEq]
  exact h

/-- An operation whose exact result is in the range of `ssize_t` returns that result. -/
theorem wrap64_fits (x : ℤ) (h0 : -9223372036854775808 ≤ x) (h1 : x ≤ 9223372036854775807) :
    wrap64 x = x := by
  unfold wrap64
  omega

/-- For any two values there is a value that is the greater of the two. -/
theorem exists_max (u v : ssize_t) : ∃ p : ssize_t, p.val = max u.val v.val := by
  rcases le_total u.val v.val with h | h
  · exact ⟨v, (max_eq_right h).symm⟩
  · exact ⟨u, (max_eq_left h).symm⟩

end ssize_t

namespace geo

namespace Region

/-- C17, as stated, fails: the valid region from `(0, 0, 0)` to `(SSIZE_MAX, 0, 0)` has
`SSIZE_MAX` cells along `x`, and its width in voxels is the least `ssize_t`, not
`upper - lower + 1`. -/
theorem voxels_wrap_at_ssize_max :
    (ofExtents 0 0 0 SSIZE_MAX 0 0).isValid = true ∧
      (ofExtents 0 0 0 SSIZE_MAX 0 0).getWidthInCells.val = 9223372036854775807 ∧
      (ofExtents 0 0 0 SSIZE_MAX 0 0).getWidthInVoxels.val = -9223372036854775808 ∧
      (ofExtents 0 0 0 SSIZE_MAX 0 0).getWidthInVoxels.val ≠
        (ofExtents 0 0 0 SSIZE_MAX 0 0).getUpperX.val -
          (ofExtents 0 0 0 SSIZE_MAX 0 0).getLowerX.val + 1 := by
  decide

/-- C17, amended: a region is constructed from the lower corner `(x0, y0, z0)` and the
upper corner `(x1, y1, z1)`, and on each axis `upper - lower` and `upper - lower + 1` are in
the range of `ssize_t`. Then it has `upper - lower` cells and `upper - lower + 1` voxels
along each axis. When the corners coincide it has 1 voxel and 0 cells along each axis. -/
theorem sizes_of_extents (x0 y0 z0 x1 y1 z1 : ssize_t)
    (hx : -9223372036854775808 ≤ x1.val - x0.val ∧ x1.val - x0.val + 1 ≤ 9223372036854775807)
    (hy : -9223372036854775808 ≤ y1.val - y0.val ∧ y1.val - y0.val + 1 ≤ 9223372036854775807)
    (hz : -9223372036854775808 ≤ z1.val - z0.val ∧ z1.val - z0.val + 1 ≤ 9223372036854775807) :
    ((ofExtents x0 y0 z0 x1 y1 z1).getWidthInCells.val = x1.val - x0.val ∧
        (ofExtents x0 y0 z0 x1 y1 z1).getHeightInCells.val = y1.val - y0.val ∧
        (ofExtents x0 y0 z0 x1 y1 z1).getDepthInCells.val = z1.val - z0.val) ∧
      ((ofExtents x0 y0 z0 x1 y1 z1).getWidthInVoxels.val = x1.val - x0.val + 1 ∧
        (ofExtents x0 y0 z0 x1 y1 z1).getHeightInVoxels.val = y1.val - y0.val + 1 ∧
        (ofExtents x0 y0 z0 x1 y1 z1).getDepthInVoxels.val = z1.val - z0.val + 1) ∧
      ((ofExtents x0 y0 z0 x0 y0 z0).getWidthInVoxels.val = 1 ∧
        (ofExtents x0 y0 z0 x0 y0 z0).getHeightInVoxels.val = 1 ∧
        (ofExtents x0 y0 z0 x0 y0 z0).getDepthInVoxels.val = 1) ∧
      ((ofExtents x0 y0 z0 x0 y0 z0).getWidthInCells.val = 0 ∧
        (ofExtents x0 y0 z0 x0 y0 z0).getHeightInCells.val = 0 ∧
        (ofExtents x0 y0 z0 x0 y0 z0).getDepthInCells.val = 0) := by
  simp only [ofExtents, getWidthInVoxels, getHeightInVoxels, getDepthInVoxels,
    getWidthInCells, getHeightInCells, getDepthInCells, ssize_t.add_val, ssize_t.sub_val,
    ssize_t.one_val, wrap64]
  omega

/-- C17, amended, at a concrete input: the region from `(1, 2, 3)` to `(3, 5, 7)`. -/
theorem sizes_of_extents_witness :
    (-9223372036854775808 ≤ (3 : ssize_t).val - (1 : ssize_t).val ∧
        (3 : ssize_t).val - (1 : ssize_t).val + 1 ≤ 9223372036854775807) ∧
      (ofExtents 1 2 3 3 5 7).getWidthInCells.val = (3 : ssize_t).val - (1 : ssize_t).val ∧
      (ofExtents 1 2 3 3 5 7).getDepthInVoxels.val =
        (7 : ssize_t).val - (3 : ssize_t).val + 1 :=
  ⟨by decide,
    (sizes_of_extents 1 2 3 3 5 7 (by decide) (by decide) (by decide)).1.1,
    (sizes_of_extents 1 2 3 3 5 7 (by decide) (by decide) (by decide)).2.1.2.2⟩

/-- The six comparisons of `containsPoint`, on the values. -/
theorem containsPoint_eq_true_iff (r : Region) (x y z : ssize_t) (boundary : Fin 256) :
    r.containsPoint x y z boundary = true ↔
      (wrap64 (r._mins.x.val + (boundary.val : ℤ)) ≤ x.val ∧
          x.val ≤ wrap64 (r._maxs.x.val - (boundary.val : ℤ))) ∧
        (wrap64 (r._mins.y.val + (boundary.val : ℤ)) ≤ y.val ∧
          y.val ≤ wrap64 (r._maxs.y.val - (boundary.val : ℤ))) ∧
        (wrap64 (r._mins.z.val + (boundary.val : ℤ)) ≤ z.val ∧
          z.val ≤ wrap64 (r._maxs.z.val - (boundary.val : ℤ))) := by
  simp only [containsPoint, Bool.and_eq_true, decide_eq_true_eq, ge_iff_le, ssize_t.le_def,
    ssize_t.add_val, ssize_t.sub_val, ssize_t.ofUInt8_val]
  tauto

/-- With boundary 0 the comparisons of `containsPoint` are against the corners. -/
theorem containsPoint_zero_iff (r : Region) (x y z : ssize_t) :
    r.containsPoint x y z 0 = true ↔
      (r._mins.x.val ≤ x.val ∧ x.val ≤ r._maxs.x.val) ∧
        (r._mins.y.val ≤ y.val ∧ y.val ≤ r._maxs.y.val) ∧
        (r._mins.z.val ≤ z.val ∧ z.val ≤ r._maxs.z.val) := by
  rw [containsPoint_eq_true_iff]
  have h1 := r._mins.x.lo
  have h2 := r._mins.x.hi
  have h3 := r._mins.y.lo
  have h4 := r._mins.y.hi
  have h5 := r._mins.z.lo
  have h6 := r._mins.z.hi
  have h7 := r._maxs.x.lo
  have h8 := r._maxs.x.hi
  have h9 := r._maxs.y.lo
  have h10 := r._maxs.y.hi
  have h11 := r._maxs.z.lo
  have h12 := r._maxs.z.hi
  simp only [Fin.val_zero, Nat.cast_zero, sub_zero, add_zero]
  rw [ssize_t.wrap64_fits _ h1 h2, ssize_t.wrap64_fits _ h3 h4, ssize_t.wrap64_fits _ h5 h6,
    ssize_t.wrap64_fits _ h7 h8, ssize_t.wrap64_fits _ h9 h10, ssize_t.wrap64_fits _ h11 h12]

/-- C18, as stated, fails: the region of the single position
`(SSIZE_MIN, SSIZE_MIN, SSIZE_MIN)` is valid, the position `(0, 0, 0)` does not satisfy
`lower + 1 <= c <= upper - 1`, and `containsPoint(0, 0, 0, 1)` returns true. -/
theorem containsPoint_true_outside_bounds :
    sampleRegionLowest.isValid = true ∧
      sampleRegionLowest.containsPoint 0 0 0 1 = true ∧
      ¬ (sampleRegionLowest.getLowerX.val + 1 ≤ (0 : ssize_t).val ∧
        (0 : ssize_t).val ≤ sampleRegionLowest.getUpperX.val - 1) := by
  decide

/-- C18, amended: on each axis `lower + boundary` and `upper - boundary` are in the range
of `ssize_t`. Then the integer `containsPoint` is true exactly when every coordinate lies
between `lower + boundary` and `upper - boundary` of its axis, both ends included. In every
case it is the conjunction of `containsPointInX`, `containsPointInY` and
`containsPointInZ`, and with boundary 0 a valid region contains its lower and its upper
corner. -/
theorem containsPoint_inclusive (r : Region) (x y z : ssize_t) (boundary : Fin 256)
    (hx : r.getLowerX.val + (boundary.val : ℤ) ≤ 9223372036854775807 ∧
      -9223372036854775808 ≤ r.getUpperX.val - (boundary.val : ℤ))
    (hy : r.getLowerY.val + (boundary.val : ℤ) ≤ 9223372036854775807 ∧
      -9223372036854775808 ≤ r.getUpperY.val - (boundary.val : ℤ))
    (hz : r.getLowerZ.val + (boundary.val : ℤ) ≤ 9223372036854775807 ∧
      -9223372036854775808 ≤ r.getUpperZ.val - (boundary.val : ℤ)) :
    (r.containsPoint x y z boundary = true ↔
        (r.getLowerX.val + (boundary.val : ℤ) ≤ x.val ∧
          x.val ≤ r.getUpperX.val - (boundary.val : ℤ)) ∧
        (r.getLowerY.val + (boundary.val : ℤ) ≤ y.val ∧
          y.val ≤ r.getUpperY.val - (boundary.val : ℤ)) ∧
        (r.getLowerZ.val + (boundary.val : ℤ) ≤ z.val ∧
          z.val ≤ r.getUpperZ.val - (boundary.val : ℤ))) ∧
      r.containsPoint x y z boundary =
        (r.containsPointInX x boundary && r.containsPointInY y boundary
          && r.containsPointInZ z boundary) ∧
      (r.isValid = true →
        r.containsPoint r.getLowerX r.getLowerY r.getLowerZ 0 = true ∧
          r.containsPoint r.getUpperX r.getUpperY r.getUpperZ 0 = true) := by
  refine ⟨?_, ?_, ?_⟩
  · rw [containsPoint_eq_true_iff]
    simp only [getLowerX, getLowerY, getLowerZ, getUpperX, getUpperY, getUpperZ] at hx hy hz ⊢
    have h1 := r._mins.x.lo
    have h3 := r._mins.y.lo
    have h5 := r._mins.z.lo
    have h8 := r._maxs.x.hi
    have h10 := r._maxs.y.hi
    have h12 := r._maxs.z.hi
    have hb : (0 : ℤ) ≤ (boundary.val : ℤ) := Int.natCast_nonneg _
    rw [ssize_t.wrap64_fits _ (by omega) hx.1, ssize_t.wrap64_fits _ hx.2 (by omega),
      ssize_t.wrap64_fits _ (by omega) hy.1, ssize_t.wrap64_fits _ hy.2 (by omega),
      ssize_t.wrap64_fits _ (by omega) hz.1, ssize_t.wrap64_fits _ hz.2 (by omega)]
  · simp only [containsPoint, containsPointInX, containsPointInY, containsPointInZ]
    rw [Bool.eq_iff_iff]
    simp only [Bool.and_eq_true, decide_eq_true_eq]
    tauto
  · intro hv
    simp only [isValid, Bool.and_eq_true, decide_eq_true_eq, ge_iff_le, ssize_t.le_def] at hv
    rw [containsPoint_zero_iff, containsPoint_zero_iff]
    simp only [getLowerX, getLowerY, getLowerZ, getUpperX, getUpperY, getUpperZ]
    omega

/-- C18, amended, at a concrete input: the sample region, the point (2, 3, 4) and
boundary 1. -/
theorem containsPoint_inclusive_witness :
    (sampleRegion.getLowerX.val + (((1 : Fin 256).val : ℕ) : ℤ) ≤ 9223372036854775807 ∧
        -9223372036854775808 ≤ sampleRegion.getUpperX.val - (((1 : Fin 256).val : ℕ) : ℤ)) ∧
      sampleRegion.isValid = true ∧
      sampleRegion.containsPoint 2 3 4 1 = true ∧
      sampleRegion.containsPoint sampleRegion.getLowerX sampleRegion.getLowerY
        sampleRegion.getLowerZ 0 = true ∧
      sampleRegion.containsPoint sampleRegion.getUpperX sampleRegion.getUpperY
        sampleRegion.getUpperZ 0 = true :=
  ⟨by decide, by decide,
    (containsPoint_inclusive sampleRegion 2 3 4 1 (by decide) (by decide) (by decide)).1.2
      (by decide),
    ((containsPoint_inclusive sampleRegion 2 3 4 1 (by decide) (by decide)
      (by decide)).2.2 (by decide)).1,
    ((containsPoint_inclusive sampleRegion 2 3 4 1 (by decide) (by decide)
      (by decide)).2.2 (by decide)).2⟩

end Region

/-- The condition under which `intersects` returns true. -/
theorem intersects_eq_true_iff (a b : Region) :
    intersects a b = true ↔
      (b._mins.x.val ≤ a._maxs.x.val ∧ a._mins.x.val ≤ b._maxs.x.val) ∧
      (b._mins.y.val ≤ a._maxs.y.val ∧ a._mins.y.val ≤ b._maxs.y.val) ∧
      (b._mins.z.val ≤ a._maxs.z.val ∧ a._mins.z.val ≤ b._maxs.z.val) := by
  unfold intersects Region.getUpperX Region.getLowerX Region.getUpperY Region.getLowerY
    Region.getUpperZ Region.getLowerZ
  simp only [ssize_t.lt_def, gt_iff_lt]
  split_ifs with h1 h2 h3
  · simp only [Bool.false_eq_true, false_iff]
    omega
  · simp only [Bool.false_eq_true, false_iff]
    omega
  · simp only [Bool.false_eq_true, false_iff]
    omega
  · simp only [true_iff]
    omega

/-- C19: for valid regions `a` and `b`, `intersects a b` is true exactly when some integer
position is contained in both (bounds included); `intersects` is symmetric; and it is
false when `b` starts one position after `a` ends on some axis. -/
theorem intersects_iff_common_position (a b : Region) (ha : a.isValid = true)
    (hb : b.isValid = true) :
    (intersects a b = true ↔
        ∃ x y z : ssize_t, a.containsPoint x y z 0 = true ∧ b.containsPoint x y z 0 = true) ∧
      intersects a b = intersects b a ∧
      (a.getUpperX.val + 1 = b.getLowerX.val ∨ a.getUpperY.val + 1 = b.getLowerY.val ∨
          a.getUpperZ.val + 1 = b.getLowerZ.val → intersects a b = false) := by
  simp only [Region.isValid, Bool.and_eq_true, decide_eq_true_eq, ge_iff_le,
    ssize_t.le_def] at ha hb
  refine ⟨?_, ?_, ?_⟩
  · rw [intersects_eq_true_iff]
    constructor
    · intro h
      obtain ⟨px, hpx⟩ := ssize_t.exists_max a._mins.x b._mins.x
      obtain ⟨py, hpy⟩ := ssize_t.exists_max a._mins.y b._mins.y
      obtain ⟨pz, hpz⟩ := ssize_t.exists_max a._mins.z b._mins.z
      refine ⟨px, py, pz, ?_, ?_⟩
      · rw [Region.containsPoint_zero_iff]
        omega
      · rw [Region.containsPoint_zero_iff]
        omega
    · rintro ⟨x, y, z, h1, h2⟩
      rw [Region.containsPoint_zero_iff] at h1 h2
      omega
  · rw [Bool.eq_iff_iff, intersects_eq_true_iff, intersects_eq_true_iff]
    tauto
  · intro h
    rw [← Bool.not_eq_true, intersects_eq_true_iff]
    simp only [Region.getUpperX, Region.getLowerX, Region.getUpperY, Region.getLowerY,
      Region.getUpperZ, Region.getLowerZ] at h
    omega

/-- C19, at a concrete input: the sample region and a region that shares one voxel layer
with it. -/
theorem intersects_iff_common_position_witness :
    sampleRegion.isValid = true ∧ sampleRegionNear.isValid = true ∧
      intersects sampleRegion sampleRegionNear = intersects sampleRegionNear sampleRegion :=
  ⟨by decide, by decide,
    (intersects_iff_common_position sampleRegion sampleRegionNear (by decide)
      (by decide)).2.1⟩

end geo

namespace SurfaceSet3

variable {S : Type}

/-- The loop of `isBounded` on the surfaces still to visit. -/
theorem isBoundedLoop_eq_true_iff (bounded : S → Bool) (all : List S) :
    ∀ rest : List S, isBoundedLoop bounded all rest = true ↔
      all ≠ [] ∧ ∀ s ∈ rest, bounded s = true := by
  intro rest
  induction rest with
  | nil => simp [isBoundedLoop, List.isEmpty_iff]
  | cons s rest ih =>
    unfold isBoundedLoop
    cases hs : bounded s
    · simp [hs]
    · simp [hs, ih]

/-- C20: `isBounded` is true exactly when the set has at least one surface and every
surface of the set is bounded; in particular it is false for a set without surfaces and
false after `addSurface` of an unbounded surface, such as a plane, whose `isBounded` is
false. -/
theorem isBounded_iff (bounded : S → Bool) (set : SurfaceSet3 S) :
    (set.isBounded bounded = true ↔
        set._surfaces ≠ [] ∧ ∀ s ∈ set._surfaces, bounded s = true) ∧
      (set._surfaces = [] → set.isBounded bounded = false) ∧
      (∀ surface : S, bounded surface = false →
        (set.addSurface bounded surface).isBounded bounded = false) ∧
      (∀ ofPlane : Plane3 → S, (∀ p : Plane3, bounded (ofPlane p) = p.isBounded) →
        ∀ p : Plane3, (set.addSurface bounded (ofPlane p)).isBounded bounded = false) := by
  have h1 : ∀ t : SurfaceSet3 S, t.isBounded bounded = true ↔
      t._surfaces ≠ [] ∧ ∀ s ∈ t._surfaces, bounded s = true :=
    fun t => isBoundedLoop_eq_true_iff bounded t._surfaces t._surfaces
  have h3 : ∀ surface : S, bounded surface = false →
      (set.addSurface bounded surface).isBounded bounded = false := by
    intro surface hs
    rw [← Bool.not_eq_true, h1]
    rintro ⟨_, hall⟩
    have hmem : surface ∈ (set.addSurface bounded surface)._surfaces := by
      simp [addSurface, invalidateBvh, hs]
    rw [hall surface hmem] at hs
    exact Bool.noConfusion hs
  refine ⟨h1 set, ?_, h3, ?_⟩
  · intro he
    rw [← Bool.not_eq_true, h1]
    exact fun h => h.1 he
  · intro ofPlane hdispatch p
    exact h3 (ofPlane p) (by rw [hdispatch]; rfl)

/-- C20, at a concrete input: a set of planes, to which one more plane is added. -/
theorem isBounded_iff_witness :
    Plane3.isBounded samplePlane = false ∧
      (samplePlaneSet.addSurface Plane3.isBounded samplePlane).isBounded Plane3.isBounded =
        false ∧
      (samplePlaneSet.addSurface Plane3.isBounded samplePlane).isBounded Plane3.isBounded =
        false :=
  ⟨rfl,
    (isBounded_iff Plane3.isBounded samplePlaneSet).2.2.1 samplePlane rfl,
    (isBounded_iff Plane3.isBounded samplePlaneSet).2.2.2 id (fun _ => rfl) samplePlane⟩

end SurfaceSet3

end vox

namespace vox

namespace ShaderMacroCollection

theorem mapFind_mapAssign (k k1 : Nat) (v : ℚ) :
    ∀ m : List (Nat × ℚ), mapFind k (mapAssign k1 v m) = if k1 = k then some v else mapFind k m := by
  intro m
  induction m with
  | nil => simp [mapAssign, mapFind]
  | cons e m ih =>
    unfold mapAssign
    by_cases h1 : k1 < e.1
    · rw [if_pos h1]
      by_cases hk : k1 = k
      · simp [mapFind, hk]
      · simp [mapFind, hk]
    · rw [if_neg h1]
      by_cases h2 : k1 = e.1
      · rw [if_pos h2]
        by_cases hk : k1 = k
        · simp [mapFind, hk]
        · have hek : ¬ e.1 = k := by omega
          simp [mapFind, hk, hek]
      · rw [if_neg h2]
        by_cases hk : k1 = k
        · have hek : ¬ e.1 = k := by omega
          simp only [mapFind, if_neg hek, ih, if_pos hk]
        · simp only [mapFind, ih, if_neg hk]

theorem mapFind_eq_none (k : Nat) :
    ∀ m : List (Nat × ℚ), (∀ e ∈ m, e.1 ≠ k) → mapFind k m = none := by
  intro m
  induction m with
  | nil => intro _; rfl
  | cons e m ih =>
    intro h
    unfold mapFind
    rw [if_neg (h e (List.mem_cons_self e m))]
    exact ih (fun e1 he1 => h e1 (List.mem_cons_of_mem e he1))

theorem mapFind_mapErase (k k1 : Nat) :
    ∀ m : List (Nat × ℚ), mapFind k (mapErase k1 m) = if k1 = k then none else mapFind k m := by
  intro m
  induction m with
  | nil => simp [mapErase, mapFind]
  | cons e m ih =>
    unfold mapErase at ih ⊢
    by_cases he : e.1 = k1
    · rw [List.filter_cons_of_neg (by simp [he]), ih]
      split_ifs with h
      · rfl
      · simp only [mapFind]
        rw [if_neg]
        omega
    · rw [List.filter_cons_of_pos (by simp [he])]
      simp only [mapFind, ih]
      split_ifs with h1 h2
      · omega
      · rfl
      · rfl
      · rfl

theorem mem_mapAssign (k : Nat) (v : ℚ) (e1 : Nat × ℚ) :
    ∀ m : List (Nat × ℚ), e1 ∈ mapAssign k v m → e1 = (k, v) ∨ e1 ∈ m := by
  intro m
  induction m with
  | nil => intro h; simpa [mapAssign] using h
  | cons e m ih =>
    unfold mapAssign
    split_ifs with h1 h2
    · intro h
      rcases List.mem_cons.mp h with h | h
      · exact Or.inl h
      · exact Or.inr h
    · intro h
      rcases List.mem_cons.mp h with h | h
      · exact Or.inl h
      · exact Or.inr (List.mem_cons_of_mem e h)
    · intro h
      rcases List.mem_cons.mp h with h | h
      · exact Or.inr (h ▸ List.mem_cons_self e m)
      · rcases ih h with h | h
        · exact Or.inl h
        · exact Or.inr (List.mem_cons_of_mem e h)

theorem pairwise_mapAssign (k : Nat) (v : ℚ) :
    ∀ m : List (Nat × ℚ), m.Pairwise (fun a b => a.1 < b.1) →
      (mapAssign k v m).Pairwise (fun a b => a.1 < b.1) := by
  intro m
  induction m with
  | nil => intro _; simp [mapAssign]
  | cons e m ih =>
    intro h
    have hm := List.pairwise_cons.mp h
    unfold mapAssign
    split_ifs with h1 h2
    · refine List.pairwise_cons.mpr ⟨?_, h⟩
      intro a ha
      rcases List.mem_cons.mp ha with ha | ha
      · rw [ha]; exact h1
      · exact lt_trans h1 (hm.1 a ha)
    · refine List.pairwise_cons.mpr ⟨?_, hm.2⟩
      intro a ha
      show k < a.1
      rw [h2]
      exact hm.1 a ha
    · refine List.pairwise_cons.mpr ⟨?_, ih hm.2⟩
      intro a ha
      rcases mem_mapAssign k v a m ha with ha | ha
      · rw [ha]
        show e.1 < k
        omega
      · exact hm.1 a ha

theorem pairwise_assignAll :
    ∀ (es m : List (Nat × ℚ)), m.Pairwise (fun a b => a.1 < b.1) →
      (assignAll es m).Pairwise (fun a b => a.1 < b.1) := by
  intro es
  induction es with
  | nil => intro m h; exact h
  | cons e es ih =>
    intro m h
    exact ih _ (pairwise_mapAssign e.1 e.2 m h)

theorem mapFind_assignAll (k : Nat) :
    ∀ (es m : List (Nat × ℚ)), es.Pairwise (fun a b => a.1 < b.1) →
      mapFind k (assignAll es m) =
        match mapFind k es with
        | some v => some v
        | none => mapFind k m := by
  intro es
  induction es with
  | nil => intro m _; rfl
  | cons e es ih =>
    intro m h
    have hm := List.pairwise_cons.mp h
    unfold assignAll
    rw [ih _ hm.2, mapFind_mapAssign]
    by_cases hk : e.1 = k
    · have hnone : mapFind k es = none := by
        apply mapFind_eq_none
        intro a ha
        have := hm.1 a ha
        omega
      simp [mapFind, hk, hnone]
    · simp [mapFind, hk]

/-- Two maps with the same content are the same list of entries. -/
theorem entries_ext :
    ∀ (a b : List (Nat × ℚ)), a.Pairwise (fun x y => x.1 < y.1) →
      b.Pairwise (fun x y => x.1 < y.1) → (∀ k, mapFind k a = mapFind k b) → a = b := by
  intro a
  induction a with
  | nil =>
    intro b _ _ h
    cases b with
    | nil => rfl
    | cons f b =>
      have := h f.1
      simp [mapFind] at this
  | cons e a ih =>
    intro b ha hb h
    have ha1 := List.pairwise_cons.mp ha
    cases b with
    | nil =>
      have := h e.1
      simp [mapFind] at this
    | cons f b =>
      have hb1 := List.pairwise_cons.mp hb
      have hae : mapFind e.1 a = none :=
        mapFind_eq_none e.1 a (fun x hx => by have := ha1.1 x hx; omega)
      have hbf : mapFind f.1 b = none :=
        mapFind_eq_none f.1 b (fun x hx => by have := hb1.1 x hx; omega)
      have hkey : e.1 = f.1 := by
        rcases lt_trichotomy e.1 f.1 with hlt | heq | hgt
        · have h1 := h e.1
          have hbe : mapFind e.1 b = none :=
            mapFind_eq_none e.1 b (fun x hx => by have := hb1.1 x hx; omega)
          simp only [mapFind, if_true] at h1
          rw [if_neg (by omega), hbe] at h1
          exact Option.noConfusion h1
        · exact heq
        · have h1 := h f.1
          have haf : mapFind f.1 a = none :=
            mapFind_eq_none f.1 a (fun x hx => by have := ha1.1 x hx; omega)
          simp only [mapFind, if_true] at h1
          rw [if_neg (by omega), haf] at h1
          exact Option.noConfusion h1
      have hval : e.2 = f.2 := by
        have h1 := h e.1
        simp only [mapFind, if_true] at h1
        rw [if_pos hkey.symm] at h1
        exact Option.some.inj h1
      have hef : e = f := Prod.ext hkey hval
      have htail : a = b := by
        apply ih b ha1.2 hb1.2
        intro k
        by_cases hk : e.1 = k
        · rw [← hk, hae, hkey, hbf]
        · have h1 := h k
          simp only [mapFind] at h1
          rw [if_neg hk, if_neg (by rw [← hkey]; exact hk)] at h1
          exact h1
      rw [hef, htail]

/-- The content of a union: the entry of `right` when there is one, else that of `left`. -/
theorem macroConstant_unionCollection (left right : ShaderMacroCollection)
    (hl : left.Ordered) (hr : right.Ordered) (k : Nat) :
    (unionCollection left right).macroConstant k =
      match right.macroConstant k with
      | some v => some v
      | none => left.macroConstant k := by
  unfold unionCollection macroConstant
  simp only []
  rw [mapFind_assignAll k _ _ hr, mapFind_assignAll k _ _ hl]
  cases mapFind k right._value with
  | some v => rfl
  | none =>
    cases mapFind k left._value with
    | some v => rfl
    | none => rfl

theorem ordered_unionCollection (left right : ShaderMacroCollection) :
    (unionCollection left right).Ordered :=
  pairwise_assignAll _ _ (pairwise_assignAll _ _ List.Pairwise.nil)

theorem ordered_sampleMacrosA (flag : ℚ) : (sampleMacrosA flag).Ordered := by
  simp [Ordered, sampleMacrosA, enableMacro, mapAssign]

theorem ordered_sampleMacrosB : sampleMacrosB.Ordered := by
  simp [Ordered, sampleMacrosB, enableMacroValue, mapAssign]

/-- C13: `unionCollection(left, right, result)` leaves in `result` exactly the macros of
`left` and of `right`: `contains(k)` holds on the result iff it holds on `left` or on
`right`, and a macro of only one input keeps the entry it has there. For `{A}` and
`{B := 2.0}` the result contains `A` with the entry of a flag and `macroConstant(B)` is
2.0. -/
theorem unionCollection_contains (left right : ShaderMacroCollection) (hl : left.Ordered)
    (hr : right.Ordered) (k : Nat) :
    ((unionCollection left right).contains k = true ↔
        left.contains k = true ∨ right.contains k = true) ∧
      (right.contains k = false →
        (unionCollection left right).macroConstant k = left.macroConstant k) ∧
      (left.contains k = false →
        (unionCollection left right).macroConstant k = right.macroConstant k) ∧
      (∀ flag : ℚ,
        (unionCollection (sampleMacrosA flag) sampleMacrosB).contains 10 = true ∧
          (unionCollection (sampleMacrosA flag) sampleMacrosB).macroConstant 10 =
            (sampleMacrosA flag).macroConstant 10 ∧
          (unionCollection (sampleMacrosA flag) sampleMacrosB).contains 20 = true ∧
          (unionCollection (sampleMacrosA flag) sampleMacrosB).macroConstant 20 = some 2) := by
  have hu := macroConstant_unionCollection left right hl hr k
  refine ⟨?_, ?_, ?_, ?_⟩
  · unfold contains
    unfold macroConstant at hu
    rw [hu]
    cases mapFind k right._value <;> cases mapFind k left._value <;> simp
  · intro h
    unfold contains at h
    unfold macroConstant at hu ⊢
    rw [hu]
    cases hr1 : mapFind k right._value with
    | none => rfl
    | some v => rw [hr1] at h; simp at h
  · intro h
    unfold contains at h
    unfold macroConstant at hu ⊢
    rw [hu]
    cases hr1 : mapFind k right._value with
    | none =>
      cases hl1 : mapFind k left._value with
      | none => rfl
      | some v => rw [hl1] at h; simp at h
    | some v => rfl
  · intro flag
    simp [unionCollection, sampleMacrosA, sampleMacrosB, enableMacro, enableMacroValue,
      assignAll, mapAssign, mapFind, contains, macroConstant]

/-- C13, at a concrete input: the union of `{A}` and `{B := 2.0}`, queried for `B`. -/
theorem unionCollection_contains_witness :
    (sampleMacrosA 1).Ordered ∧ sampleMacrosB.Ordered ∧
      ((unionCollection (sampleMacrosA 1) sampleMacrosB).contains 20 = true ↔
        (sampleMacrosA 1).contains 20 = true ∨ sampleMacrosB.contains 20 = true) :=
  ⟨ordered_sampleMacrosA 1, ordered_sampleMacrosB,
    (unionCollection_contains (sampleMacrosA 1) sampleMacrosB (ordered_sampleMacrosA 1)
      ordered_sampleMacrosB 20).1⟩

/-- C14: `hash()` is determined by the keys and values of the collection. For collections
`a` and `b` without a common key the hash of `unionCollection(a, b)` is the hash of
`unionCollection(b, a)`; two collections with the same keys and values have the same
hash; and enabling two different macros in either order gives the same hash. -/
theorem hash_order_independent (combine : Nat → Nat × ℚ → Nat) (a b : ShaderMacroCollection)
    (ha : a.Ordered) (hb : b.Ordered) (hdisj : ∀ k, a.contains k = true → b.contains k = false) :
    hash combine (unionCollection a b) = hash combine (unionCollection b a) ∧
      (∀ c d : ShaderMacroCollection, c.Ordered → d.Ordered →
        (∀ k, c.contains k = d.contains k ∧ c.macroConstant k = d.macroConstant k) →
          hash combine c = hash combine d) ∧
      (∀ (k1 k2 : Nat) (v1 v2 : ℚ), k1 ≠ k2 →
        hash combine ((a.enableMacroValue k1 v1).enableMacroValue k2 v2) =
          hash combine ((a.enableMacroValue k2 v2).enableMacroValue k1 v1)) := by
  have hext : ∀ c d : ShaderMacroCollection, c.Ordered → d.Ordered →
      (∀ k, c.macroConstant k = d.macroConstant k) → c = d := by
    intro c d hc hd h
    cases c with
    | mk cv =>
      cases d with
      | mk dv =>
        have : cv = dv := entries_ext cv dv hc hd h
        rw [this]
  refine ⟨?_, ?_, ?_⟩
  · have : unionCollection a b = unionCollection b a := by
      apply hext _ _ (ordered_unionCollection a b) (ordered_unionCollection b a)
      intro k
      rw [macroConstant_unionCollection a b ha hb k, macroConstant_unionCollection b a hb ha k]
      have hk := hdisj k
      unfold contains at hk
      unfold macroConstant
      cases hbk : mapFind k b._value with
      | none =>
        cases hak : mapFind k a._value with
        | none => rfl
        | some v => rfl
      | some v =>
        cases hak : mapFind k a._value with
        | none => rfl
        | some w =>
          rw [hak, hbk] at hk
          simp at hk
    rw [this]
  · intro c d hc hd h
    rw [hext c d hc hd (fun k => (h k).2)]
  · intro k1 k2 v1 v2 hne
    have : (a.enableMacroValue k1 v1).enableMacroValue k2 v2 =
        (a.enableMacroValue k2 v2).enableMacroValue k1 v1 := by
      apply hext
      · exact pairwise_mapAssign _ _ _ (pairwise_mapAssign _ _ _ ha)
      · exact pairwise_mapAssign _ _ _ (pairwise_mapAssign _ _ _ ha)
      · intro k
        simp only [macroConstant, enableMacroValue, mapFind_mapAssign]
        by_cases h1 : k1 = k
        · have h2 : ¬ k2 = k := by omega
          rw [if_pos h1, if_neg h2, if_pos h1]
        · rw [if_neg h1, if_neg h1]
    rw [this]

/-- C14, at a concrete input: `{A}` and `{B := 2.0}` united in both orders. -/
theorem hash_order_independent_witness :
    (sampleMacrosA 1).Ordered ∧ sampleMacrosB.Ordered ∧
      (∀ k, (sampleMacrosA 1).contains k = true → sampleMacrosB.contains k = false) ∧
      hash (fun h e => 31 * h + e.1) (unionCollection (sampleMacrosA 1) sampleMacrosB) =
        hash (fun h e => 31 * h + e.1) (unionCollection sampleMacrosB (sampleMacrosA 1)) :=
  have hd : ∀ k, (sampleMacrosA 1).contains k = true → sampleMacrosB.contains k = false := by
    intro k
    simp only [sampleMacrosA, sampleMacrosB, enableMacro, enableMacroValue, mapAssign, contains,
      mapFind]
    by_cases h1 : 10 = k
    · have h2 : ¬ 20 = k := by omega
      simp [h1, h2]
    · simp [h1]
  ⟨ordered_sampleMacrosA 1, ordered_sampleMacrosB, hd,
    (hash_order_independent (fun h e => 31 * h + e.1) (sampleMacrosA 1) sampleMacrosB
      (ordered_sampleMacrosA 1) ordered_sampleMacrosB hd).1⟩

/-- C15: enabling a macro with the value `v` and then with `w` leaves `macroConstant` at
`w`; after `disableMacro(k)` the macro `k` is absent and has no constant, whether it had
been enabled as a flag or with a value; and enabling or disabling `k` leaves the presence
and the constant of every other key `k1` as they were. -/
theorem enable_overwrites_disable_removes (flag : ℚ) (c : ShaderMacroCollection) (k k1 : Nat)
    (v w : ℚ) (hne : k1 ≠ k) :
    ((c.enableMacroValue k v).enableMacroValue k w).macroConstant k = some w ∧
      (((c.enableMacro flag k).disableMacro k).contains k = false ∧
        ((c.enableMacro flag k).disableMacro k).macroConstant k = none) ∧
      (((c.enableMacroValue k v).disableMacro k).contains k = false ∧
        ((c.enableMacroValue k v).disableMacro k).macroConstant k = none) ∧
      ((c.enableMacroValue k v).contains k1 = c.contains k1 ∧
        (c.enableMacroValue k v).macroConstant k1 = c.macroConstant k1) ∧
      ((c.enableMacro flag k).contains k1 = c.contains k1 ∧
        (c.enableMacro flag k).macroConstant k1 = c.macroConstant k1) ∧
      ((c.disableMacro k).contains k1 = c.contains k1 ∧
        (c.disableMacro k).macroConstant k1 = c.macroConstant k1) := by
  have hkk : ¬ k = k1 := fun h => hne h.symm
  refine ⟨?_, ⟨?_, ?_⟩, ⟨?_, ?_⟩, ⟨?_, ?_⟩, ⟨?_, ?_⟩, ⟨?_, ?_⟩⟩ <;>
    simp [contains, macroConstant, enableMacro, enableMacroValue, disableMacro,
      mapFind_mapAssign, mapFind_mapErase, hkk]

/-- C15, at a concrete input: the macro 20 of `{B := 2.0}` and the other key 10. -/
theorem enable_overwrites_disable_removes_witness :
    (10 : Nat) ≠ 20 ∧
      ((sampleMacrosB.enableMacroValue 20 3).enableMacroValue 20 4).macroConstant 20 = some 4 ∧
      ((sampleMacrosB.enableMacroValue 20 3).disableMacro 20).contains 20 = false ∧
      (sampleMacrosB.disableMacro 20).macroConstant 10 = sampleMacrosB.macroConstant 10 :=
  ⟨by decide,
    (enable_overwrites_disable_removes 1 sampleMacrosB 20 10 3 4 (by decide)).1,
    (enable_overwrites_disable_removes 1 sampleMacrosB 20 10 3 4 (by decide)).2.2.1.1,
    (enable_overwrites_disable_removes 1 sampleMacrosB 20 10 3 4 (by decide)).2.2.2.2.2.2⟩

end ShaderMacroCollection

namespace AnimatorBlending

variable {T : Type}

/-- C16: after `setThreshold(threshold)` the blending job works with that threshold, and
when the weights of the normal layers sum to less than it, the rest pose receives the
weight `threshold - sum`, for every joint alike; with the sum 0.3 and the threshold 1.0
that weight is 0.7. -/
theorem restPose_receives_remainder (b : AnimatorBlending T) (weights : List ℚ)
    (threshold : ℚ) (hs : weights.sum < threshold) :
    (b.setThreshold threshold).threshold = threshold ∧
      (b.setThreshold threshold)._blend_job.restPoseWeight weights = threshold - weights.sum ∧
      (weights.sum = 3 / 10 →
        (b.setThreshold 1)._blend_job.restPoseWeight weights = 7 / 10) := by
  refine ⟨rfl, ?_, ?_⟩
  · simp [setThreshold, animation.BlendingJob.restPoseWeight, hs]
  · intro h
    simp only [setThreshold, animation.BlendingJob.restPoseWeight, h]
    norm_num

end AnimatorBlending

end vox

namespace vox

namespace AnimatorBlending

/-- C16, at a concrete input: two normal layers of weight 0.1 and 0.2 under the threshold
1.0. -/
theorem restPose_receives_remainder_witness :
    ([1 / 10, 1 / 5] : List ℚ).sum < 1 ∧
      (sampleBlending.setThreshold 1)._blend_job.restPoseWeight [1 / 10, 1 / 5] =
        1 - ([1 / 10, 1 / 5] : List ℚ).sum :=
  ⟨by norm_num,
    (restPose_receives_remainder sampleBlending [1 / 10, 1 / 5] 1 (by norm_num)).2.1⟩

end AnimatorBlending

namespace animation

theorem lapCrossings_cons_cons (threshold : ℚ) (i : ℤ) (a b : Keyframe) (rest : List Keyframe) :
    lapCrossings threshold i (a :: b :: rest) =
      match crossing threshold a b with
      | some c => (i + 1, c) :: lapCrossings threshold (i + 1) (b :: rest)
      | none => lapCrossings threshold (i + 1) (b :: rest) := by
  rw [lapCrossings]

theorem lapCrossings_single (threshold : ℚ) (i : ℤ) (a : Keyframe) :
    lapCrossings threshold i [a] = [] := by
  rw [lapCrossings]
  · intro _ _ _ h
    simp at h

theorem lapCrossings_nil (threshold : ℚ) (i : ℤ) : lapCrossings threshold i [] = [] := by
  rw [lapCrossings]
  · intro _ _ _ h
    simp at h

theorem crossing_none_of_le (threshold : ℚ) (a b : Keyframe) (ha : a.value ≤ threshold)
    (hb : b.value ≤ threshold) : crossing threshold a b = none := by
  unfold crossing
  simp only []
  rw [if_neg (fun h => absurd h.2 (not_lt.mpr hb)), if_neg (fun h => absurd h.1 (not_lt.mpr ha))]

theorem crossing_none_of_lt (threshold : ℚ) (a b : Keyframe) (ha : threshold < a.value)
    (hb : threshold < b.value) : crossing threshold a b = none := by
  unfold crossing
  simp only []
  rw [if_neg (fun h => absurd ha (not_lt.mpr h.1)), if_neg (fun h => absurd hb (not_lt.mpr h.2))]

theorem crossing_rising (threshold : ℚ) (a b : Keyframe) (ha : a.value ≤ threshold)
    (hb : threshold < b.value) :
    crossing threshold a b = some (crossingRatio threshold a b, true) := by
  unfold crossing crossingRatio
  simp only []
  rw [if_pos ⟨ha, hb⟩]

/-- A stretch of keyframes above the threshold holds no crossing. -/
theorem lapCrossings_above (threshold : ℚ) :
    ∀ (l : List Keyframe) (i : ℤ), (∀ k ∈ l, threshold < k.value) →
      lapCrossings threshold i l = [] := by
  intro l
  induction l with
  | nil => intro i _; exact lapCrossings_nil threshold i
  | cons a l ih =>
    intro i h
    cases l with
    | nil => exact lapCrossings_single threshold i a
    | cons b rest =>
      rw [lapCrossings_cons_cons,
        crossing_none_of_lt threshold a b (h a (List.mem_cons_self a _))
          (h b (List.mem_cons_of_mem a (List.mem_cons_self b _)))]
      exact ih (i + 1) (fun k hk => h k (List.mem_cons_of_mem a hk))

/-- A track that stays at or below the threshold up to `k0` and above it from `k1` on has
one crossing, between `k0` and `k1`. -/
theorem lapCrossings_single_rise (threshold : ℚ) (k0 k1 : Keyframe) (post : List Keyframe)
    (h0 : k0.value ≤ threshold) (h1 : threshold < k1.value)
    (hpost : ∀ k ∈ post, threshold < k.value) :
    ∀ (pre : List Keyframe) (i : ℤ), (∀ k ∈ pre, k.value ≤ threshold) →
      lapCrossings threshold i (pre ++ k0 :: k1 :: post) =
        [(i + (pre.length : ℤ) + 1, crossingRatio threshold k0 k1, true)] := by
  intro pre
  induction pre with
  | nil =>
    intro i _
    rw [List.nil_append, lapCrossings_cons_cons, crossing_rising threshold k0 k1 h0 h1]
    simp only [List.length_nil, Nat.cast_zero, add_zero]
    rw [lapCrossings_above threshold (k1 :: post) (i + 1)]
    intro k hk
    rcases List.mem_cons.mp hk with hk | hk
    · rw [hk]; exact h1
    · exact hpost k hk
  | cons p pre ih =>
    intro i hpre
    have hp : p.value ≤ threshold := hpre p (List.mem_cons_self p pre)
    have hrest : ∀ k ∈ pre, k.value ≤ threshold :=
      fun k hk => hpre k (List.mem_cons_of_mem p hk)
    have hnext := ih (i + 1) hrest
    have hidx : i + 1 + (pre.length : ℤ) + 1 = i + ((p :: pre).length : ℤ) + 1 := by
      simp only [List.length_cons, Nat.cast_add, Nat.cast_one]
      ring
    rw [hidx] at hnext
    cases pre with
    | nil =>
      rw [List.cons_append, List.nil_append, lapCrossings_cons_cons,
        crossing_none_of_le threshold p k0 hp h0]
      exact hnext
    | cons q pre1 =>
      rw [List.cons_append, List.cons_append, lapCrossings_cons_cons,
        crossing_none_of_le threshold p q hp (hrest q (List.mem_cons_self q pre1))]
      exact hnext

/-- The crossing point of a rising pair lies between the two keyframes. -/
theorem crossingRatio_mem (threshold : ℚ) (k0 k1 : Keyframe) (h0 : k0.value ≤ threshold)
    (h1 : threshold < k1.value) (hr : k0.ratio < k1.ratio) :
    k0.ratio ≤ crossingRatio threshold k0 k1 ∧ crossingRatio threshold k0 k1 < k1.ratio := by
  unfold crossingRatio
  have hd : 0 < k1.value - k0.value := by linarith
  have ht : 0 < k1.ratio - k0.ratio := by linarith
  have ha0 : 0 ≤ (threshold - k0.value) / (k1.value - k0.value) :=
    div_nonneg (by linarith) (le_of_lt hd)
  have ha1 : (threshold - k0.value) / (k1.value - k0.value) < 1 := by
    rw [div_lt_one hd]
    linarith
  constructor
  · have := mul_nonneg ha0 (le_of_lt ht)
    linarith
  · have := mul_lt_mul_of_pos_right ha1 ht
    linarith

namespace Iterator

/-- The two iterators of the job over `from = 0`, `to = 1` on a track whose values rise
through the threshold between `k0` and `k1` only: the first one stands after `k1` with
the crossing as its edge, the next one is `end()`. -/
theorem rising_scan (pre post : List Keyframe) (k0 k1 : Keyframe) (threshold : ℚ)
    (iterator : Bool)
    (hmono : (pre ++ k0 :: k1 :: post).Pairwise (fun a b => a.value ≤ b.value))
    (h0 : k0.value ≤ threshold) (h1 : threshold < k1.value)
    (hlo : 0 ≤ k0.ratio) (hr : k0.ratio < k1.ratio) (hhi : k1.ratio ≤ 1) :
    ofJob (TrackTriggeringJob.rangeJob ⟨pre ++ k0 :: k1 :: post⟩ threshold 0 1 iterator) =
        some (Iterator.mk
          (some (TrackTriggeringJob.rangeJob ⟨pre ++ k0 :: k1 :: post⟩ threshold 0 1 iterator))
          0 ((pre.length : ℤ) + 2) (Edge.mk (crossingRatio threshold k0 k1) true)) ∧
      inc (Iterator.mk
          (some (TrackTriggeringJob.rangeJob ⟨pre ++ k0 :: k1 :: post⟩ threshold 0 1 iterator))
          0 ((pre.length : ℤ) + 2) (Edge.mk (crossingRatio threshold k0 k1) true)) =
        some (TrackTriggeringJob.rangeJob ⟨pre ++ k0 :: k1 :: post⟩ threshold 0 1
          iterator).end_ := by
  have hp := List.pairwise_append.mp hmono
  have hpre : ∀ k ∈ pre, k.value ≤ threshold :=
    fun k hk => le_trans (hp.2.2 k hk k0 (List.mem_cons_self k0 _)) h0
  have hp2 := List.pairwise_cons.mp (List.pairwise_cons.mp hp.2.1).2
  have hpost : ∀ k ∈ post, threshold < k.value :=
    fun k hk => lt_of_lt_of_le h1 (hp2.1 k hk)
  have hcs := lapCrossings_single_rise threshold k0 k1 post h0 h1 hpost pre 0 hpre
  have hmem := crossingRatio_mem threshold k0 k1 h0 h1 hr
  have hf0 : floorf 0 = 0 := by simp [floorf]
  have hc1 : (⌈(1 : ℚ) - 0⌉).toNat = 1 := by simp
  refine ⟨?_, ?_⟩
  · simp only [ofJob, inc, TrackTriggeringJob.rangeJob, hf0, Iterator.eq,
      TrackTriggeringJob.end_, ofEnd, zero_lt_one, if_true, hcs, hc1, scanForward]
    have hr0 : 0 ≤ crossingRatio threshold k0 k1 + 0 := by linarith [hmem.1]
    have hr1 : crossingRatio threshold k0 k1 + 0 < 1 := by linarith [hmem.2]
    have hlen : (0 : ℤ) ≤ 0 + (pre.length : ℤ) + 1 := by omega
    simp only [List.find?_cons, hlen, hr0, hr1, decide_True, Bool.and_self]
    simp
    ring
  · have hlen : ¬ ((pre.length : ℤ) + 2 ≤ 0 + (pre.length : ℤ) + 1) := by omega
    have hne : ((pre.length : ℤ) + 2 == -2) = false := by
      rw [beq_eq_false_iff_ne]
      omega
    simp only [inc, TrackTriggeringJob.rangeJob, Iterator.eq,
      TrackTriggeringJob.end_, ofEnd, zero_lt_one, if_true, hcs, hc1, scanForward,
      List.find?_cons, hlen, decide_False, Bool.false_and, List.find?_nil, hne, Bool.and_false]
    simp

/-- C11: the values of the track increase monotonically, the keyframe `k0` is at or below
the threshold and the next keyframe `k1` is above it, and the two keyframes have
ascending ratios in [0,1]. Then the job over `from = 0`, `to = 1` yields exactly one edge:
the first iterator is not `end()`, its edge is rising, the ratio of the edge is the point
where the segment from `k0` to `k1` crosses the threshold, and the next iterator is
`end()`. -/
theorem single_rising_edge (pre post : List Keyframe) (k0 k1 : Keyframe) (threshold : ℚ)
    (iterator : Bool)
    (hmono : (pre ++ k0 :: k1 :: post).Pairwise (fun a b => a.value ≤ b.value))
    (h0 : k0.value ≤ threshold) (h1 : threshold < k1.value)
    (hlo : 0 ≤ k0.ratio) (hr : k0.ratio < k1.ratio) (hhi : k1.ratio ≤ 1) :
    ∃ it : Iterator,
      ofJob (TrackTriggeringJob.rangeJob ⟨pre ++ k0 :: k1 :: post⟩ threshold 0 1 iterator) =
        some it ∧
      it.ne (TrackTriggeringJob.rangeJob ⟨pre ++ k0 :: k1 :: post⟩ threshold 0 1
        iterator).end_ = true ∧
      it.edge_ =
        Edge.mk (k0.ratio +
          (threshold - k0.value) / (k1.value - k0.value) * (k1.ratio - k0.ratio)) true ∧
      inc it = some (TrackTriggeringJob.rangeJob ⟨pre ++ k0 :: k1 :: post⟩ threshold 0 1
        iterator).end_ := by
  have h := rising_scan pre post k0 k1 threshold iterator hmono h0 h1 hlo hr hhi
  refine ⟨_, h.1, ?_, rfl, h.2⟩
  have hne : ((pre.length : ℤ) + 2 != -2) = true := by
    rw [bne_iff_ne]
    omega
  simp [Iterator.ne, TrackTriggeringJob.end_, ofEnd, hne]

/-- C11, at a concrete input: the sample track with the threshold 1/2, which its values
cross between the first and the second keyframe. -/
theorem single_rising_edge_witness :
    (([] : List Keyframe) ++ sampleKey0 :: sampleKey1 :: [sampleKey2]).Pairwise (fun a b => a.value ≤ b.value) ∧
      sampleKey0.value ≤ 1 / 2 ∧ 1 / 2 < sampleKey1.value ∧ 0 ≤ sampleKey0.ratio ∧
      sampleKey0.ratio < sampleKey1.ratio ∧ sampleKey1.ratio ≤ 1 ∧
      ∃ it : Iterator,
        ofJob (TrackTriggeringJob.rangeJob ⟨([] : List Keyframe) ++ sampleKey0 :: sampleKey1 :: [sampleKey2]⟩
          (1 / 2) 0 1 true) = some it ∧
        it.ne (TrackTriggeringJob.rangeJob ⟨([] : List Keyframe) ++ sampleKey0 :: sampleKey1 :: [sampleKey2]⟩
          (1 / 2) 0 1 true).end_ = true ∧
        it.edge_ =
          Edge.mk (sampleKey0.ratio +
            (1 / 2 - sampleKey0.value) / (sampleKey1.value - sampleKey0.value) *
              (sampleKey1.ratio - sampleKey0.ratio)) true ∧
        inc it = some (TrackTriggeringJob.rangeJob
          ⟨([] : List Keyframe) ++ sampleKey0 :: sampleKey1 :: [sampleKey2]⟩ (1 / 2) 0 1 true).end_ :=
  have hm : (([] : List Keyframe) ++ sampleKey0 :: sampleKey1 :: [sampleKey2]).Pairwise
      (fun a b => a.value ≤ b.value) := by
    simp [sampleKey0, sampleKey1, sampleKey2]
  have h0 : sampleKey0.value ≤ 1 / 2 := by norm_num [sampleKey0]
  have h1 : 1 / 2 < sampleKey1.value := by norm_num [sampleKey1]
  have hlo : 0 ≤ sampleKey0.ratio := by norm_num [sampleKey0]
  have hr : sampleKey0.ratio < sampleKey1.ratio := by norm_num [sampleKey0, sampleKey1]
  have hhi : sampleKey1.ratio ≤ 1 := by norm_num [sampleKey1]
  ⟨hm, h0, h1, hlo, hr, hhi,
    single_rising_edge [] [sampleKey2] sampleKey0 sampleKey1 (1 / 2) true hm h0 h1 hlo hr hhi⟩

end Iterator

/-- A crossing lies between the ratios of its two keyframes, so it is not negative when
they are not. -/
theorem crossing_nonneg (threshold : ℚ) (a b : Keyframe) (c : ℚ × Bool)
    (h : crossing threshold a b = some c) (ha : 0 ≤ a.ratio) (hb : 0 ≤ b.ratio) :
    0 ≤ c.1 := by
  unfold crossing at h
  simp only [] at h
  have key : ∀ alpha : ℚ, 0 ≤ alpha → alpha ≤ 1 →
      0 ≤ a.ratio + alpha * (b.ratio - a.ratio) := by
    intro alpha h0 h1
    have e : a.ratio + alpha * (b.ratio - a.ratio) = (1 - alpha) * a.ratio + alpha * b.ratio := by
      ring
    rw [e]
    exact add_nonneg (mul_nonneg (by linarith) ha) (mul_nonneg h0 hb)
  split_ifs at h with h1 h2
  · have hd : 0 < b.value - a.value := by linarith [h1.1, h1.2]
    have hc := Option.some.inj h
    rw [← hc]
    apply key
    · exact div_nonneg (by linarith [h1.1]) (le_of_lt hd)
    · rw [div_le_one hd]
      linarith [h1.2]
  · have hd : b.value - a.value < 0 := by linarith [h2.1, h2.2]
    have hc := Option.some.inj h
    rw [← hc]
    apply key
    · exact div_nonneg_of_nonpos (by linarith [h2.1]) (le_of_lt hd)
    · rw [div_le_one_of_neg hd]
      linarith [h2.2]

/-- The crossings of a lap carry ascending keyframe indices inside the track, and ratios
that are not negative when no keyframe ratio is. -/
theorem lapCrossings_bounds (threshold : ℚ) :
    ∀ (l : List Keyframe) (i : ℤ), (∀ k ∈ l, 0 ≤ k.ratio) →
      (∀ c ∈ lapCrossings threshold i l, i < c.1 ∧ c.1 < i + (l.length : ℤ) ∧ 0 ≤ c.2.1) ∧
        (lapCrossings threshold i l).Pairwise (fun x y => x.1 < y.1) := by
  intro l
  induction l with
  | nil =>
    intro i _
    rw [lapCrossings_nil]
    exact ⟨fun c hc => absurd hc (List.not_mem_nil c), List.Pairwise.nil⟩
  | cons a l ih =>
    intro i h
    cases l with
    | nil =>
      rw [lapCrossings_single]
      exact ⟨fun c hc => absurd hc (List.not_mem_nil c), List.Pairwise.nil⟩
    | cons b rest =>
      have hih := ih (i + 1) (fun k hk => h k (List.mem_cons_of_mem a hk))
      have hlen : ((a :: b :: rest).length : ℤ) = ((b :: rest).length : ℤ) + 1 := by
        simp only [List.length_cons, Nat.cast_add, Nat.cast_one]
      have htail : ∀ c ∈ lapCrossings threshold (i + 1) (b :: rest),
          i < c.1 ∧ c.1 < i + ((a :: b :: rest).length : ℤ) ∧ 0 ≤ c.2.1 := by
        intro c hc
        have := hih.1 c hc
        rw [hlen]
        exact ⟨by omega, by omega, this.2.2⟩
      rw [lapCrossings_cons_cons]
      cases hcr : crossing threshold a b with
      | none => exact ⟨htail, hih.2⟩
      | some c0 =>
        simp only []
        constructor
        · intro c hc
          rcases List.mem_cons.mp hc with hc | hc
          · rw [hc, hlen]
            refine ⟨by simp, ?_, ?_⟩
            · simp only [List.length_cons, Nat.cast_add, Nat.cast_one]
              omega
            · exact crossing_nonneg threshold a b c0 hcr (h a (List.mem_cons_self a _))
                (h b (List.mem_cons_of_mem a (List.mem_cons_self b _)))
          · exact htail c hc
        · refine List.pairwise_cons.mpr ⟨?_, hih.2⟩
          intro c hc
          have := (hih.1 c hc).1
          exact this

namespace Iterator

/-- What the forward scan returns: `end()` when no crossing of the laps it visits is in
range, and otherwise the first crossing in range, in lap order and then keyframe order. -/
theorem scanForward_spec (job : TrackTriggeringJob) (cs : List (ℤ × ℚ × Bool))
    (hs : cs.Pairwise (fun x y => x.1 < y.1)) (hidx : ∀ c ∈ cs, 0 ≤ c.1) :
    ∀ (n : ℕ) (outer : ℚ) (inner : ℤ),
      (scanForward job cs n outer inner = job.end_ ∧
          ∀ j : ℕ, j < n → ∀ c ∈ cs, (j = 0 → inner ≤ c.1) →
            ¬ InRange job.from_ job.to_ (outer + j) c) ∨
        ∃ (j : ℕ) (c : ℤ × ℚ × Bool), j < n ∧ c ∈ cs ∧ (j = 0 → inner ≤ c.1) ∧
          InRange job.from_ job.to_ (outer + j) c ∧
          scanForward job cs n outer inner =
            Iterator.mk (some job) (outer + j) (c.1 + 1) (Edge.mk (c.2.1 + (outer + j)) c.2.2) ∧
          (∀ j1 : ℕ, j1 < j → ∀ c1 ∈ cs, (j1 = 0 → inner ≤ c1.1) →
            ¬ InRange job.from_ job.to_ (outer + j1) c1) ∧
          (∀ c1 ∈ cs, (j = 0 → inner ≤ c1.1) → c1.1 < c.1 →
            ¬ InRange job.from_ job.to_ (outer + j) c1) := by
  intro n
  induction n with
  | zero =>
    intro outer inner
    exact Or.inl ⟨rfl, fun j hj => absurd hj (Nat.not_lt_zero j)⟩
  | succ n ih =>
    intro outer inner
    unfold scanForward
    cases hf : cs.find? (fun c => decide (inner ≤ c.1) && decide (job.from_ ≤ c.2.1 + outer)
        && decide (c.2.1 + outer < job.to_)) with
    | none =>
      simp only []
      have hnone : ∀ c ∈ cs, inner ≤ c.1 → ¬ InRange job.from_ job.to_ (outer + (0 : ℕ)) c := by
        intro c hc hi hr
        have := List.find?_eq_none.mp hf c hc
        simp only [Bool.and_eq_true, decide_eq_true_eq, not_and] at this
        unfold InRange at hr
        simp only [Nat.cast_zero, add_zero] at hr
        exact this ⟨hi, hr.1⟩ hr.2
      have hcast : ∀ j : ℕ, outer + 1 + (j : ℚ) = outer + ((j + 1 : ℕ) : ℚ) := by
        intro j
        push_cast
        ring
      rcases ih (outer + 1) 0 with ⟨he, hno⟩ | ⟨j, c, hj, hc, _, hr, he, hmin, hlap⟩
      · refine Or.inl ⟨he, ?_⟩
        intro j hj c hc hi
        cases j with
        | zero => exact hnone c hc (hi rfl)
        | succ j =>
          rw [← hcast]
          exact hno j (by omega) c hc (fun _ => hidx c hc)
      · refine Or.inr ⟨j + 1, c, by omega, hc, fun h => absurd h (Nat.succ_ne_zero j), ?_, ?_, ?_, ?_⟩
        · rw [← hcast]; exact hr
        · rw [← hcast]; exact he
        · intro j1 hj1 c1 hc1 hi1
          cases j1 with
          | zero => exact hnone c1 hc1 (hi1 rfl)
          | succ j1 =>
            rw [← hcast]
            exact hmin j1 (by omega) c1 hc1 (fun _ => hidx c1 hc1)
        · intro c1 hc1 _ hlt
          rw [← hcast]
          exact hlap c1 hc1 (fun _ => hidx c1 hc1) hlt
    | some c =>
      simp only []
      have hsome := List.find?_eq_some.mp hf
      have hp := hsome.1
      simp only [Bool.and_eq_true, decide_eq_true_eq] at hp
      obtain ⟨as, bs, hcs, has⟩ := hsome.2
      have hc : c ∈ cs := by
        rw [hcs]
        exact List.mem_append_right as (List.mem_cons_self c bs)
      refine Or.inr ⟨0, c, Nat.succ_pos n, hc, fun _ => hp.1.1, ?_, ?_, ?_, ?_⟩
      · unfold InRange
        simp only [Nat.cast_zero, add_zero]
        exact ⟨hp.1.2, hp.2⟩
      · simp only [Nat.cast_zero, add_zero]
      · intro j1 hj1
        exact absurd hj1 (Nat.not_lt_zero j1)
      · intro c1 hc1 hi1 hlt hr
        rw [hcs] at hc1 hs
        have hpw := List.pairwise_append.mp hs
        rcases List.mem_append.mp hc1 with h1 | h1
        · have := has c1 h1
          simp only [Bool.not_eq_true', Bool.and_eq_false_iff, decide_eq_false_iff_not] at this
          unfold InRange at hr
          simp only [Nat.cast_zero, add_zero] at hr
          rcases this with (h2 | h2) | h2
          · exact h2 (hi1 rfl)
          · exact h2 hr.1
          · exact h2 hr.2
        · rcases List.mem_cons.mp h1 with h2 | h2
          · rw [h2] at hlt
            exact lt_irrefl _ hlt
          · have := (List.pairwise_cons.mp hpw.2.1).1 c1 h2
            omega

/-- What the backward scan returns: `end()` when no crossing of the laps it visits is in
range, and otherwise a crossing in range of one of these laps, with the sense flipped. -/
theorem scanBackward_spec (job : TrackTriggeringJob) (ds : List (ℤ × ℚ × Bool)) (last : ℤ)
    (hlast : ∀ c ∈ ds, c.1 ≤ last) :
    ∀ (n : ℕ) (outer : ℚ) (inner : ℤ),
      (scanBackward job ds last n outer inner = job.end_ ∧
          ∀ j : ℕ, j < n → ∀ c ∈ ds, (j = 0 → c.1 ≤ inner) →
            ¬ InRange job.to_ job.from_ (outer - j) c) ∨
        ∃ (j : ℕ) (c : ℤ × ℚ × Bool), j < n ∧ c ∈ ds ∧ (j = 0 → c.1 ≤ inner) ∧
          InRange job.to_ job.from_ (outer - j) c ∧
          scanBackward job ds last n outer inner =
            Iterator.mk (some job) (outer - j) (c.1 - 1)
              (Edge.mk (c.2.1 + (outer - j)) (!c.2.2)) := by
  intro n
  induction n with
  | zero =>
    intro outer inner
    exact Or.inl ⟨rfl, fun j hj => absurd hj (Nat.not_lt_zero j)⟩
  | succ n ih =>
    intro outer inner
    unfold scanBackward
    cases hf : ds.find? (fun c => decide (c.1 ≤ inner) && decide (job.to_ ≤ c.2.1 + outer)
        && decide (c.2.1 + outer < job.from_)) with
    | none =>
      simp only []
      have hnone : ∀ c ∈ ds, c.1 ≤ inner → ¬ InRange job.to_ job.from_ (outer - (0 : ℕ)) c := by
        intro c hc hi hr
        have := List.find?_eq_none.mp hf c hc
        simp only [Bool.and_eq_true, decide_eq_true_eq, not_and] at this
        unfold InRange at hr
        simp only [Nat.cast_zero, sub_zero] at hr
        exact this ⟨hi, hr.1⟩ hr.2
      have hcast : ∀ j : ℕ, outer - 1 - (j : ℚ) = outer - ((j + 1 : ℕ) : ℚ) := by
        intro j
        push_cast
        ring
      rcases ih (outer - 1) last with ⟨he, hno⟩ | ⟨j, c, hj, hc, _, hr, he⟩
      · refine Or.inl ⟨he, ?_⟩
        intro j hj c hc hi
        cases j with
        | zero => exact hnone c hc (hi rfl)
        | succ j =>
          rw [← hcast]
          exact hno j (by omega) c hc (fun _ => hlast c hc)
      · refine Or.inr ⟨j + 1, c, by omega, hc, fun h => absurd h (Nat.succ_ne_zero j), ?_, ?_⟩
        · rw [← hcast]; exact hr
        · rw [← hcast]; exact he
    | some c =>
      simp only []
      have hsome := List.find?_eq_some.mp hf
      have hp := hsome.1
      simp only [Bool.and_eq_true, decide_eq_true_eq] at hp
      obtain ⟨as, bs, hcs, _⟩ := hsome.2
      have hc : c ∈ ds := by
        rw [hcs]
        exact List.mem_append_right as (List.mem_cons_self c bs)
      refine Or.inr ⟨0, c, Nat.succ_pos n, hc, fun _ => hp.1.1, ?_, ?_⟩
      · unfold InRange
        simp only [Nat.cast_zero, sub_zero]
        exact ⟨hp.1.2, hp.2⟩
      · simp only [Nat.cast_zero, sub_zero]

theorem ofJob_forward (track : FloatTrack) (threshold a b : ℚ) (iterator : Bool)
    (hab : a < b) :
    ofJob (TrackTriggeringJob.rangeJob track threshold a b iterator) =
      some (scanForward (TrackTriggeringJob.rangeJob track threshold a b iterator)
        (lapCrossings threshold 0 track.keys) (⌈b - floorf a⌉).toNat (floorf a) 0) := by
  have hne : ((0 : ℤ) == -2) = false := by decide
  simp only [ofJob, inc, TrackTriggeringJob.rangeJob, Iterator.eq, TrackTriggeringJob.end_,
    ofEnd, hab, if_true, hne, Bool.and_false]
  simp

theorem ofJob_backward (track : FloatTrack) (threshold a b : ℚ) (iterator : Bool)
    (hab : a < b) :
    ofJob (TrackTriggeringJob.rangeJob track threshold b a iterator) =
      some (scanBackward (TrackTriggeringJob.rangeJob track threshold b a iterator)
        (lapCrossings threshold 0 track.keys).reverse ((track.keys.length : ℤ) - 1)
        (⌈floorf b + 1 - a⌉).toNat (floorf b) ((track.keys.length : ℤ) - 1)) := by
  have hba : ¬ b < a := not_lt.mpr (le_of_lt hab)
  have hne : ((track.keys.length : ℤ) - 1 == -2) = false := by
    rw [beq_eq_false_iff_ne]
    omega
  simp only [ofJob, inc, TrackTriggeringJob.rangeJob, Iterator.eq, TrackTriggeringJob.end_,
    ofEnd, hba, if_false, hne, Bool.and_false]
  simp

theorem inc_forward (track : FloatTrack) (threshold a b : ℚ) (iterator : Bool) (hab : a < b)
    (outer : ℚ) (inner : ℤ) (edge : Edge) (hi : inner ≠ -2) :
    inc (Iterator.mk (some (TrackTriggeringJob.rangeJob track threshold a b iterator)) outer
        inner edge) =
      some (scanForward (TrackTriggeringJob.rangeJob track threshold a b iterator)
        (lapCrossings threshold 0 track.keys) (⌈b - outer⌉).toNat outer inner) := by
  have hne : (inner == -2) = false := by
    rw [beq_eq_false_iff_ne]
    exact hi
  simp only [inc, TrackTriggeringJob.rangeJob, Iterator.eq, TrackTriggeringJob.end_,
    ofEnd, hab, if_true, hne, Bool.and_false]
  simp

theorem inc_backward (track : FloatTrack) (threshold a b : ℚ) (iterator : Bool) (hab : a < b)
    (outer : ℚ) (inner : ℤ) (edge : Edge) (hi : inner ≠ -2) :
    inc (Iterator.mk (some (TrackTriggeringJob.rangeJob track threshold b a iterator)) outer
        inner edge) =
      some (scanBackward (TrackTriggeringJob.rangeJob track threshold b a iterator)
        (lapCrossings threshold 0 track.keys).reverse ((track.keys.length : ℤ) - 1)
        (⌈outer + 1 - a⌉).toNat outer inner) := by
  have hba : ¬ b < a := not_lt.mpr (le_of_lt hab)
  have hne : (inner == -2) = false := by
    rw [beq_eq_false_iff_ne]
    exact hi
  simp only [inc, TrackTriggeringJob.rangeJob, Iterator.eq, TrackTriggeringJob.end_,
    ofEnd, hba, if_false, hne, Bool.and_false]
  simp

/-- Two crossings of a lap with the same keyframe index are the same crossing. -/
theorem eq_of_index_eq (cs : List (ℤ × ℚ × Bool)) (hs : cs.Pairwise (fun x y => x.1 < y.1)) :
    ∀ c ∈ cs, ∀ d ∈ cs, c.1 = d.1 → c = d := by
  induction cs with
  | nil => intro c hc; exact absurd hc (List.not_mem_nil c)
  | cons e cs ih =>
    have hp := List.pairwise_cons.mp hs
    intro c hc d hd h
    rcases List.mem_cons.mp hc with hc | hc
    · rcases List.mem_cons.mp hd with hd | hd
      · rw [hc, hd]
      · have := hp.1 d hd
        rw [hc] at h
        omega
    · rcases List.mem_cons.mp hd with hd | hd
      · have := hp.1 c hc
        rw [hd] at h
        omega
      · exact ih hp.2 c hc d hd h

theorem lt_ceil_toNat (x : ℚ) (j : ℕ) : j < (⌈x⌉).toNat ↔ (j : ℚ) < x := by
  constructor
  · intro h
    have h1 : (j : ℤ) < ⌈x⌉ := by omega
    have h2 := Int.lt_ceil.mp h1
    exact_mod_cast h2
  · intro h
    have h1 : (j : ℤ) < ⌈x⌉ := Int.lt_ceil.mpr (by exact_mod_cast h)
    omega

/-- When the forward range yields exactly one edge, one crossing of one lap is in range
and no other crossing of any lap from the lap of `from` on is. -/
theorem forward_single (track : FloatTrack) (threshold a b r : ℚ) (iterator : Bool)
    (hab : a < b) (hunit : ∀ k ∈ track.keys, 0 ≤ k.ratio) (it1 : Iterator)
    (hfirst : ofJob (TrackTriggeringJob.rangeJob track threshold a b iterator) = some it1)
    (hne : it1.ne (TrackTriggeringJob.rangeJob track threshold a b iterator).end_ = true)
    (hedge : it1.edge_ = Edge.mk r true)
    (hlast : inc it1 = some (TrackTriggeringJob.rangeJob track threshold a b iterator).end_) :
    ∃ (j0 : ℕ) (c0 : ℤ × ℚ × Bool), c0 ∈ lapCrossings threshold 0 track.keys ∧
      InRange a b (floorf a + j0) c0 ∧ c0.2.1 + (floorf a + j0) = r ∧ c0.2.2 = true ∧
      ∀ (m : ℕ), ∀ c ∈ lapCrossings threshold 0 track.keys,
        InRange a b (floorf a + m) c → m = j0 ∧ c = c0 := by
  have hb := lapCrossings_bounds threshold track.keys 0 hunit
  have hidx : ∀ c ∈ lapCrossings threshold 0 track.keys, 0 ≤ c.1 :=
    fun c hc => le_of_lt (hb.1 c hc).1
  rw [ofJob_forward track threshold a b iterator hab] at hfirst
  have h1 := Option.some.inj hfirst
  rcases scanForward_spec (TrackTriggeringJob.rangeJob track threshold a b iterator)
      (lapCrossings threshold 0 track.keys) hb.2 hidx (⌈b - floorf a⌉).toNat (floorf a) 0 with
    ⟨he, _⟩ | ⟨j0, c0, _, hc0, _, hr0, he, hmin, hlap⟩
  · exfalso
    rw [← h1, he] at hne
    simp [Iterator.ne] at hne
  · have hr0' : InRange a b (floorf a + j0) c0 := hr0
    have hit : it1 = Iterator.mk
        (some (TrackTriggeringJob.rangeJob track threshold a b iterator)) (floorf a + j0)
        (c0.1 + 1) (Edge.mk (c0.2.1 + (floorf a + j0)) c0.2.2) := h1.symm.trans he
    rw [hit] at hedge hlast
    have hratio : c0.2.1 + (floorf a + j0) = r := congrArg Edge.ratio hedge
    have hrise : c0.2.2 = true := congrArg Edge.rising hedge
    have hc0pos := (hb.1 c0 hc0)
    rw [inc_forward track threshold a b iterator hab _ _ _ (by omega)] at hlast
    have h2 := Option.some.inj hlast
    have hno : ∀ j : ℕ, j < (⌈b - (floorf a + j0)⌉).toNat →
        ∀ c ∈ lapCrossings threshold 0 track.keys, (j = 0 → c0.1 + 1 ≤ c.1) →
          ¬ InRange a b (floorf a + j0 + j) c := by
      rcases scanForward_spec (TrackTriggeringJob.rangeJob track threshold a b iterator)
          (lapCrossings threshold 0 track.keys) hb.2 hidx (⌈b - (floorf a + j0)⌉).toNat
          (floorf a + j0) (c0.1 + 1) with ⟨_, hno⟩ | ⟨j, c, _, hc, _, _, he2, _, _⟩
      · exact hno
      · exfalso
        rw [he2] at h2
        have h3 := congrArg Iterator.inner_ h2
        have := (hb.1 c hc).1
        simp only [TrackTriggeringJob.end_, ofEnd] at h3
        omega
    refine ⟨j0, c0, hc0, hr0', hratio, hrise, ?_⟩
    intro m c hc hr
    have hcb := hb.1 c hc
    have hr2 : c.2.1 + (floorf a + m) < b := hr.2
    have hr02 : c0.2.1 + (floorf a + j0) < b := hr0'.2
    rcases Nat.lt_trichotomy m j0 with hlt | heq | hgt
    · exact absurd hr (hmin m hlt c hc (fun _ => hidx c hc))
    · rw [heq] at hr
      rcases lt_trichotomy c.1 c0.1 with h3 | h3 | h3
      · exact absurd hr (hlap c hc (fun _ => hidx c hc) h3)
      · exact ⟨heq, eq_of_index_eq _ hb.2 c hc c0 hc0 h3⟩
      · have hpos : 0 < (⌈b - (floorf a + j0)⌉).toNat := by
          rw [lt_ceil_toNat]
          push_cast
          linarith [hc0pos.2.2]
        have := hno 0 hpos c hc (fun _ => by omega)
        simp only [Nat.cast_zero, add_zero] at this
        exact absurd hr this
    · have hlt : m - j0 < (⌈b - (floorf a + j0)⌉).toNat := by
        rw [lt_ceil_toNat, Nat.cast_sub (le_of_lt hgt)]
        linarith [hcb.2.2]
      have := hno (m - j0) hlt c hc (fun h => by omega)
      rw [Nat.cast_sub (le_of_lt hgt)] at this
      have e : floorf a + (j0 : ℚ) + ((m : ℚ) - (j0 : ℚ)) = floorf a + m := by ring
      rw [e] at this
      exact absurd hr this

/-- The backward scan that starts `n` laps above the lap of `to` visits at most `n` laps
below its first one. -/
theorem backward_laps_le (a : ℚ) (n j : ℕ) (hj : j < (⌈floorf a + n + 1 - a⌉).toNat) :
    j ≤ n := by
  rw [lt_ceil_toNat] at hj
  have h1 : floorf a ≤ a := Int.floor_le a
  have h2 : (j : ℚ) < (n : ℚ) + 1 := by linarith
  have h3 : j < n + 1 := by exact_mod_cast h2
  omega

/-- C12: on a track whose keyframe ratios lie in [0,1], if the range from `a` to `b`,
`a < b`, yields exactly one edge (the first iterator is not `end()`, the next one is) and
that edge is rising at the ratio `r`, then the reversed range from `b` to `a` yields
exactly one edge, and that edge is falling at the same ratio `r`. -/
theorem reversed_range_single_falling_edge (track : FloatTrack) (threshold a b r : ℚ)
    (iterator : Bool) (hab : a < b)
    (hunit : ∀ k ∈ track.keys, 0 ≤ k.ratio ∧ k.ratio ≤ 1) (it1 : Iterator)
    (hfirst : ofJob (TrackTriggeringJob.rangeJob track threshold a b iterator) = some it1)
    (hne : it1.ne (TrackTriggeringJob.rangeJob track threshold a b iterator).end_ = true)
    (hedge : it1.edge_ = Edge.mk r true)
    (hlast : inc it1 = some (TrackTriggeringJob.rangeJob track threshold a b iterator).end_) :
    ∃ it2 : Iterator,
      ofJob (TrackTriggeringJob.rangeJob track threshold b a iterator) = some it2 ∧
      it2.ne (TrackTriggeringJob.rangeJob track threshold b a iterator).end_ = true ∧
      it2.edge_ = Edge.mk r false ∧
      inc it2 = some (TrackTriggeringJob.rangeJob track threshold b a iterator).end_ := by
  have hnonneg : ∀ k ∈ track.keys, 0 ≤ k.ratio := fun k hk => (hunit k hk).1
  obtain ⟨j0, c0, hc0, hr0, hratio, hrise, hU⟩ :=
    forward_single track threshold a b r iterator hab hnonneg it1 hfirst hne hedge hlast
  have hb := lapCrossings_bounds threshold track.keys 0 hnonneg
  have hlastidx : ∀ c ∈ (lapCrossings threshold 0 track.keys).reverse,
      c.1 ≤ (track.keys.length : ℤ) - 1 := by
    intro c hc
    have := (hb.1 c (List.mem_reverse.mp hc)).2.1
    omega
  have hfa : floorf a ≤ a := Int.floor_le a
  have hfa1 : a < floorf a + 1 := Int.lt_floor_add_one a
  have hfloor : ⌊a⌋ ≤ ⌊b⌋ := Int.floor_mono (le_of_lt hab)
  have hnb : floorf b = floorf a + ((⌊b⌋ - ⌊a⌋).toNat : ℕ) := by
    have h1 : (((⌊b⌋ - ⌊a⌋).toNat : ℕ) : ℤ) = ⌊b⌋ - ⌊a⌋ := Int.toNat_of_nonneg (by omega)
    have h2 : ((((⌊b⌋ - ⌊a⌋).toNat : ℕ) : ℤ) : ℚ) = ((⌊b⌋ - ⌊a⌋ : ℤ) : ℚ) := by rw [h1]
    simp only [floorf]
    push_cast at h2
    linarith
  have hc0b := hb.1 c0 hc0
  have hr02 : c0.2.1 + (floorf a + j0) < b := hr0.2
  have hj0le : j0 ≤ (⌊b⌋ - ⌊a⌋).toNat := by
    have h1 : ((⌊a⌋ + (j0 : ℤ) : ℤ) : ℚ) ≤ b := by
      push_cast
      have : floorf a = ((⌊a⌋ : ℤ) : ℚ) := rfl
      linarith [hc0b.2.2]
    have h2 := Int.le_floor.mpr h1
    omega
  rw [ofJob_backward track threshold a b iterator hab]
  rcases scanBackward_spec (TrackTriggeringJob.rangeJob track threshold b a iterator)
      (lapCrossings threshold 0 track.keys).reverse ((track.keys.length : ℤ) - 1) hlastidx
      (⌈floorf b + 1 - a⌉).toNat (floorf b) ((track.keys.length : ℤ) - 1) with
    ⟨_, hno⟩ | ⟨j1, c1, hj1, hc1, _, hr1, he1⟩
  · exfalso
    have hjx : (⌊b⌋ - ⌊a⌋).toNat - j0 < (⌈floorf b + 1 - a⌉).toNat := by
      rw [lt_ceil_toNat, Nat.cast_sub hj0le, hnb]
      linarith
    have := hno ((⌊b⌋ - ⌊a⌋).toNat - j0) hjx c0 (List.mem_reverse.mpr hc0)
      (fun _ => by omega)
    apply this
    rw [Nat.cast_sub hj0le, hnb]
    have e : floorf a + (((⌊b⌋ - ⌊a⌋).toNat : ℕ) : ℚ) -
        ((((⌊b⌋ - ⌊a⌋).toNat : ℕ) : ℚ) - (j0 : ℚ)) = floorf a + j0 := by ring
    rw [e]
    exact hr0
  · have hc1' := List.mem_reverse.mp hc1
    have hc1b := hb.1 c1 hc1'
    have hj1le : j1 ≤ (⌊b⌋ - ⌊a⌋).toNat := by
      apply backward_laps_le a
      rw [← hnb]
      exact hj1
    have hlap : floorf b - (j1 : ℚ) = floorf a + (((⌊b⌋ - ⌊a⌋).toNat - j1 : ℕ) : ℚ) := by
      rw [Nat.cast_sub hj1le, hnb]
      ring
    have hr1' : InRange a b (floorf a + (((⌊b⌋ - ⌊a⌋).toNat - j1 : ℕ) : ℚ)) c1 := by
      rw [← hlap]
      exact hr1
    have hu := hU _ c1 hc1' hr1'
    have hlap0 : floorf b - (j1 : ℚ) = floorf a + (j0 : ℚ) := by
      rw [hlap, hu.1]
    have hcc : c1 = c0 := hu.2
    rw [hlap0, hcc] at he1
    refine ⟨_, congrArg some he1, ?_, ?_, ?_⟩
    · simp only [Iterator.ne, TrackTriggeringJob.end_, ofEnd]
      have : (c0.1 - 1 != -2) = true := by
        rw [bne_iff_ne]
        omega
      simp [this]
    · show Edge.mk (c0.2.1 + (floorf a + j0)) (!c0.2.2) = Edge.mk r false
      rw [hratio, hrise]
      rfl
    · rw [inc_backward track threshold a b iterator hab _ _ _ (by omega)]
      congr 1
      rcases scanBackward_spec (TrackTriggeringJob.rangeJob track threshold b a iterator)
          (lapCrossings threshold 0 track.keys).reverse ((track.keys.length : ℤ) - 1)
          hlastidx (⌈floorf a + j0 + 1 - a⌉).toNat (floorf a + j0) (c0.1 - 1) with
        ⟨he3, _⟩ | ⟨j2, c2, hj2, hc2, hi2, hr2, _⟩
      · exact he3
      · exfalso
        have hc2' := List.mem_reverse.mp hc2
        have hj2le : j2 ≤ j0 := backward_laps_le a j0 j2 hj2
        have hr2' : InRange a b (floorf a + ((j0 - j2 : ℕ) : ℚ)) c2 := by
          rw [Nat.cast_sub hj2le]
          have e : floorf a + ((j0 : ℚ) - (j2 : ℚ)) = floorf a + j0 - j2 := by ring
          rw [e]
          exact hr2
        have hu2 := hU _ c2 hc2' hr2'
        have hz : j2 = 0 := by omega
        have := hi2 hz
        rw [hu2.2] at this
        omega

theorem sample_scan :
    ofJob (TrackTriggeringJob.rangeJob sampleTrack (1 / 2) 0 1 true) = some sampleFirst ∧
      inc sampleFirst = some (TrackTriggeringJob.rangeJob sampleTrack (1 / 2) 0 1 true).end_ := by
  have h := rising_scan [] [sampleKey2] sampleKey0 sampleKey1 (1 / 2) true
    (by simp [sampleKey0, sampleKey1, sampleKey2]) (by norm_num [sampleKey0])
    (by norm_num [sampleKey1]) (by norm_num [sampleKey0])
    (by norm_num [sampleKey0, sampleKey1]) (by norm_num [sampleKey1])
  have hc : crossingRatio (1 / 2) sampleKey0 sampleKey1 = 1 / 4 := by
    norm_num [crossingRatio, sampleKey0, sampleKey1]
  rw [hc] at h
  exact h

/-- C12, at a concrete input: the sample track with the threshold 1/2, forward over the
range from 0 to 1 and backward over the range from 1 to 0. -/
theorem reversed_range_single_falling_edge_witness :
    (0 : ℚ) < 1 ∧ (∀ k ∈ sampleTrack.keys, 0 ≤ k.ratio ∧ k.ratio ≤ 1) ∧
      ofJob (TrackTriggeringJob.rangeJob sampleTrack (1 / 2) 0 1 true) = some sampleFirst ∧
      sampleFirst.ne (TrackTriggeringJob.rangeJob sampleTrack (1 / 2) 0 1 true).end_ = true ∧
      sampleFirst.edge_ = Edge.mk (1 / 4) true ∧
      inc sampleFirst =
        some (TrackTriggeringJob.rangeJob sampleTrack (1 / 2) 0 1 true).end_ ∧
      ∃ it2 : Iterator,
        ofJob (TrackTriggeringJob.rangeJob sampleTrack (1 / 2) 1 0 true) = some it2 ∧
        it2.ne (TrackTriggeringJob.rangeJob sampleTrack (1 / 2) 1 0 true).end_ = true ∧
        it2.edge_ = Edge.mk (1 / 4) false ∧
        inc it2 = some (TrackTriggeringJob.rangeJob sampleTrack (1 / 2) 1 0 true).end_ :=
  have hunit : ∀ k ∈ sampleTrack.keys, 0 ≤ k.ratio ∧ k.ratio ≤ 1 := by
    intro k hk
    simp only [sampleTrack, List.mem_cons, List.mem_singleton, List.not_mem_nil, or_false] at hk
    rcases hk with hk | hk | hk <;> rw [hk] <;>
      norm_num [sampleKey0, sampleKey1, sampleKey2]
  have hne : sampleFirst.ne
      (TrackTriggeringJob.rangeJob sampleTrack (1 / 2) 0 1 true).end_ = true := by
    simp [sampleFirst, Iterator.ne, TrackTriggeringJob.end_, ofEnd]
  ⟨zero_lt_one, hunit, sample_scan.1, hne, rfl, sample_scan.2,
    reversed_range_single_falling_edge sampleTrack (1 / 2) 0 1 (1 / 4) true zero_lt_one hunit
      sampleFirst sample_scan.1 hne rfl sample_scan.2⟩

end Iterator

end animation

end vox

namespace vox

namespace AnimatorState

variable {T : Type}

/-- C21, as stated, fails: the clip `samplePausedAtEnd` is paused at the time ratio 1 with
`loop` set, and `update` moves its time ratio to 0. -/
theorem paused_update_moves_ratio_at_one :
    samplePausedAtEnd.play = false ∧ samplePausedAtEnd.loop = true ∧
      samplePausedAtEnd.timeRatio = 1 ∧
      (samplePausedAtEnd._update sampleRun 1).timeRatio = 0 ∧
      (samplePausedAtEnd._update sampleRun 1).timeRatio ≠ samplePausedAtEnd.timeRatio := by
  have ht : samplePausedAtEnd.timeRatio = 1 := by
    simp [samplePausedAtEnd, run, step, setTimeRatio, timeRatio, sampleClip, ctor,
      loadAnimation, clamp]
    norm_num
  have hl : samplePausedAtEnd.loop = true := by
    simp [samplePausedAtEnd, run, step, setTimeRatio]
  have hp : samplePausedAtEnd.play = false := by
    simp [samplePausedAtEnd, run, step, setTimeRatio]
  have hu : (samplePausedAtEnd._update sampleRun 1).timeRatio = 0 := by
    show (samplePausedAtEnd._update sampleRun 1)._time_ratio = 0
    rw [update_time, setTimeRatio_time, hl]
    have hn : newTime samplePausedAtEnd 1 = 1 := by
      unfold newTime
      rw [hp]
      exact ht
    simp [hn, floorf]
  refine ⟨hp, hl, ht, hu, ?_⟩
  rw [hu, ht]
  norm_num

/-- C21, amended: when `play` is false and the time ratio `t` lies in [0,1), or is 1 with
`loop` false, `update dt` leaves the time ratio at `t`, for every `dt` and playback speed,
and sets the previous time ratio to `t`. -/
theorem paused_update_keeps_ratio (Run : AnimatorState T → List T) (s : AnimatorState T)
    (dt : ℚ) (hp : s.play = false) (h0 : 0 ≤ s.timeRatio)
    (h1 : s.timeRatio < 1 ∨ (s.loop = false ∧ s.timeRatio ≤ 1)) :
    (s._update Run dt).timeRatio = s.timeRatio ∧
      (s._update Run dt).previousTimeRatio = s.timeRatio := by
  refine ⟨?_, update_previous Run s dt⟩
  show (s._update Run dt)._time_ratio = s._time_ratio
  have h0' : 0 ≤ s._time_ratio := h0
  have hn : newTime s dt = s._time_ratio := by
    unfold newTime
    rw [hp]
    rfl
  rw [update_time, setTimeRatio_time, hn]
  cases hl : s.loop
  · have hle : s._time_ratio ≤ 1 := by
      rcases h1 with h | h
      · exact le_of_lt h
      · exact h.2
    simp only [Bool.false_eq_true, if_false]
    unfold clamp
    rw [if_neg (not_lt.mpr h0'), if_neg (not_lt.mpr hle)]
  · have hlt : s._time_ratio < 1 := by
      rcases h1 with h | h
      · exact h
      · rw [hl] at h
        exact absurd h.1 (by decide)
    simp only [if_true]
    have hf : ⌊s._time_ratio⌋ = 0 := by
      rw [Int.floor_eq_iff]
      constructor
      · simpa using h0'
      · simpa using hlt
    simp [floorf, hf]

/-- C21, amended, at a concrete input: the sample clip paused at 1/2. -/
theorem paused_update_keeps_ratio_witness :
    samplePausedMid.play = false ∧ 0 ≤ samplePausedMid.timeRatio ∧
      (samplePausedMid.timeRatio < 1 ∨
        (samplePausedMid.loop = false ∧ samplePausedMid.timeRatio ≤ 1)) ∧
      (samplePausedMid._update sampleRun 3).timeRatio = samplePausedMid.timeRatio ∧
      (samplePausedMid._update sampleRun 3).previousTimeRatio = samplePausedMid.timeRatio :=
  have h0 : 0 ≤ samplePausedMid.timeRatio := by
    norm_num [samplePausedMid, timeRatio]
  have h1 : samplePausedMid.timeRatio < 1 ∨
      (samplePausedMid.loop = false ∧ samplePausedMid.timeRatio ≤ 1) :=
    Or.inl (by norm_num [samplePausedMid, timeRatio])
  ⟨rfl, h0, h1, paused_update_keeps_ratio sampleRun samplePausedMid 3 rfl h0 h1⟩

end AnimatorState

end vox

namespace vox

namespace geo

namespace Region

/-- The corners after `shift`. -/
theorem shift_corners (r : Region) (dx dy dz : ssize_t) :
    (shift r dx dy dz)._mins = ⟨r._mins.x + dx, r._mins.y + dy, r._mins.z + dz⟩ ∧
      (shift r dx dy dz)._maxs = ⟨r._maxs.x + dx, r._maxs.y + dy, r._maxs.z + dz⟩ :=
  ⟨rfl, rfl⟩

/-- C22, as stated, fails: the valid region from `(0, 0, 0)` to `(SSIZE_MAX - 1, 0, 0)`
is shifted by `(2, 0, 0)`. The sum for the upper `x` corner leaves the range of `ssize_t`,
the stored corner is the least `ssize_t`, the difference `upper - lower` has changed and
the region is no longer valid. -/
theorem shift_past_ssize_max_flips_isValid :
    sampleRegionWide.isValid = true ∧
      (sampleRegionWide.shift 2 0 0).isValid = false ∧
      (sampleRegionWide.shift 2 0 0).getLowerX.val = sampleRegionWide.getLowerX.val + 2 ∧
      (sampleRegionWide.shift 2 0 0).getUpperX.val = -9223372036854775808 ∧
      (sampleRegionWide.shift 2 0 0).getUpperX.val ≠ sampleRegionWide.getUpperX.val + 2 ∧
      (sampleRegionWide.shift 2 0 0).getUpperX.val - (sampleRegionWide.shift 2 0 0).getLowerX.val
        ≠ sampleRegionWide.getUpperX.val - sampleRegionWide.getLowerX.val := by
  decide

/-- C22, amended: on each axis the sums `lower + d` and `upper + d` are in the range of
`ssize_t`. Then `shift(dx, dy, dz)` adds `(dx, dy, dz)` to the lower and to the upper
corner, the differences `upper - lower` and the value of `isValid()` stay the same, and a
following shift by `(-dx, -dy, -dz)` gives back both corners. -/
theorem shift_moves_both_corners (r : Region) (dx dy dz ex ey ez : ssize_t)
    (hx : (-9223372036854775808 ≤ r.getLowerX.val + dx.val ∧
        r.getLowerX.val + dx.val ≤ 9223372036854775807) ∧
      (-9223372036854775808 ≤ r.getUpperX.val + dx.val ∧
        r.getUpperX.val + dx.val ≤ 9223372036854775807))
    (hy : (-9223372036854775808 ≤ r.getLowerY.val + dy.val ∧
        r.getLowerY.val + dy.val ≤ 9223372036854775807) ∧
      (-9223372036854775808 ≤ r.getUpperY.val + dy.val ∧
        r.getUpperY.val + dy.val ≤ 9223372036854775807))
    (hz : (-9223372036854775808 ≤ r.getLowerZ.val + dz.val ∧
        r.getLowerZ.val + dz.val ≤ 9223372036854775807) ∧
      (-9223372036854775808 ≤ r.getUpperZ.val + dz.val ∧
        r.getUpperZ.val + dz.val ≤ 9223372036854775807))
    (he : ex.val = -dx.val ∧ ey.val = -dy.val ∧ ez.val = -dz.val) :
    ((shift r dx dy dz).getLowerX.val = r.getLowerX.val + dx.val ∧
        (shift r dx dy dz).getLowerY.val = r.getLowerY.val + dy.val ∧
        (shift r dx dy dz).getLowerZ.val = r.getLowerZ.val + dz.val) ∧
      ((shift r dx dy dz).getUpperX.val = r.getUpperX.val + dx.val ∧
        (shift r dx dy dz).getUpperY.val = r.getUpperY.val + dy.val ∧
        (shift r dx dy dz).getUpperZ.val = r.getUpperZ.val + dz.val) ∧
      ((shift r dx dy dz).getUpperX.val - (shift r dx dy dz).getLowerX.val =
          r.getUpperX.val - r.getLowerX.val ∧
        (shift r dx dy dz).getUpperY.val - (shift r dx dy dz).getLowerY.val =
          r.getUpperY.val - r.getLowerY.val ∧
        (shift r dx dy dz).getUpperZ.val - (shift r dx dy dz).getLowerZ.val =
          r.getUpperZ.val - r.getLowerZ.val) ∧
      (shift r dx dy dz).isValid = r.isValid ∧
      ((shift (shift r dx dy dz) ex ey ez)._mins = r._mins ∧
        (shift (shift r dx dy dz) ex ey ez)._maxs = r._maxs) := by
  simp only [getLowerX, getLowerY, getLowerZ, getUpperX, getUpperY, getUpperZ] at hx hy hz ⊢
  have h := shift_corners r dx dy dz
  have h2 := shift_corners (shift r dx dy dz) ex ey ez
  have e1 : (r._mins.x + dx).val = r._mins.x.val + dx.val :=
    ssize_t.wrap64_fits _ hx.1.1 hx.1.2
  have e2 : (r._mins.y + dy).val = r._mins.y.val + dy.val :=
    ssize_t.wrap64_fits _ hy.1.1 hy.1.2
  have e3 : (r._mins.z + dz).val = r._mins.z.val + dz.val :=
    ssize_t.wrap64_fits _ hz.1.1 hz.1.2
  have e4 : (r._maxs.x + dx).val = r._maxs.x.val + dx.val :=
    ssize_t.wrap64_fits _ hx.2.1 hx.2.2
  have e5 : (r._maxs.y + dy).val = r._maxs.y.val + dy.val :=
    ssize_t.wrap64_fits _ hy.2.1 hy.2.2
  have e6 : (r._maxs.z + dz).val = r._maxs.z.val + dz.val :=
    ssize_t.wrap64_fits _ hz.2.1 hz.2.2
  have back : ∀ (u d e : ssize_t), (u + d).val = u.val + d.val → e.val = -d.val →
      u + d + e = u := by
    intro u d e hud hed
    apply ssize_t.ext_val
    rw [ssize_t.add_val, hud, hed]
    have := u.lo
    have := u.hi
    unfold wrap64
    omega
  refine ⟨?_, ?_, ?_, ?_, ?_, ?_⟩
  · rw [h.1]
    exact ⟨e1, e2, e3⟩
  · rw [h.2]
    exact ⟨e4, e5, e6⟩
  · rw [h.1, h.2]
    simp only [e1, e2, e3, e4, e5, e6]
    omega
  · rw [Bool.eq_iff_iff]
    simp only [isValid, h.1, h.2, Bool.and_eq_true, decide_eq_true_eq, ge_iff_le,
      ssize_t.le_def, e1, e2, e3, e4, e5, e6]
    omega
  · rw [h2.1, h.1]
    simp only [back _ _ _ e1 he.1, back _ _ _ e2 he.2.1, back _ _ _ e3 he.2.2]
  · rw [h2.2, h.2]
    simp only [back _ _ _ e4 he.1, back _ _ _ e5 he.2.1, back _ _ _ e6 he.2.2]

/-- C22, amended, at a concrete input: the sample region shifted by (4, -2, 0) and then by
(-4, 2, 0). -/
theorem shift_moves_both_corners_witness :
    ((-9223372036854775808 ≤ sampleRegion.getLowerX.val + (4 : ssize_t).val ∧
        sampleRegion.getLowerX.val + (4 : ssize_t).val ≤ 9223372036854775807) ∧
      (-9223372036854775808 ≤ sampleRegion.getUpperX.val + (4 : ssize_t).val ∧
        sampleRegion.getUpperX.val + (4 : ssize_t).val ≤ 9223372036854775807)) ∧
      (sampleRegion.shift 4 (-2) 0).getLowerX.val =
        sampleRegion.getLowerX.val + (4 : ssize_t).val ∧
      (sampleRegion.shift 4 (-2) 0).isValid = sampleRegion.isValid ∧
      ((sampleRegion.shift 4 (-2) 0).shift (-4) 2 0)._maxs = sampleRegion._maxs :=
  ⟨by decide,
    (shift_moves_both_corners sampleRegion 4 (-2) 0 (-4) 2 0 (by decide) (by decide)
      (by decide) (by decide)).1.1,
    (shift_moves_both_corners sampleRegion 4 (-2) 0 (-4) 2 0 (by decide) (by decide)
      (by decide) (by decide)).2.2.2.1,
    (shift_moves_both_corners sampleRegion 4 (-2) 0 (-4) 2 0 (by decide) (by decide)
      (by decide) (by decide)).2.2.2.2.2⟩

end Region

end geo

end vox

namespace vox

namespace Plane3

/-- What `closestIntersectionLocal` reports when it reports an intersection: the ray is
not parallel to the plane, the distance is not negative and the point is the point of the
ray at that distance. -/
theorem closestIntersectionLocal_sound (distance : ℚ) (point : Point3D) (normal : Vector3D)
    (p : Plane3) (ray : Ray3D)
    (h : (closestIntersectionLocal ⟨false, distance, point, normal⟩ p ray).isIntersecting =
      true) :
    p.intersectsLocal ray = true ∧
      0 ≤ (closestIntersectionLocal ⟨false, distance, point, normal⟩ p ray).distance ∧
      (closestIntersectionLocal ⟨false, distance, point, normal⟩ p ray).point =
        ray.pointAt (closestIntersectionLocal ⟨false, distance, point, normal⟩ p ray).distance := by
  unfold closestIntersectionLocal at h ⊢
  simp only [] at h ⊢
  by_cases h1 : fabs (ray.direction.dot p.normal) > 0
  · rw [if_pos h1] at h ⊢
    by_cases h2 : p.normal.dot (p.point.sub ray.origin) / ray.direction.dot p.normal ≥ 0
    · rw [if_pos h2]
      exact ⟨by simp [intersectsLocal, h1], h2, rfl⟩
    · rw [if_neg h2] at h
      exact absurd h Bool.false_ne_true
  · rw [if_neg h1] at h
    exact absurd h Bool.false_ne_true

/-- C24: for the plane `z = 0` and the ray from (0, 0, 1) in the direction (0, 0, 1), which
points away from the plane, `intersectsLocal` is true while `closestIntersectionLocal`
reports no intersection, whatever the other members of the default constructed result
are. -/
theorem intersectsLocal_true_for_ray_pointing_away (distance : ℚ) (point : Point3D)
    (normal : Vector3D) :
    samplePlane.intersectsLocal sampleRayAway = true ∧
      (closestIntersectionLocal ⟨false, distance, point, normal⟩ samplePlane
        sampleRayAway).isIntersecting = false := by
  constructor
  · simp [intersectsLocal, samplePlane, sampleRayAway, Vector3D.dot, fabs]
  · simp [closestIntersectionLocal, samplePlane, sampleRayAway, Vector3D.dot, Point3D.sub,
      fabs]
    norm_num

end Plane3

namespace SurfaceSet3

/-- C23: in the set that holds a sphere and the plane `z = 0`, for the query point (0, 0, 1),
which is one unit from the plane and eight from the sphere, `closestPointLocal` returns
the closest point of the plane, (0, 0, 0), and `closestNormalLocal` returns the normal of
the sphere, (0, 0, -1), not the normal (0, 0, 1) of the plane. -/
theorem closestNormalLocal_skips_nearer_unbounded :
    closestPointLocal sampleBounded sampleCalls (sampleNearest sampleMaxD) sampleDistanceTo
        sampleMaxD sampleSurfaceSet sampleQuery = ⟨0, 0, 0⟩ ∧
      sampleCalls.closestPoint SampleSurface.floor sampleQuery = ⟨0, 0, 0⟩ ∧
      closestNormalLocal sampleBounded sampleCalls (sampleNearest sampleMaxD) sampleDistanceTo
        sampleSurfaceSet sampleQuery = ⟨0, 0, -1⟩ ∧
      sampleCalls.closestNormal SampleSurface.ball sampleQuery = ⟨0, 0, -1⟩ ∧
      sampleCalls.closestNormal SampleSurface.floor sampleQuery = ⟨0, 0, 1⟩ ∧
      closestNormalLocal sampleBounded sampleCalls (sampleNearest sampleMaxD) sampleDistanceTo
          sampleSurfaceSet sampleQuery ≠
        sampleCalls.closestNormal SampleSurface.floor sampleQuery := by
  have hset : sampleSurfaceSet.buildBvh sampleBounded =
      { _surfaces := [SampleSurface.ball, SampleSurface.floor]
        _unboundedSurfaces := [SampleSurface.floor]
        _bvhInvalidated := false
        _bvh := [SampleSurface.ball] } := by
    simp [sampleSurfaceSet, addSurface, invalidateBvh, buildBvh, sampleBounded,
      Plane3.isBounded]
  have hball : sampleCalls.closestDistance SampleSurface.ball sampleQuery = 8 := by
    simp [sampleCalls, sampleDistanceTo, sampleQuery]
    norm_num
  have hmax : (8 : ℚ) ≤ sampleMaxD := by
    unfold sampleMaxD
    norm_num
  have hq : sampleNearest sampleMaxD [SampleSurface.ball] sampleQuery
      (fun surface pt => sampleCalls.closestDistance surface pt) =
        { item := some SampleSurface.ball, distance := 8 } := by
    simp only [sampleNearest, hball]
    rw [if_pos hmax]
  have hfloor : sampleCalls.closestPoint SampleSurface.floor sampleQuery = ⟨0, 0, 0⟩ := by
    simp [sampleCalls, Plane3.closestPointLocal, samplePlane, sampleQuery, Point3D.sub,
      Point3D.add, Vector3D.sub, Vector3D.scale, Vector3D.dot]
  have hdist : sampleDistanceTo ⟨0, 0, 0⟩ sampleQuery = 1 := by
    simp [sampleDistanceTo, sampleQuery]
  have hn : closestNormalLocal sampleBounded sampleCalls (sampleNearest sampleMaxD)
      sampleDistanceTo sampleSurfaceSet sampleQuery = ⟨0, 0, -1⟩ := by
    simp only [closestNormalLocal, hset, hq]
    rfl
  have hnf : sampleCalls.closestNormal SampleSurface.floor sampleQuery = ⟨0, 0, 1⟩ := rfl
  refine ⟨?_, hfloor, hn, rfl, hnf, ?_⟩
  · simp only [closestPointLocal, hset, hq]
    rw [closestPointLoop]
    simp only [hfloor, hdist]
    rw [if_pos (by norm_num), closestPointLoop]
  · rw [hn, hnf]
    intro h
    have := congrArg Vector3D.z h
    norm_num at this

end SurfaceSet3

end vox

set_option maxRecDepth 100000

namespace vox

theorem ilog2Aux_eq_log : ∀ (fuel n : ℕ), n ≤ fuel → ilog2Aux fuel n = Nat.log 2 n := by
  intro fuel
  induction fuel with
  | zero =>
    intro n hn
    have : n = 0 := Nat.le_zero.mp hn
    subst this
    simp [ilog2Aux]
  | succ fuel ih =>
    intro n hn
    unfold ilog2Aux
    split_ifs with h
    · exact (Nat.log_of_lt h).symm
    · have h2 : 2 ≤ n := not_lt.mp h
      rw [ih (n / 2) (by omega)]
      exact (Nat.log_of_one_lt_of_le (by norm_num) h2).symm

theorem ilog2_eq_log (n : ℕ) : ilog2 n = Nat.log 2 n :=
  ilog2Aux_eq_log n n (le_refl n)

theorem roundMag_ge (n d : ℕ) :
    n / (d * 2 ^ (ilog2 (n / d) - 23)) * 2 ^ (ilog2 (n / d) - 23) ≤ roundMag n d := by
  unfold roundMag
  simp only []
  split_ifs
  · exact Nat.mul_le_mul_right _ (Nat.le_succ _)
  · exact le_refl _

theorem roundMag_le (n d : ℕ) :
    roundMag n d ≤ (n / (d * 2 ^ (ilog2 (n / d) - 23)) + 1) * 2 ^ (ilog2 (n / d) - 23) := by
  unfold roundMag
  simp only []
  split_ifs
  · exact le_refl _
  · exact Nat.mul_le_mul_right _ (Nat.le_succ _)

theorem roundMag_of_dvd (n d : ℕ) (hd : 0 < d)
    (h : n % (d * 2 ^ (ilog2 (n / d) - 23)) = 0) :
    roundMag n d = n / (d * 2 ^ (ilog2 (n / d) - 23)) * 2 ^ (ilog2 (n / d) - 23) := by
  unfold roundMag
  simp only []
  have hm : 0 < d * 2 ^ (ilog2 (n / d) - 23) := Nat.mul_pos hd (Nat.pow_pos (by norm_num))
  rw [h]
  rw [if_neg]
  rintro (h1 | ⟨h1, _⟩)
  · simp at h1
  · omega

/-- No binary32 magnitude lies strictly between the two multiples of the spacing that
enclose `n / d`. -/
theorem no_rep_between (n d f : ℕ) (hrep : Rep f)
    (h1 : n / (d * 2 ^ (ilog2 (n / d) - 23)) * 2 ^ (ilog2 (n / d) - 23) < f)
    (h2 : f < (n / (d * 2 ^ (ilog2 (n / d) - 23)) + 1) * 2 ^ (ilog2 (n / d) - 23)) :
    False := by
  have hdiv : 2 ^ (ilog2 (n / d) - 23) ∣ f := by
    by_cases hsh : ilog2 (n / d) - 23 = 0
    · rw [hsh]
      simp
    · have he : 23 < ilog2 (n / d) := by omega
      have hq0 : n / d ≠ 0 := by
        intro h0
        rw [h0] at he
        simp [ilog2, ilog2Aux] at he
      have hpow : 2 ^ ilog2 (n / d) ≤ n / d := by
        rw [ilog2_eq_log]
        exact Nat.pow_log_le_self 2 hq0
      have hq : 2 ^ 23 ≤ n / (d * 2 ^ (ilog2 (n / d) - 23)) := by
        rw [← Nat.div_div_eq_div_mul]
        rw [Nat.le_div_iff_mul_le (Nat.pow_pos (by norm_num))]
        calc 2 ^ 23 * 2 ^ (ilog2 (n / d) - 23) = 2 ^ (23 + (ilog2 (n / d) - 23)) := by
              rw [pow_add]
          _ = 2 ^ ilog2 (n / d) := by
              congr 1
              omega
          _ ≤ n / d := hpow
      have hf : 2 ^ ilog2 (n / d) < f := by
        calc 2 ^ ilog2 (n / d) = 2 ^ (23 + (ilog2 (n / d) - 23)) := by
              congr 1
              omega
          _ = 2 ^ 23 * 2 ^ (ilog2 (n / d) - 23) := by rw [pow_add]
          _ ≤ n / (d * 2 ^ (ilog2 (n / d) - 23)) * 2 ^ (ilog2 (n / d) - 23) :=
              Nat.mul_le_mul_right _ hq
          _ < f := h1
      have hlog : ilog2 (n / d) ≤ ilog2 f := by
        rw [ilog2_eq_log f]
        exact Nat.le_log_of_pow_le (by norm_num) (le_of_lt hf)
      exact dvd_trans (pow_dvd_pow 2 (by omega)) hrep
  obtain ⟨c, hc⟩ := hdiv
  rw [hc, mul_comm _ c] at h1 h2
  have hp : 0 < 2 ^ (ilog2 (n / d) - 23) := Nat.pow_pos (by norm_num)
  have h3 := Nat.lt_of_mul_lt_mul_right h1
  have h4 := Nat.lt_of_mul_lt_mul_right h2
  omega

/-- Rounding does not step over a binary32 number from below. -/
theorem roundMag_le_of_le_rep (n d f : ℕ) (hd : 0 < d) (hrep : Rep f) (h : n ≤ f * d) :
    roundMag n d ≤ f := by
  have hp : 0 < 2 ^ (ilog2 (n / d) - 23) := Nat.pow_pos (by norm_num)
  have hm : 0 < d * 2 ^ (ilog2 (n / d) - 23) := Nat.mul_pos hd hp
  by_cases hr : n % (d * 2 ^ (ilog2 (n / d) - 23)) = 0
  · rw [roundMag_of_dvd n d hd hr]
    have hn : d * 2 ^ (ilog2 (n / d) - 23) * (n / (d * 2 ^ (ilog2 (n / d) - 23))) = n := by
      have := Nat.div_add_mod n (d * 2 ^ (ilog2 (n / d) - 23))
      rw [hr] at this
      simpa using this
    have h5 : n / (d * 2 ^ (ilog2 (n / d) - 23)) * 2 ^ (ilog2 (n / d) - 23) * d ≤ f * d := by
      calc n / (d * 2 ^ (ilog2 (n / d) - 23)) * 2 ^ (ilog2 (n / d) - 23) * d
          = d * 2 ^ (ilog2 (n / d) - 23) * (n / (d * 2 ^ (ilog2 (n / d) - 23))) := by ring
        _ = n := hn
        _ ≤ f * d := h
    exact Nat.le_of_mul_le_mul_right h5 hd
  · by_contra hcon
    have hlt : f < roundMag n d := not_le.mp hcon
    have h2 : f < (n / (d * 2 ^ (ilog2 (n / d) - 23)) + 1) * 2 ^ (ilog2 (n / d) - 23) :=
      lt_of_lt_of_le hlt (roundMag_le n d)
    have h1 : n / (d * 2 ^ (ilog2 (n / d) - 23)) * 2 ^ (ilog2 (n / d) - 23) < f := by
      have hn := Nat.div_add_mod n (d * 2 ^ (ilog2 (n / d) - 23))
      have hpos : 0 < n % (d * 2 ^ (ilog2 (n / d) - 23)) := Nat.pos_of_ne_zero hr
      have h6 : n / (d * 2 ^ (ilog2 (n / d) - 23)) * 2 ^ (ilog2 (n / d) - 23) * d < f * d := by
        calc n / (d * 2 ^ (ilog2 (n / d) - 23)) * 2 ^ (ilog2 (n / d) - 23) * d
            = d * 2 ^ (ilog2 (n / d) - 23) * (n / (d * 2 ^ (ilog2 (n / d) - 23))) := by ring
          _ < n := by omega
          _ ≤ f * d := h
      exact Nat.lt_of_mul_lt_mul_right h6
    exact no_rep_between n d f hrep h1 h2

/-- Rounding does not step over a binary32 number from above. -/
theorem le_roundMag_of_rep_le (n d f : ℕ) (hd : 0 < d) (hrep : Rep f) (h : f * d ≤ n) :
    f ≤ roundMag n d := by
  have hp : 0 < 2 ^ (ilog2 (n / d) - 23) := Nat.pow_pos (by norm_num)
  have hm : 0 < d * 2 ^ (ilog2 (n / d) - 23) := Nat.mul_pos hd hp
  by_contra hcon
  have hlt : roundMag n d < f := not_le.mp hcon
  have h1 : n / (d * 2 ^ (ilog2 (n / d) - 23)) * 2 ^ (ilog2 (n / d) - 23) < f :=
    lt_of_le_of_lt (roundMag_ge n d) hlt
  have h2 : f < (n / (d * 2 ^ (ilog2 (n / d) - 23)) + 1) * 2 ^ (ilog2 (n / d) - 23) := by
    have hn : n < (n / (d * 2 ^ (ilog2 (n / d) - 23)) + 1) * (d * 2 ^ (ilog2 (n / d) - 23)) := by
      have := Nat.lt_div_mul_add hm (a := n)
      calc n < n / (d * 2 ^ (ilog2 (n / d) - 23)) * (d * 2 ^ (ilog2 (n / d) - 23)) +
              d * 2 ^ (ilog2 (n / d) - 23) := this
        _ = _ := by ring
    have h6 : f * d < (n / (d * 2 ^ (ilog2 (n / d) - 23)) + 1) * 2 ^ (ilog2 (n / d) - 23) * d := by
      calc f * d ≤ n := h
        _ < (n / (d * 2 ^ (ilog2 (n / d) - 23)) + 1) * (d * 2 ^ (ilog2 (n / d) - 23)) := hn
        _ = _ := by ring
    exact Nat.lt_of_mul_lt_mul_right h6
  exact no_rep_between n d f hrep h1 h2


theorem roundMag_of_rep (f : ℕ) (h : Rep f) : roundMag f 1 = f := by
  have hr : f % (1 * 2 ^ (ilog2 (f / 1) - 23)) = 0 := by
    rw [Nat.div_one, one_mul]
    exact Nat.mod_eq_zero_of_dvd h
  rw [roundMag_of_dvd f 1 (by norm_num) hr]
  rw [Nat.div_one, one_mul]
  exact Nat.div_mul_cancel h

theorem rep_of_roundMag_eq (f : ℕ) (h : roundMag f 1 = f) : Rep f := by
  unfold Rep
  have h1 : 2 ^ (ilog2 f - 23) ∣ roundMag f 1 := by
    unfold roundMag
    simp only [Nat.div_one, one_mul]
    split_ifs
    · exact Dvd.intro_left _ rfl
    · exact Dvd.intro_left _ rfl
  rw [h] at h1
  exact h1

theorem rep_two_pow_149 : Rep (2 ^ 149) := by
  have h : ilog2 (2 ^ 149) = 149 := by
    rw [ilog2_eq_log]
    exact Nat.log_pow (by norm_num) 149
  unfold Rep
  rw [h]
  exact pow_dvd_pow 2 (by norm_num)

theorem rep_mod_of_rep (a : ℕ) (h : Rep a) : Rep (a % 2 ^ 149) := by
  unfold Rep at h ⊢
  have hx : a % 2 ^ 149 < 2 ^ 149 := Nat.mod_lt _ (Nat.pow_pos (by norm_num))
  have hle : a % 2 ^ 149 ≤ a := Nat.mod_le _ _
  have hlog : ilog2 (a % 2 ^ 149) ≤ ilog2 a := by
    rw [ilog2_eq_log, ilog2_eq_log]
    exact Nat.log_mono_right hle
  have hlog2 : ilog2 (a % 2 ^ 149) < 149 := by
    rw [ilog2_eq_log]
    by_cases h0 : a % 2 ^ 149 = 0
    · rw [h0]
      simp
    · exact (Nat.lt_pow_iff_log_lt (by norm_num) h0).mp hx
  have h1 : 2 ^ (ilog2 (a % 2 ^ 149) - 23) ∣ a :=
    dvd_trans (pow_dvd_pow 2 (by omega)) h
  have h2 : 2 ^ (ilog2 (a % 2 ^ 149) - 23) ∣ 2 ^ 149 := pow_dvd_pow 2 (by omega)
  exact (Nat.dvd_mod_iff h2).mpr h1

namespace Float32

/-- A finite value is a binary32 number when rounding leaves it as it is. -/
theorem isBinary32_fin (t : ℤ) (h : isBinary32 (fin t) = true) :
    Rep t.natAbs ∧ roundMag t.natAbs 1 = t.natAbs ∧ t.natAbs < 2 ^ 128 * 2 ^ 149 := by
  simp only [isBinary32, decide_eq_true_eq] at h
  unfold round at h
  split_ifs at h with h1 h2
  · simp only [fin.injEq] at h
    have h3 : roundMag t.natAbs 1 = t.natAbs := by omega
    exact ⟨rep_of_roundMag_eq _ h3, h3, by omega⟩
  · simp only [fin.injEq] at h
    have h3 : roundMag t.natAbs 1 = t.natAbs := by omega
    exact ⟨rep_of_roundMag_eq _ h3, h3, by omega⟩

/-- Rounding a non-negative exact result that is at most the binary32 number `f` gives a
finite value between 0 and `f`. -/
theorem round_nonneg_le (n : ℤ) (d f : ℕ) (hd : 0 < d) (hn : 0 ≤ n) (hrep : Rep f)
    (hf : f < 2 ^ 128 * 2 ^ 149) (h : n.natAbs ≤ f * d) :
    round n d = fin (roundMag n.natAbs d : ℤ) ∧ roundMag n.natAbs d ≤ f := by
  have h2 := roundMag_le_of_le_rep n.natAbs d f hd hrep h
  refine ⟨?_, h2⟩
  unfold round
  rw [if_neg (by omega), if_neg (by omega)]

/-- The floor-wrap of a finite value is a finite value from 0 to 1. -/
theorem sub_floorf_mem_unit (k : ℤ) :
    ∃ j : ℤ, sub (fin k) (floorf (fin k)) = fin j ∧ 0 ≤ j ∧ j ≤ 2 ^ 149 := by
  have hx0 : 0 ≤ k % 2 ^ 149 := Int.emod_nonneg _ (by norm_num)
  have hx1 : k % 2 ^ 149 < 2 ^ 149 := Int.emod_lt_of_pos _ (by norm_num)
  have e : sub (fin k) (floorf (fin k)) = round (k % 2 ^ 149) 1 := by
    simp only [floorf, sub]
    congr 1
    ring
  rw [e]
  have hb : 2 ^ 149 < 2 ^ 128 * 2 ^ 149 := by
    have h1 : 1 < 2 ^ 128 := Nat.one_lt_two_pow (by norm_num)
    have h2 : 0 < 2 ^ 149 := Nat.pow_pos (by norm_num)
    exact (Nat.lt_mul_iff_one_lt_left h2).mpr h1
  have hle : (k % 2 ^ 149).natAbs ≤ 2 ^ 149 * 1 := by omega
  obtain ⟨hj, h1⟩ := round_nonneg_le (k % 2 ^ 149) 1 (2 ^ 149) (by norm_num) hx0
    rep_two_pow_149 hb hle
  refine ⟨_, hj, Int.natCast_nonneg _, ?_⟩
  omega

/-- The floor-wrap of a non-negative binary32 number is exact. -/
theorem sub_floorf_exact (k : ℤ) (hk : 0 ≤ k) (hb : isBinary32 (fin k) = true) :
    sub (fin k) (floorf (fin k)) = fin (k % 2 ^ 149) := by
  have hx0 : 0 ≤ k % 2 ^ 149 := Int.emod_nonneg _ (by norm_num)
  have e : sub (fin k) (floorf (fin k)) = round (k % 2 ^ 149) 1 := by
    simp only [floorf, sub]
    congr 1
    ring
  rw [e]
  have hrep := (isBinary32_fin k hb).1
  have hlt := (isBinary32_fin k hb).2.2
  have hrx : Rep (k.natAbs % 2 ^ 149) := rep_mod_of_rep _ hrep
  have hnat : (k % 2 ^ 149).natAbs = k.natAbs % 2 ^ 149 := by
    have h1 : ((k % 2 ^ 149).natAbs : ℤ) = ((k.natAbs % 2 ^ 149 : ℕ) : ℤ) := by
      rw [Int.natAbs_of_nonneg hx0]
      push_cast
      rw [abs_of_nonneg hk]
    exact_mod_cast h1
  unfold round
  rw [hnat, roundMag_of_rep _ hrx]
  have hm : k.natAbs % 2 ^ 149 < 2 ^ 149 := Nat.mod_lt _ (Nat.pow_pos (by norm_num))
  have hb : 2 ^ 149 < 2 ^ 128 * 2 ^ 149 := by
    have h1 : 1 < 2 ^ 128 := Nat.one_lt_two_pow (by norm_num)
    have h2 : 0 < 2 ^ 149 := Nat.pow_pos (by norm_num)
    exact (Nat.lt_mul_iff_one_lt_left h2).mpr h1
  rw [if_neg (not_le.mpr (lt_trans hm hb)), if_neg (not_lt.mpr hx0)]
  congr 1
  push_cast
  rw [abs_of_nonneg hk]

/-- Rounding is monotone against a binary32 number: an exact result that is at most the
binary32 number `t` rounds to a value that is at most `t`. -/
theorem round_le_of_le (s t : ℤ) (ht : isBinary32 (fin t) = true) (h : s ≤ t) :
    le (round s 1) (fin t) = true := by
  obtain ⟨hrep, -, hlt⟩ := isBinary32_fin t ht
  by_cases hs : s < 0
  · unfold round
    split_ifs with h1
    · simp [le, hs]
    · simp only [le, decide_eq_true_eq]
      by_cases ht0 : 0 ≤ t
      · omega
      · have h2 : t.natAbs * 1 ≤ s.natAbs := by omega
        have h3 := le_roundMag_of_rep_le s.natAbs 1 t.natAbs (by norm_num) hrep h2
        omega
  · have hs0 : 0 ≤ s := not_lt.mp hs
    have h2 : s.natAbs ≤ t.natAbs * 1 := by omega
    have h3 := roundMag_le_of_le_rep s.natAbs 1 t.natAbs (by norm_num) hrep h2
    unfold round
    rw [if_neg (by omega), if_neg hs]
    simp only [le, decide_eq_true_eq]
    omega

/-- A negative value divided by a positive finite value is negative infinity or a finite
value that is not above 0. -/
theorem div_of_neg (p : Float32) (d : ℤ) (hp : lt p zero = true) (hd : 0 < d) :
    div p (fin d) = inf true ∨ ∃ b : ℤ, div p (fin d) = fin b ∧ b ≤ 0 := by
  cases p with
  | fin a =>
    simp only [lt, zero, decide_eq_true_eq] at hp
    simp only [div]
    rw [if_neg (by omega), if_neg (by omega)]
    unfold round
    have hn : a * 2 ^ 149 < 0 := by
      have : (0 : ℤ) < 2 ^ 149 := by norm_num
      exact mul_neg_of_neg_of_pos hp this
    split_ifs with h1
    · left
      rw [decide_eq_true hn]
    · right
      exact ⟨_, rfl, by omega⟩
  | inf s =>
    simp only [lt, zero] at hp
    left
    simp only [div, hp]
    have : decide (d < 0) = false := by
      simp only [decide_eq_false_iff_not]
      omega
    rw [this]
    rfl
  | nan => simp [lt] at hp

/-- Adding negative infinity or a finite value that is not above 0 to a binary32 number
`t` gives a value that is not above `t`. -/
theorem add_le_self (t : ℤ) (y : Float32) (ht : isBinary32 (fin t) = true)
    (hy : y = inf true ∨ ∃ b : ℤ, y = fin b ∧ b ≤ 0) :
    le (add (fin t) y) (fin t) = true := by
  rcases hy with hy | ⟨b, hy, hb⟩
  · rw [hy]
    rfl
  · rw [hy]
    simp only [add]
    exact round_le_of_le (t + b) t ht (by omega)

end Float32

end vox

namespace vox

namespace binary32

namespace AnimatorState

variable {T : Type}

theorem setTimeRatio_stores (s : AnimatorState T) (r : Float32) :
    (s.setTimeRatio r)._time_ratio =
      if s.loop then Float32.sub r (Float32.floorf r)
      else Float32.clamp Float32.zero r Float32.one := by
  unfold setTimeRatio
  cases s.loop <;> rfl

theorem update_stores (Run : AnimatorState T → List T) (s : AnimatorState T) (dt : Float32) :
    (s._update Run dt)._time_ratio = (s.setTimeRatio (newTime s dt))._time_ratio := by
  unfold _update newTime
  simp only []
  split_ifs <;> rfl

/-- A finite value from 0 to 2^149 units passes the test `0.f <= x && x <= 1.f`. -/
theorem inUnit_fin (j : ℤ) (h0 : 0 ≤ j) (h1 : j ≤ 2 ^ 149) :
    Float32.inUnit (Float32.fin j) = true := by
  simp only [Float32.inUnit, Float32.le, Float32.zero, Float32.one, Bool.and_eq_true,
    decide_eq_true_eq]
  exact ⟨h0, h1⟩

/-- The looping branch on a finite argument stores a value of the closed unit interval. -/
theorem inUnit_wrap (k : ℤ) :
    Float32.inUnit (Float32.sub (Float32.fin k) (Float32.floorf (Float32.fin k))) = true := by
  obtain ⟨j, hj, h0, h1⟩ := Float32.sub_floorf_mem_unit k
  rw [hj]
  exact inUnit_fin j h0 h1

/-- The clamping branch on a finite argument stores a value of the closed unit interval. -/
theorem inUnit_clamp (k : ℤ) :
    Float32.inUnit (Float32.clamp Float32.zero (Float32.fin k) Float32.one) = true := by
  unfold Float32.clamp
  simp only [Float32.lt, Float32.zero, Float32.one, decide_eq_true_eq]
  split_ifs with h1 h2
  · exact inUnit_fin 0 (le_refl _) (by positivity)
  · exact inUnit_fin _ (by positivity) (le_refl _)
  · exact inUnit_fin k (not_lt.mp h1) (not_lt.mp h2)

theorem inUnit_setTimeRatio (s : AnimatorState T) (r : Float32) (hr : r.isFinite = true) :
    Float32.inUnit (s.setTimeRatio r)._time_ratio = true := by
  rw [setTimeRatio_stores]
  cases r with
  | fin k =>
    split_ifs
    · exact inUnit_wrap k
    · exact inUnit_clamp k
  | inf b => simp [Float32.isFinite] at hr
  | nan => simp [Float32.isFinite] at hr

/-- C1, as stated, fails: the looping sample clip is given the ratio -2^-30, a binary32
number. The difference `r - floorf(r)` is 1 - 2^-30 before rounding and `1.f` after it, so
the stored time ratio is 1 and not below 1. -/
theorem setTimeRatio_loop_stores_one :
    sampleClip.loop = true ∧
      Float32.isBinary32 (Float32.ofRatio (-1) (2 ^ 30)) = true ∧
      Float32.floorf (Float32.ofRatio (-1) (2 ^ 30)) = Float32.ofRatio (-1) 1 ∧
      (sampleClip.setTimeRatio (Float32.ofRatio (-1) (2 ^ 30))).timeRatio = Float32.one ∧
      Float32.lt (sampleClip.setTimeRatio (Float32.ofRatio (-1) (2 ^ 30))).timeRatio
        Float32.one = false := by
  decide

/-- C1, amended: with the loop flag set, `setTimeRatio r` stores the binary32 result of
`r - floorf(r)`. For a finite `r` of either sign and any size the stored value lies in the
closed interval [0,1]; for a binary32 number `r >= 0` it is exactly `r - floor r` and
below 1; for an infinite or NaN `r` it is NaN. The input 1.25 is stored as 0.25. -/
theorem setTimeRatio_loop (s : AnimatorState T) (r : Float32) (h : s.loop = true) :
    (s.setTimeRatio r).timeRatio = Float32.sub r (Float32.floorf r) ∧
      (r.isFinite = true →
        Float32.le Float32.zero (s.setTimeRatio r).timeRatio = true ∧
          Float32.le (s.setTimeRatio r).timeRatio Float32.one = true) ∧
      (∀ k : ℤ, r = Float32.fin k → 0 ≤ k → r.isBinary32 = true →
        (s.setTimeRatio r).timeRatio = Float32.fin (k % 2 ^ 149) ∧
          Float32.lt (s.setTimeRatio r).timeRatio Float32.one = true) ∧
      (r.isFinite = false → (s.setTimeRatio r).timeRatio = Float32.nan) ∧
      (s.setTimeRatio (Float32.ofRatio 5 4)).timeRatio = Float32.ofRatio 1 4 := by
  have e : ∀ x : Float32, (s.setTimeRatio x).timeRatio = Float32.sub x (Float32.floorf x) := by
    intro x
    show (s.setTimeRatio x)._time_ratio = _
    rw [setTimeRatio_stores, h]
    rfl
  refine ⟨e r, ?_, ?_, ?_, ?_⟩
  · intro hr
    have hu := inUnit_setTimeRatio s r hr
    simp only [Float32.inUnit, Bool.and_eq_true] at hu
    exact hu
  · intro k hk h0 hb
    rw [e, hk]
    rw [hk] at hb
    rw [Float32.sub_floorf_exact k h0 hb]
    refine ⟨rfl, ?_⟩
    simp only [Float32.lt, Float32.one, decide_eq_true_eq]
    exact Int.emod_lt_of_pos _ (by positivity)
  · intro hr
    rw [e]
    cases r with
    | fin k => simp [Float32.isFinite] at hr
    | inf b => simp [Float32.floorf, Float32.sub]
    | nan => rfl
  · rw [e]
    decide

/-- C1, amended, at a concrete input: the looping sample clip stores the input -3/4. -/
theorem setTimeRatio_loop_witness :
    sampleClip.loop = true ∧
      (sampleClip.setTimeRatio (Float32.ofRatio (-3) 4)).timeRatio = Float32.ofRatio 1 4 ∧
      Float32.le (sampleClip.setTimeRatio (Float32.ofRatio (-3) 4)).timeRatio Float32.one
        = true ∧
      (sampleClip.setTimeRatio (Float32.ofRatio 5 4)).timeRatio = Float32.ofRatio 1 4 :=
  ⟨rfl,
    (setTimeRatio_loop sampleClip (Float32.ofRatio (-3) 4) rfl).1.trans (by decide),
    ((setTimeRatio_loop sampleClip (Float32.ofRatio (-3) 4) rfl).2.1 (by decide)).2,
    (setTimeRatio_loop sampleClip (Float32.ofRatio (-3) 4) rfl).2.2.2.2⟩

/-- C4, as stated, fails: the looping clip `sampleClipCreeping` stands at the time ratio 0
on a one second animation and plays at the speed -2^-30. `update(1.f)` computes the new
time -2^-30 without rounding, and the floor-wrap stores `1.f`: not the number
1 - 2^-30 that the wrap of the claim gives, and not below 1. -/
theorem update_wraps_to_one :
    sampleClipCreeping.play = true ∧ sampleClipCreeping.loop = true ∧
      Float32.lt Float32.zero sampleClipCreeping._animation.duration = true ∧
      newTime sampleClipCreeping Float32.one = Float32.ofRatio (-1) (2 ^ 30) ∧
      (sampleClipCreeping._update sampleRun Float32.one).timeRatio = Float32.one ∧
      (sampleClipCreeping._update sampleRun Float32.one).timeRatio ≠
        Float32.fin (2 ^ 149 - 2 ^ 119) ∧
      Float32.lt (sampleClipCreeping._update sampleRun Float32.one).timeRatio Float32.one
        = false := by
  decide

/-- C4, amended: a playing clip on an animation of positive finite duration.
`update dt` hands to `setTimeRatio` the new time `t + dt * playback_speed / duration`,
each of the three operations rounded to binary32, and stores its floor-wrap `n - floorf(n)`,
rounded, when the clip loops and its clamp into [0,1] when it does not. For a finite new
time the stored ratio lies in [0,1]. When the product `dt * playback_speed` is negative
the new time is not after the binary32 number `t`: a negative speed does not move the
position forward. -/
theorem update_advances (Run : AnimatorState T → List T) (s : AnimatorState T)
    (dt : Float32) (d : ℤ) (hp : s.play = true) (hd : s._animation.duration = Float32.fin d)
    (hd0 : 0 < d) :
    newTime s dt =
        Float32.add s.timeRatio
          (Float32.div (Float32.mul dt s.playback_speed) s._animation.duration) ∧
      (s._update Run dt).timeRatio =
        (if s.loop then Float32.sub (newTime s dt) (Float32.floorf (newTime s dt))
        else Float32.clamp Float32.zero (newTime s dt) Float32.one) ∧
      ((newTime s dt).isFinite = true →
        Float32.le Float32.zero (s._update Run dt).timeRatio = true ∧
          Float32.le (s._update Run dt).timeRatio Float32.one = true) ∧
      (∀ t : ℤ, s.timeRatio = Float32.fin t → Float32.isBinary32 (Float32.fin t) = true →
        Float32.lt (Float32.mul dt s.playback_speed) Float32.zero = true →
        Float32.le (newTime s dt) s.timeRatio = true) := by
  have hn : newTime s dt =
      Float32.add s.timeRatio
        (Float32.div (Float32.mul dt s.playback_speed) s._animation.duration) := by
    unfold newTime timeRatio
    rw [hp]
    rfl
  have hs : (s._update Run dt).timeRatio =
      (if s.loop then Float32.sub (newTime s dt) (Float32.floorf (newTime s dt))
      else Float32.clamp Float32.zero (newTime s dt) Float32.one) := by
    show (s._update Run dt)._time_ratio = _
    rw [update_stores, setTimeRatio_stores]
  refine ⟨hn, hs, ?_, ?_⟩
  · intro hf
    have hu : Float32.inUnit (s._update Run dt)._time_ratio = true := by
      rw [update_stores]
      exact inUnit_setTimeRatio s (newTime s dt) hf
    simp only [Float32.inUnit, Bool.and_eq_true] at hu
    exact hu
  · intro t ht hb hneg
    rw [hn, ht, hd]
    exact Float32.add_le_self t _ hb (Float32.div_of_neg _ d hneg hd0)

/-- C4, amended, at a concrete input: the sample clip at speed -3 is updated by one
second. -/
theorem update_advances_witness :
    sampleClipBackward.play = true ∧
      sampleClipBackward._animation.duration = Float32.fin (2 ^ 150) ∧ (0 : ℤ) < 2 ^ 150 ∧
      (sampleClipBackward._update sampleRun Float32.one).timeRatio = Float32.ofRatio 1 2 ∧
      Float32.le (newTime sampleClipBackward Float32.one) sampleClipBackward.timeRatio
        = true :=
  ⟨rfl, by decide, by decide,
    (update_advances sampleRun sampleClipBackward Float32.one (2 ^ 150) rfl (by decide)
      (by decide)).2.1.trans (by decide),
    (update_advances sampleRun sampleClipBackward Float32.one (2 ^ 150) rfl (by decide)
      (by decide)).2.2.2 0 (by decide) (by decide) (by decide)⟩

end AnimatorState

end binary32

end vox
